import Mathlib

set_option maxRecDepth 100000

/-!
Verification of the sharptask core: a shallow embedding of the line grammar
parser (`src/taskparser.rs`), the metadata stream parser, the reconciliation
engine (`src/tasksync.rs`, `md_to_tc`) and the line patcher
(`update_obsidian_tasks`), together with proofs and refutations of the
specified properties.

Text is embedded as `List Char` (Lean `String.data`).  Unicode grapheme
segmentation (the `unicode_segmentation` crate) is modelled for the alphabet
the program cares about: a cluster is a character together with the run of
variation selectors (U+FE0F) that follows it; all metadata glyphs used by the
program are single scalars, optionally followed by U+FE0F.
-/

namespace Sharptask

abbrev Str := List Char

/-- Variation selector 16, the only combining character the program's
glyph set exercises. -/
def vs16 : Char := Char.ofNat 0xFE0F

/-- The Unicode white-space set used by Rust `char::is_whitespace`,
`str::trim` and the regex class `\s`. -/
def rustWS (c : Char) : Bool :=
  c = ' ' || c = '\t' || c = '\n' || c = '\x0d' ||
  c = Char.ofNat 0x0B || c = Char.ofNat 0x0C || c = Char.ofNat 0x85 ||
  c = Char.ofNat 0xA0 || c = Char.ofNat 0x1680 ||
  (0x2000 ≤ c.toNat && c.toNat ≤ 0x200A) ||
  c = Char.ofNat 0x2028 || c = Char.ofNat 0x2029 ||
  c = Char.ofNat 0x202F || c = Char.ofNat 0x205F || c = Char.ofNat 0x3000

/-- Rust `str::trim_start`. -/
def trimLeft (s : Str) : Str := s.dropWhile rustWS

/-- Rust `str::trim_end`. -/
def trimRight (s : Str) : Str := (s.reverse.dropWhile rustWS).reverse

/-- Rust `str::trim`. -/
def trim (s : Str) : Str := trimLeft (trimRight s)

/-- Substring occurrence test (Rust `str::contains` for a literal pattern). -/
def occursB (pat : Str) : Str → Bool
  | [] => pat.isPrefixOf []
  | c :: rest => pat.isPrefixOf (c :: rest) || occursB pat rest

/-- Fuel-driven worker for `replaceAll`; the fuel is an upper bound on the
number of characters still to scan, so `raF s.length s` is total. -/
def raF : Nat → Str → Str → Str → Str
  | 0, s, _, _ => s
  | f + 1, s, pat, rep =>
    match s with
    | [] => []
    | c :: rest =>
      if pat.isPrefixOf (c :: rest) then
        rep ++ raF f ((c :: rest).drop pat.length) pat rep
      else
        c :: raF f rest pat rep

/-- Rust `str::replace`: replace every non-overlapping leftmost occurrence of
`pat` by `rep`.  For the (never exercised) empty pattern Rust inserts the
replacement at every character boundary. -/
def replaceAll (s pat rep : Str) : Str :=
  if pat = [] then rep ++ s.foldr (fun c acc => c :: (rep ++ acc)) []
  else raF s.length s pat rep

/-- The characters of `s` between positions `a` (inclusive) and `b`
(exclusive). -/
def seg (s : Str) (a b : Nat) : Str := (s.drop a).take (b - a)

/-- Grapheme segmentation helper: returns the leading run of variation
selectors of `s` and the clusters of the remainder. -/
def groupAux : Str → Str × List Str
  | [] => ([], [])
  | c :: rest =>
    let (vs, gs) := groupAux rest
    if c = vs16 then (c :: vs, gs) else ([], (c :: vs) :: gs)

/-- Grapheme segmentation (model of `unicode_segmentation::graphemes`):
every character starts a cluster and absorbs the variation selectors that
follow it; a leading run of variation selectors forms its own cluster. -/
def group (s : Str) : List Str :=
  match groupAux s with
  | (vs, gs) => if vs = [] then gs else vs :: gs

/-! ### Calendar dates (`chrono::NaiveDate`) -/

/-- A proleptic Gregorian calendar date (`chrono::NaiveDate`). -/
structure YMD where
  year : Int
  month : Nat
  day : Nat
deriving DecidableEq, Repr

def isLeap (y : Int) : Bool :=
  (y % 4 = 0 && y % 100 ≠ 0) || y % 400 = 0

def daysInMonth (y : Int) (m : Nat) : Nat :=
  if m = 1 then 31 else if m = 2 then (if isLeap y then 29 else 28)
  else if m = 3 then 31 else if m = 4 then 30 else if m = 5 then 31
  else if m = 6 then 30 else if m = 7 then 31 else if m = 8 then 31
  else if m = 9 then 30 else if m = 10 then 31 else if m = 11 then 30
  else if m = 12 then 31 else 0

def validYMD (d : YMD) : Bool :=
  1 ≤ d.month && d.month ≤ 12 && 1 ≤ d.day && d.day ≤ daysInMonth d.year d.month

def isDigit (c : Char) : Bool := 48 ≤ c.toNat && c.toNat ≤ 57

def digitVal (c : Char) : Nat := c.toNat - 48

def digitsToNat (ds : Str) : Nat := ds.foldl (fun acc c => 10 * acc + digitVal c) 0

/-- Take at most `w` leading decimal digits (chrono numeric field parsing with
maximum width `w`). -/
def takeDigits (w : Nat) (s : Str) : Str × Str :=
  match w, s with
  | 0, s => ([], s)
  | _ + 1, [] => ([], [])
  | w + 1, c :: rest =>
    if isDigit c then
      let (ds, r) := takeDigits w rest
      (c :: ds, r)
    else ([], c :: rest)

/-- `chrono::NaiveDate::parse_from_str(s, "%Y-%m-%d")`: an optionally signed
year of at most four digits, `-`, a month of at most two digits, `-`, a day of
at most two digits, with nothing left over, checked for calendar validity. -/
def parseDateStr (s : Str) : Option YMD :=
  let neg : Bool := s.head? = some '-'
  let s1 : Str := if neg then s.tail else s
  let (ys, r1) := takeDigits 4 s1
  if ys = [] then none else
  if r1.head? = some '-' then
    let (ms, r3) := takeDigits 2 r1.tail
    if ms = [] then none else
    if r3.head? = some '-' then
      let (ds, r5) := takeDigits 2 r3.tail
      if ds = [] then none else
      if r5 ≠ [] then none else
      let y : Int := if neg then -(digitsToNat ys : Int) else (digitsToNat ys : Int)
      let d : YMD := ⟨y, digitsToNat ms, digitsToNat ds⟩
      if validYMD d then some d else none
    else none
  else none

/-- Days since 1970-01-01 of a proleptic Gregorian date (the value
underlying `NaiveDate::and_time(midnight).timestamp()`). -/
def epochDays (d : YMD) : Int :=
  let m : Int := (d.month : Int)
  let y : Int := d.year - (if m ≤ 2 then 1 else 0)
  let era : Int := (if 0 ≤ y then y else y - 399) / 400
  let yoe : Int := y - era * 400
  let doy : Int := (153 * (m + (if 2 < m then -3 else 9)) + 2) / 5 + (d.day : Int) - 1
  let doe : Int := yoe * 365 + yoe / 4 - yoe / 100 + doy
  era * 146097 + doe - 719468

/-- `date.and_time(MIDNIGHT).and_utc().timestamp()` (the comparison side of
`compare_date_fn!`). -/
def tsUTC (d : YMD) : Int := epochDays d * 86400

/-- `date.and_time(MIDNIGHT).and_local_timezone(tz).unwrap().to_utc().timestamp()`
with the time zone embedded as a fixed offset `tz` in seconds east of UTC
(the writing side of `md_to_tc`). -/
def tsTz (tz : Int) (d : YMD) : Int := tsUTC d - tz

/-- Decimal digits of `n`, most significant first (fuel-driven so that it
reduces definitionally). -/
def natDigitsF : Nat → Nat → Str
  | 0, _ => []
  | f + 1, n =>
    if n < 10 then [Char.ofNat (48 + n)]
    else natDigitsF f (n / 10) ++ [Char.ofNat (48 + n % 10)]

def natDigits (n : Nat) : Str := natDigitsF (n + 1) n

/-- Zero-pad the decimal rendering of `n` to width `w` (chrono `Display`
for year/month/day fields). -/
def padNat (w n : Nat) : Str :=
  let ds := natDigits n
  List.replicate (w - ds.length) '0' ++ ds

/-- `chrono` `Display` rendering of a `NaiveDate` (for the year range
`0..=9999` the program ever renders). -/
def dateRender (d : YMD) : Str :=
  padNat 4 d.year.toNat ++ ['-'] ++ padNat 2 d.month ++ ['-'] ++ padNat 2 d.day

/-- Parse a decimal `i64` (`str::parse::<i64>` as used on stored timestamp
values; the i64 range check is immaterial at the magnitudes the program
stores and is not modelled). -/
def parseI64 (s : Str) : Option Int :=
  match s with
  | '-' :: rest =>
    if rest ≠ [] && rest.all isDigit then some (-(digitsToNat rest : Int)) else none
  | _ => if s ≠ [] && s.all isDigit then some (digitsToNat s : Int) else none

/-- Decimal rendering of an `i64` (`i64::to_string`). -/
def intToStr (i : Int) : Str :=
  if i < 0 then '-' :: natDigits (-i).toNat else natDigits i.toNat

/-! ### Task record data model (`taskparser.rs`) -/

/-- `taskparser::Status`. -/
inductive Status where
  | Pending
  | Complete
  | Canceled
deriving DecidableEq, Repr

/-- `taskparser::Priority`. -/
inductive Priority where
  | Lowest
  | Low
  | Normal
  | Medium
  | High
  | Highest
deriving DecidableEq, Repr

/-- `Display for Priority`: the single-letter code written to and compared
with the store's `priority` value. -/
def prioLetter : Priority → Str
  | .Lowest | .Low => ['L']
  | .Normal => []
  | .Medium => ['M']
  | .High | .Highest => ['H']

/-- `taskparser::ObsidianTask`.  A `taskchampion::Uuid` is embedded as its
canonical lowercase hyphenated rendering. -/
structure ObsidianTask where
  uuid : Option Str := none
  status : Status := .Pending
  description : Str := []
  tags : List Str := []
  due : Option YMD := none
  scheduled : Option YMD := none
  start : Option YMD := none
  created : Option YMD := none
  done : Option YMD := none
  canceled : Option YMD := none
  priority : Priority := .Normal
  project : Option Str := none
deriving DecidableEq, Repr

def gDue : Str := "📅".data
def gSched : Str := "⏳".data
def gStart : Str := "🛫".data
def gCreated : Str := "➕".data
def gDone : Str := "✅".data
def gCanceled : Str := "❌".data
def gHighest : Str := "🔺".data
def gHigh : Str := "⏫".data
def gMedium : Str := "🔼".data
def gLow : Str := "🔽".data
def gLowestBase : Str := "⏬".data
def gLowestVS : Str := "⏬️".data
def gRecur : Str := "🔁".data
def gId : Str := "🆔".data
def gBlocked : Str := "⛔".data
def gProject : Str := "🔨".data

/-- `taskparser::SIGNIFICANT_EMOJI`, as grapheme clusters.  Note the lowest
priority glyph appears in its base (variation-selector-free) encoding here. -/
def SIGNIFICANT_EMOJI : List Str :=
  [gDue, gSched, gStart, gCreated, gDone, gCanceled,
   gHighest, gHigh, gMedium, gLow, gLowestBase, gRecur,
   gId, gBlocked, gProject]

/-! ### Line grammar parser (`taskparser.rs`) -/

/-- `parse_preamble`: the regex `^\s*- \[(?<status>[x\- ])\] (?<remaining>.*)$`
applied to the whole line; `.` does not match a newline and `$` anchors at the
end of the haystack, so a match requires the remainder to be newline-free. -/
def parsePreamble (s : Str) : Option (Status × Str) :=
  let rest := s.dropWhile rustWS
  if "- [".data.isPrefixOf rest then
    match rest.drop 3 with
    | [] => none
    | c :: rest2 =>
      if "] ".data.isPrefixOf rest2 then
        let rem := rest2.drop 2
        if rem.contains '\n' then none
        else if c = 'x' then some (.Complete, rem)
        else if c = '-' then some (.Canceled, rem)
        else if c = ' ' then some (.Pending, rem)
        else none
      else none
  else none

def isHexDigit (c : Char) : Bool :=
  isDigit c || (97 ≤ c.toNat && c.toNat ≤ 102) || (65 ≤ c.toNat && c.toNat ≤ 70)

def isLowerHexDigit (c : Char) : Bool :=
  isDigit c || (97 ≤ c.toNat && c.toNat ≤ 102)

def toLowerHex (c : Char) : Char :=
  if 65 ≤ c.toNat && c.toNat ≤ 70 then Char.ofNat (c.toNat + 32) else c

def uuidSeps : List Nat := [8, 13, 18, 23]

/-- `Uuid::parse_str`, restricted to the hyphenated and simple formats (the
program only ever feeds it text in those shapes).  The result is the uuid's
canonical lowercase hyphenated rendering, which is how an equal `Uuid` value
prints back. -/
def parseUuidStr (s : Str) : Option Str :=
  if s.length = 36 then
    if (List.range 36).all (fun i =>
        if uuidSeps.contains i then s.getD i ' ' = '-'
        else isHexDigit (s.getD i ' ')) then
      some (s.map toLowerHex)
    else none
  else if s.length = 32 then
    if s.all isHexDigit then
      let t := s.map toLowerHex
      some (t.take 8 ++ ['-'] ++ (t.drop 8).take 4 ++ ['-'] ++ (t.drop 12).take 4
            ++ ['-'] ++ (t.drop 16).take 4 ++ ['-'] ++ t.drop 20)
    else none
  else none

def uuidOpen : Str := "[[uuid: ".data
def uuidClose : Str := "|⚔️]]".data

def noNl (s : Str) : Bool := !(s.contains '\n')

/-- Greedy end position for an identifier-anchor match starting at `i`:
the largest `j` such that `|⚔️]]` starts at `j` and the capture
`s[i+8..j]` is newline-free (`.*` cannot cross a newline). -/
def matchEndsAt (s : Str) (i : Nat) : Option Nat :=
  ((List.range (s.length + 1)).filter (fun j =>
    decide (i + 8 ≤ j) && uuidClose.isPrefixOf (s.drop j) && noNl (seg s (i + 8) j))).getLast?

/-- The regex search `\[\[uuid: (?<uuid>.*)\|⚔️\]\]` of `extract_task_parts`:
leftmost match start, greedy capture.  Returns the whole matched text and the
captured identifier text. -/
def anchorFind (s : Str) : Option (Str × Str) :=
  match (List.range s.length).find? (fun i =>
      uuidOpen.isPrefixOf (s.drop i) && (matchEndsAt s i).isSome) with
  | none => none
  | some i =>
    match matchEndsAt s i with
    | none => none
    | some j => some (seg s i (j + 5), seg s (i + 8) j)

/-- The grapheme scan of `extract_task_parts`: the description is everything
before the first significant cluster; when one exists, the metadata run is the
input with all occurrences of that description prefix replaced away, then
trimmed. -/
def splitDescMeta (s : Str) : Str × Option Str :=
  let gs := group s
  let dgs := gs.takeWhile (fun g => !(SIGNIFICANT_EMOJI.contains g))
  if dgs.length = gs.length then (trim s, none)
  else
    let descPre := dgs.flatten
    (trim descPre, some (trim (replaceAll s descPre [])))

/-- `extract_task_parts`: anchor removal (regardless of whether the embedded
identifier parses), then the description/metadata split.  Returns the
description (the mutated `task`), the metadata run, and the identifier parse
outcome (`None` = no anchor found, `Some r` = anchor found with result `r`). -/
def extractTaskParts (s : Str) : Str × Option Str × Option (Option Str) :=
  match anchorFind s with
  | some (whole, idStr) =>
    let s1 := trim (replaceAll s whole [])
    ((splitDescMeta s1).1, (splitDescMeta s1).2, some (parseUuidStr idStr))
  | none =>
    ((splitDescMeta s).1, (splitDescMeta s).2, none)

/-- `parse_tags`: scan the graphemes; at each `#`, the tag text runs to the
next space cluster and is split on `/`; scanning resumes immediately after
the `#`, so overlapping runs are re-scanned exactly as in the source. -/
def parseTagsGo : List Str → List Str
  | [] => []
  | g :: rest =>
    if g = ['#'] then
      ((rest.takeWhile (fun h => h ≠ [' '])).flatten.splitOn '/') ++ parseTagsGo rest
    else parseTagsGo rest

def parseTags (s : Str) : List Str := parseTagsGo (group s)

/-! ### Metadata stream parser (`MetadataParser` iterator) -/

/-- `taskparser::ObsidianMetadata`. -/
inductive MDEvent where
  | due (d : YMD)
  | scheduled (d : YMD)
  | start (d : YMD)
  | created (d : YMD)
  | done (d : YMD)
  | canceled (d : YMD)
  | priority (p : Priority)
  | project (s : Str)
deriving DecidableEq, Repr

/-- One item of the metadata stream: `some e` models `Ok(e)`, `none` models
the `Err(..)` produced by a malformed date (the error message text is not
observable to the caller, which filters errors away). -/
abbrev MDItem := Option MDEvent

/-- `process_date!`: take the next 11 graphemes, trim, parse `%Y-%m-%d`. -/
def dateItem (mk : YMD → MDEvent) (rest : List Str) : MDItem :=
  (parseDateStr (trim (rest.take 11).flatten)).map mk

/-- Result of one pass through the `MetadataParser::next` match: the
iterator is exhausted, the grapheme is insignificant (`continue`), or an item
is yielded with the remaining graphemes. -/
inductive StepRes where
  | stop
  | skip (rest : List Str)
  | emit (it : MDItem) (rest : List Str)
deriving DecidableEq, Repr

/-- The match arms of `MetadataParser::next`, as a classification of one
grapheme cluster. -/
inductive GlyphKind where
  | due | sched | start | created | done | canceled
  | prHighest | prHigh | prMedium | prLow | prLowest
  | project | other
deriving DecidableEq, Repr

/-- Which arm of the `MetadataParser::next` match a cluster selects (the
conditions are tested in source order; they are mutually exclusive). -/
def glyphKind (g : Str) : GlyphKind :=
  if g = gDue then .due
  else if g = gSched then .sched
  else if g = gStart then .start
  else if g = gCreated then .created
  else if g = gDone then .done
  else if g = gCanceled then .canceled
  else if g = gHighest then .prHighest
  else if g = gHigh then .prHigh
  else if g = gMedium then .prMedium
  else if g = gLow then .prLow
  else if g = gLowestVS then .prLowest
  else if g = gProject then .project
  else .other

/-- One iteration of the `MetadataParser::next` loop (`taskparser.rs`
lines 300–342). -/
def mdStep : List Str → StepRes
  | [] => .stop
  | g :: rest =>
    match glyphKind g with
    | .due => .emit (dateItem .due rest) (rest.drop 11)
    | .sched => .emit (dateItem .scheduled rest) (rest.drop 11)
    | .start => .emit (dateItem .start rest) (rest.drop 11)
    | .created => .emit (dateItem .created rest) (rest.drop 11)
    | .done => .emit (dateItem .done rest) (rest.drop 11)
    | .canceled => .emit (dateItem .canceled rest) (rest.drop 11)
    | .prHighest => .emit (some (.priority .Highest)) rest
    | .prHigh => .emit (some (.priority .High)) rest
    | .prMedium => .emit (some (.priority .Medium)) rest
    | .prLow => .emit (some (.priority .Low)) rest
    | .prLowest => .emit (some (.priority .Lowest)) rest
    | .project =>
      let cap := rest.takeWhile (fun h => !(SIGNIFICANT_EMOJI.contains h))
      .emit (some (.project (trim cap.flatten))) (rest.drop cap.length)
    | .other => .skip rest

/-- Fuel-driven unrolling of the `MetadataParser` iterator into the list of
items it yields; one unit of fuel per `next` loop step. -/
def metadataEventsF : Nat → List Str → List MDItem
  | 0, _ => []
  | f + 1, gs =>
    match mdStep gs with
    | .stop => []
    | .skip r => metadataEventsF f r
    | .emit it r => it :: metadataEventsF f r

/-- The full event stream of `MetadataParser::new(run)` (the iterator is
finite: every step consumes at least one grapheme). -/
def metadataEvents (gs : List Str) : List MDItem := metadataEventsF (gs.length + 1) gs

/-- The per-event assignment loop in `parse` (later events overwrite earlier
ones). -/
def applyEvent (t : ObsidianTask) : MDEvent → ObsidianTask
  | .due d => { t with due := some d }
  | .done d => { t with done := some d }
  | .start d => { t with start := some d }
  | .created d => { t with created := some d }
  | .canceled d => { t with canceled := some d }
  | .scheduled d => { t with scheduled := some d }
  | .priority p => { t with priority := p }
  | .project s => { t with project := some s }

/-- `md.filter_map(Result::ok)` followed by the assignment loop. -/
def applyEvents (t : ObsidianTask) (items : List MDItem) : ObsidianTask :=
  (items.filterMap id).foldl applyEvent t

/-- The tail of `parse` after the preamble: assemble the record from the
description, metadata run and identifier parse outcome. -/
def assemble (st : Status) (desc : Str) (meta : Option Str)
    (uuid : Option Str) : Option ObsidianTask :=
  if desc.length = 0 then none
  else
    let base : ObsidianTask :=
      { uuid := uuid, status := st, description := desc, tags := parseTags desc }
    some (match meta with
          | none => base
          | some m => applyEvents base (metadataEvents (group m)))

/-- `taskparser::parse` (`parse_line` of the specification). -/
def parse (s : Str) : Option ObsidianTask :=
  match parsePreamble s with
  | none => none
  | some (st, rem) =>
    assemble st (extractTaskParts rem).1 (extractTaskParts rem).2.1
      ((extractTaskParts rem).2.2.getD none)

/-! ### Task record rendering

The renderer (`ObsidianTask::to_string`, used by `update_obsidian_tasks` and
`md_to_tc`) is referenced from `tasksync.rs` but its implementation is not
among the provided sources, so it is modelled from the specification. -/

/-- The checkbox marker of §4.1 (inverse of `parse_preamble`). -/
def statusMarker : Status → Char
  | .Pending => ' '
  | .Complete => 'x'
  | .Canceled => '-'

/-- The six dated marker kinds of §4.1. -/
inductive DK where
  | due | sched | start | created | done | canceled
deriving DecidableEq, Repr

/-- The glyph of each dated marker kind (taskparser.rs:300-342). -/
def dkGlyph : DK → Char
  | .due => '📅'
  | .sched => '⏳'
  | .start => '🛫'
  | .created => '➕'
  | .done => '✅'
  | .canceled => '❌'

/-- One rendered metadata element: a project, a dated marker with its glyph,
or a priority glyph. -/
inductive MPart where
  | proj (p : Str)
  | date (k : DK) (d : YMD)
  | prio (p : Priority)
deriving DecidableEq, Repr

/-- Priority glyphs.  For `Lowest` the base (variation-selector-free)
encoding is used: it is the one listed in `SIGNIFICANT_EMOJI`, hence the one
the description/metadata splitter recognizes (the §9 open question). -/
def prioGlyph : Priority → Char
  | .Lowest => '⏬'
  | .Low => '🔽'
  | .Medium => '🔼'
  | .High => '⏫'
  | .Highest => '🔺'
  | .Normal => ' '

def renderMPart : MPart → Str
  | .proj p => ' ' :: '🔨' :: ' ' :: p
  | .date k d => ' ' :: dkGlyph k :: ' ' :: dateRender d
  | .prio p => [' ', prioGlyph p]

def optPart (f : YMD → MPart) : Option YMD → List MPart
  | none => []
  | some d => [f d]

/-- The metadata elements of a record in the canonical order of §4.3:
project, due, scheduled, start, created, done, canceled, then the priority
glyph when the priority is not `Normal`. -/
def partsOf (t : ObsidianTask) : List MPart :=
  (match t.project with | none => [] | some p => [MPart.proj p])
  ++ optPart (.date .due) t.due
  ++ optPart (.date .sched) t.scheduled
  ++ optPart (.date .start) t.start
  ++ optPart (.date .created) t.created
  ++ optPart (.date .done) t.done
  ++ optPart (.date .canceled) t.canceled
  ++ (if t.priority = .Normal then [] else [MPart.prio t.priority])

def renderMiddle (t : ObsidianTask) : Str := (partsOf t).map renderMPart |>.flatten

/-- Modelled from the spec: `render` (§4.3) — the missing
`ObsidianTask::to_string`.  Checkbox marker, description, the metadata
markers in canonical order each preceded by a single space and its glyph,
and the identifier anchor last. -/
def render (t : ObsidianTask) : Str :=
  "- [".data ++ [statusMarker t.status] ++ "] ".data ++ t.description
  ++ renderMiddle t
  ++ (match t.uuid with
      | none => []
      | some u => " ".data ++ uuidOpen ++ u ++ uuidClose)

/-- Lowercase hyphenated uuid shape (the canonical `Uuid` rendering). -/
def canonicalUuid (u : Str) : Bool :=
  u.length = 36 &&
  (List.range 36).all (fun i =>
    if uuidSeps.contains i then u.getD i ' ' = '-'
    else isLowerHexDigit (u.getD i ' '))

/-- Well-formedness of a free-text fragment appearing in a rendered line
(description or project): trimmed, newline-free, bracket-free (so it cannot
fabricate or disturb an identifier anchor), not starting with a variation
selector, and containing no significant cluster. -/
def cleanText (p : Str) : Bool :=
  decide (trim p = p) && !(p.contains '\n') && !(p.contains '[') &&
  decide (p.head? ≠ some vs16) &&
  (group p).all (fun g => !(SIGNIFICANT_EMOJI.contains g))

def cleanDate : Option YMD → Bool
  | none => true
  | some d => validYMD d && decide (0 ≤ d.year) && decide (d.year ≤ 9999)

/-- Well-formedness of a task record: exactly the conditions under which its
§4.3 rendering is a faithful, lossless task line (§8's "did not originate
from a lossy parse").  Beyond the per-field shape conditions, the tag list
must be what the parser extracts from the description, and the description
followed by a space must not recur inside the rendered metadata run (the
splitter removes every occurrence of the description prefix). -/
def wellFormedB (t : ObsidianTask) : Bool :=
  decide (t.description ≠ []) && cleanText t.description &&
  decide (t.tags = parseTags t.description) &&
  (match t.project with | none => true | some p => decide (p ≠ []) && cleanText p) &&
  cleanDate t.due && cleanDate t.scheduled && cleanDate t.start &&
  cleanDate t.created && cleanDate t.done && cleanDate t.canceled &&
  (match t.uuid with | none => true | some u => canonicalUuid u) &&
  !(occursB (t.description ++ [' ']) (renderMiddle t))

def WellFormed (t : ObsidianTask) : Prop := wellFormedB t = true

instance : DecidablePred WellFormed := fun t => by
  unfold WellFormed
  infer_instance

/-! ### The external task store (`taskchampion`)

The store is an external collaborator (spec §6): it exposes
`get`/`create`/`set_field`/`commit` over records holding a status, a
description and a string-keyed value map (dates as decimal timestamp strings,
tags as `tag_<name>` presence keys).  The map is embedded as an association
list with set-semantics updates; key order is not observable through
`get_value`/`get_tags`. -/

/-- `taskchampion::Status` (the constructors this program touches). -/
inductive TCStatus where
  | Pending
  | Completed
  | Deleted
deriving DecidableEq, Repr

/-- `From<Status> for taskchampion::Status`. -/
def statusToTC : Status → TCStatus
  | .Pending => .Pending
  | .Complete => .Completed
  | .Canceled => .Deleted

/-- `PartialEq<taskchampion::Status> for Status`. -/
def statusEqTC (s : Status) (o : TCStatus) : Bool :=
  (s = .Pending && o = .Pending) || (s = .Complete && o = .Completed) ||
  (s = .Canceled && o = .Deleted)

/-- A `taskchampion::Task` as this program observes it. -/
structure TCTask where
  uuid : Str
  status : TCStatus
  description : Str
  kv : List (Str × Str)
deriving DecidableEq, Repr

/-- `Task::get_value`. -/
def getValue (tc : TCTask) (k : Str) : Option Str :=
  (tc.kv.find? (fun p => p.1 == k)).map (·.2)

/-- `Task::get_tags` filtered to user tags: the `tag_<name>` keys. -/
def userTags (tc : TCTask) : List Str :=
  tc.kv.filterMap (fun p =>
    if "tag_".data.isPrefixOf p.1 then some (p.1.drop 4) else none)

/-- `Task::set_value` on the record's value map: `none` removes the key,
`some v` binds it. -/
def tcSetValue (k : Str) (v : Option Str) (tc : TCTask) : TCTask :=
  match v with
  | none => { tc with kv := tc.kv.filter (fun p => !(p.1 == k)) }
  | some s => { tc with kv := tc.kv.filter (fun p => !(p.1 == k)) ++ [(k, s)] }

/-! The field comparison functions of `impl ObsidianTask` (`taskparser.rs`). -/

/-- `compare_date_fn!` for a given store key: the text date at UTC midnight
against the stored value parsed as `i64`. -/
def compareDateKey (d : Option YMD) (tc : TCTask) (k : Str) : Bool :=
  (d.map tsUTC) == ((getValue tc k).bind parseI64)

def compare_due (t : ObsidianTask) (tc : TCTask) : Bool := compareDateKey t.due tc "due".data
def compare_schedule (t : ObsidianTask) (tc : TCTask) : Bool :=
  compareDateKey t.scheduled tc "scheduled".data
def compare_start (t : ObsidianTask) (tc : TCTask) : Bool := compareDateKey t.start tc "wait".data
def compare_created (t : ObsidianTask) (tc : TCTask) : Bool :=
  compareDateKey t.created tc "created".data
def compare_done (t : ObsidianTask) (tc : TCTask) : Bool := compareDateKey t.done tc "end".data
def compare_canceled (t : ObsidianTask) (tc : TCTask) : Bool :=
  compareDateKey t.canceled tc "end".data

def compare_uuid (t : ObsidianTask) (tc : TCTask) : Bool :=
  match t.uuid with
  | some u => u == tc.uuid
  | none => false

def compare_status (t : ObsidianTask) (tc : TCTask) : Bool := statusEqTC t.status tc.status

def compare_description (t : ObsidianTask) (tc : TCTask) : Bool := t.description == tc.description

def compare_tags (t : ObsidianTask) (tc : TCTask) : Bool :=
  let tcTags := userTags tc
  t.tags.length == tcTags.length && t.tags.all (fun tg => tcTags.contains tg)

def compare_priority (t : ObsidianTask) (tc : TCTask) : Bool :=
  if t.priority = .Highest then (userTags tc).contains "next".data
  else prioLetter t.priority == (getValue tc "priority".data).getD []

def compare_project (t : ObsidianTask) (tc : TCTask) : Bool :=
  t.project == getValue tc "project".data

/-- `PartialEq<Task> for ObsidianTask`. -/
def obsEqTc (t : ObsidianTask) (tc : TCTask) : Bool :=
  compare_due t tc && compare_schedule t tc && compare_start t tc &&
  compare_created t tc && compare_done t tc && compare_canceled t tc &&
  compare_uuid t tc && compare_status t tc && compare_description t tc &&
  compare_tags t tc && compare_priority t tc && compare_project t tc

/-! ### Text-authoritative reconciliation (`TaskWarriorSync::md_to_tc`),
existing-record branch -/

/-- One pending store operation (spec §6 `set_field`; committed as a group). -/
inductive Op where
  | setStatus (s : TCStatus)
  | setDesc (d : Str)
  | setValue (k : Str) (v : Option Str)
deriving DecidableEq, Repr

/-- The in-memory task snapshot together with the accumulated operation
group. -/
structure SyncSt where
  tc : TCTask
  ops : List Op
deriving DecidableEq, Repr

def stSetValue (k : Str) (v : Option Str) (st : SyncSt) : SyncSt :=
  { tc := tcSetValue k v st.tc, ops := st.ops ++ [Op.setValue k v] }

def stSetStatus (s : TCStatus) (st : SyncSt) : SyncSt :=
  { tc := { st.tc with status := s }, ops := st.ops ++ [Op.setStatus s] }

def stSetDesc (d : Str) (st : SyncSt) : SyncSt :=
  { tc := { st.tc with description := d }, ops := st.ops ++ [Op.setDesc d] }

/-- Outcome of the existing-record branch of `md_to_tc`: `earlyEqual` is the
`*task == tc_task` short-circuit (`NoChange`); otherwise `ops` is the
operation group (empty means nothing was committed) and `tc` the store record
after the commit. -/
structure MdResult where
  earlyEqual : Bool
  ops : List Op
  tc : TCTask
deriving DecidableEq, Repr

def tagKey (tg : Str) : Str := "tag_".data ++ tg

/-- The `priority` value written by the update path. -/
def prioOpt : Priority → Option Str
  | .Normal => none
  | .Lowest | .Low => some ['L']
  | .Medium => some ['M']
  | .High | .Highest => some ['H']

/-- Status block (`tasksync.rs:97`). -/
def stepStatus (t : ObsidianTask) (s : SyncSt) : SyncSt :=
  if compare_status t s.tc then s else stSetStatus (statusToTC t.status) s

/-- Description block (line 106). -/
def stepDesc (t : ObsidianTask) (s : SyncSt) : SyncSt :=
  if compare_description t s.tc then s else stSetDesc t.description s

/-- Due-date block (line 122, `set_due`). -/
def stepDue (tz : Int) (t : ObsidianTask) (s : SyncSt) : SyncSt :=
  if compare_due t s.tc then s
  else stSetValue "due".data (t.due.map (fun d => intToStr (tsTz tz d))) s

/-- Wait-date block (line 147, `set_wait` from the text record's start). -/
def stepWait (tz : Int) (t : ObsidianTask) (s : SyncSt) : SyncSt :=
  if compare_start t s.tc then s
  else stSetValue "wait".data (t.start.map (fun d => intToStr (tsTz tz d))) s

/-- The stray block at line 172: guarded by the priority comparison but
calling `set_status` (the source comment reads "Update priority"). -/
def stepRogue (t : ObsidianTask) (s : SyncSt) : SyncSt :=
  if compare_priority t s.tc then s else stSetStatus (statusToTC t.status) s

/-- The clearing loop of the tags block: remove the `tag_` key of every tag
in `l`. -/
def clearFold (l : List Str) (s : SyncSt) : SyncSt :=
  l.foldl (fun acc tg => stSetValue (tagKey tg) none acc) s

/-- The adding loop of the tags block: bind the `tag_` key of every tag in
`l` to the empty string. -/
def addFold (l : List Str) (s : SyncSt) : SyncSt :=
  l.foldl (fun acc tg => stSetValue (tagKey tg) (some []) acc) s

/-- Tags block (line 177): clear every current user tag, then add the text
record's tags. -/
def stepTags (t : ObsidianTask) (s : SyncSt) : SyncSt :=
  if compare_tags t s.tc then s
  else addFold t.tags (clearFold (userTags s.tc) s)

/-- End-date block for a Complete record (line 213). -/
def stepDone (tz : Int) (t : ObsidianTask) (s : SyncSt) : SyncSt :=
  if t.status = .Complete && !(compare_done t s.tc) then
    stSetValue "end".data (t.done.map (fun d => intToStr (tsTz tz d))) s
  else s

/-- End-date block for a Canceled record (line 245). -/
def stepCanceledDate (tz : Int) (t : ObsidianTask) (s : SyncSt) : SyncSt :=
  if t.status = .Canceled && !(compare_canceled t s.tc) then
    stSetValue "end".data (t.canceled.map (fun d => intToStr (tsTz tz d))) s
  else s

/-- Scheduled block (line 278). -/
def stepSched (tz : Int) (t : ObsidianTask) (s : SyncSt) : SyncSt :=
  if compare_schedule t s.tc then s
  else stSetValue "scheduled".data (t.scheduled.map (fun d => intToStr (tsTz tz d))) s

/-- Priority block (line 314): write the mapped code, and for Highest also
set the reserved `next` tag. -/
def stepPrio (t : ObsidianTask) (s : SyncSt) : SyncSt :=
  if compare_priority t s.tc then s
  else
    let a := stSetValue "priority".data (prioOpt t.priority) s
    if t.priority = .Highest then stSetValue (tagKey "next".data) (some []) a else a

/-- Project block (line 334). -/
def stepProject (t : ObsidianTask) (s : SyncSt) : SyncSt :=
  if compare_project t s.tc then s else stSetValue "project".data t.project s

/-- The whole block sequence of the existing-record branch, in source
order. -/
def mdChain (tz : Int) (t : ObsidianTask) (s0 : SyncSt) : SyncSt :=
  stepProject t (stepPrio t (stepSched tz t (stepCanceledDate tz t (stepDone tz t
    (stepTags t (stepRogue t (stepWait tz t (stepDue tz t (stepDesc t
      (stepStatus t s0))))))))))

/-- `md_to_tc`, branch for a text record whose identifier resolves to an
existing store record (`tasksync.rs` lines 88–355).  The blocks run in source
order against the mutating in-memory snapshot; if the equality check
short-circuits or no operation was recorded, nothing is committed and the
store keeps `tc0`.  `tz` is the configured time zone as a fixed offset in
seconds. -/
def mdToTcUpdate (tz : Int) (t : ObsidianTask) (tc0 : TCTask) : MdResult :=
  if obsEqTc t tc0 then ⟨true, [], tc0⟩
  else
    let s11 := mdChain tz t ⟨tc0, []⟩
    if s11.ops = [] then ⟨false, [], tc0⟩ else ⟨false, s11.ops, s11.tc⟩

/-! ### Line patcher (`update_obsidian_tasks`) -/

/-- Split on `'\n'`, keeping a (possibly empty) final piece. -/
def splitNl : Str → List Str
  | [] => [[]]
  | c :: rest =>
    let ps := splitNl rest
    if c = '\n' then [] :: ps
    else
      match ps with
      | [] => [[c]]
      | a :: as_ => (c :: a) :: as_

/-- Remove one trailing `'\r'` (for a piece that was terminated by `'\n'`). -/
def stripCr (l : Str) : Str :=
  match l.reverse with
  | '\r' :: rest => rest.reverse
  | _ => l

/-- Rust `str::lines`: split at `\n` or `\r\n`; the final line ending is
optional; a lone trailing `\r` not followed by `\n` is kept. -/
def rustLines (s : Str) : List Str :=
  let ps := splitNl s
  let lastP := ps.getLastD []
  (ps.dropLast.map stripCr) ++ (if lastP = [] then [] else [lastP])

/-- Leading-whitespace prefix of a line (`len - trim_start().len()`). -/
def leadingWS (l : Str) : Str := l.takeWhile rustWS

/-- The patched line list of `update_obsidian_tasks`: replacement strings are
computed from the file as read (whitespace prefix from the original line),
then written in update order, so for duplicate indices the last update wins.
`none` models the index-out-of-range panic. -/
def patchLines (content : Str) (updates : List (Nat × Str)) : Option (List Str) :=
  let ls := rustLines content
  if updates.all (fun u => u.1 < ls.length) then
    some (updates.foldl (fun acc u => acc.set u.1 (leadingWS (ls.getD u.1 []) ++ u.2)) ls)
  else none

/-- The replacement file content written to the temporary path: every line,
patched or not, followed by exactly one `'\n'`.  The `new_text` of an update
stands for `update.task.to_string()`. -/
def applyUpdatesOut (content : Str) (updates : List (Nat × Str)) : Option Str :=
  (patchLines content updates).map (fun ls => (ls.map (fun l => l ++ ['\n'])).flatten)

/-- File-system state visible to the patcher: the contents at the original
path and at the temporary path. -/
structure FsState where
  orig : Option Str
  temp : Option Str
deriving DecidableEq, Repr

/-- The file-system effects of `update_obsidian_tasks`, in order. -/
inductive FsStep where
  | removeTemp
  | writeTemp (content : Str)
  | removeOrig
  | renameTemp
deriving DecidableEq, Repr

def fsApply (st : FsState) : FsStep → FsState
  | .removeTemp => { st with temp := none }
  | .writeTemp c => { st with temp := some c }
  | .removeOrig => { st with orig := none }
  | .renameTemp => { orig := st.temp, temp := none }

/-- The script of file-system operations `update_obsidian_tasks` performs for
output `out`: delete a stale temp file, write the full replacement to the
temp path, remove the original, rename the temp file over it. -/
def patchScript (out : Str) : List FsStep :=
  [.removeTemp, .writeTemp out, .removeOrig, .renameTemp]

/-- Execute the first `k` steps of a script (a failure after step `k` leaves
exactly this state behind). -/
def fsRun (st : FsState) (script : List FsStep) (k : Nat) : FsState :=
  (script.take k).foldl fsApply st

/-! ### Concrete instances used by the claim theorems -/

def uuidA : Str := "a80c42ce-dd29-4dc7-8582-34f36fcf8b80".data
def uuidB : Str := "96bb3816-aedd-4033-8ff6-4746a700aac8".data

/-- C2 failing input, text side: a Highest-priority record. -/
def c2Task : ObsidianTask :=
  { uuid := some uuidB, description := "T".data, priority := .Highest }

/-- C2 failing input, store side: the resolved record, agreeing on every
field except priority. -/
def c2Store : TCTask :=
  { uuid := uuidB, status := .Pending, description := "T".data, kv := [] }

/-- C4 failing input: the only differing field is the priority. -/
def c4Task : ObsidianTask :=
  { uuid := some uuidB, description := "T".data, priority := .Medium }

/-- C7 counterexample, text side: priority demoted to High, tag list with a
duplicate. -/
def c7Task : ObsidianTask :=
  { uuid := some uuidB, description := "T".data, tags := ["a".data, "a".data],
    priority := .High }

/-- C7 counterexample, store side: carries the stale reserved `next` tag. -/
def c7Store : TCTask :=
  { uuid := uuidB, status := .Pending, description := "T".data,
    kv := [("priority".data, "H".data), ("tag_a".data, []), ("tag_next".data, [])] }

/-- C1 counterexample: a minimal well-formed record with `Lowest` priority. -/
def c1Task : ObsidianTask :=
  { status := .Pending, description := "A".data, priority := .Lowest }

/-! ### Claim theorems -/

/-- C3 counterexample: the line parser does not recognize the anchor shape
`[[id: <identifier>|⚔]]` claimed by the specification — on the claim's
concrete input the identifier stays unparsed (`none`) and the anchor text
remains inside the description instead of the description being
`"Old task"`. -/
theorem c3_counterexample :
    parse "- [-] Old task [[id: a80c42ce-dd29-4dc7-8582-34f36fcf8b80|⚔]]".data =
      some { status := .Canceled,
             description := "Old task [[id: a80c42ce-dd29-4dc7-8582-34f36fcf8b80|⚔]]".data } ∧
    "Old task [[id: a80c42ce-dd29-4dc7-8582-34f36fcf8b80|⚔]]".data ≠ "Old task".data := by
  constructor
  · decide
  · decide

/-- C3 (amended): the identifier anchor has the fixed textual form
`[[uuid: <identifier>|⚔️]]` (with the variation-selector form of the glyph);
on the corresponding concrete input the parser returns status Canceled, the
identifier set, and description `"Old task"`. -/
theorem c3_amended_anchor_form :
    parse "- [-] Old task [[uuid: a80c42ce-dd29-4dc7-8582-34f36fcf8b80|⚔️]]".data =
      some { uuid := some uuidA, status := .Canceled, description := "Old task".data } := by
  decide

/-- C2: evaluation at the failing input.  For a Highest-priority text record
whose identifier resolves, the first text-authoritative run commits the
priority update together with the reserved `next` tag; the immediately
repeated run on the unchanged record is *not* `NoChange`: the field-by-field
comparison fails (the store now carries a tag the text record does not
list), and the run again issues and commits operations — it clears the
`next` tag and re-adds it. -/
theorem c2_second_run_commits :
    (mdToTcUpdate 0 c2Task c2Store).earlyEqual = false ∧
    (mdToTcUpdate 0 c2Task c2Store).ops ≠ [] ∧
    (mdToTcUpdate 0 c2Task (mdToTcUpdate 0 c2Task c2Store).tc).earlyEqual = false ∧
    (mdToTcUpdate 0 c2Task (mdToTcUpdate 0 c2Task c2Store).tc).ops =
      [Op.setValue "tag_next".data none,
       Op.setValue "priority".data (some "H".data),
       Op.setValue "tag_next".data (some [])] := by
  refine ⟨by decide, by decide, by decide, by decide⟩

/-- C4: evaluation at the failing input.  When the only differing field is
the priority, the update path nevertheless issues a `set_status` operation
(the stray block at `tasksync.rs:172`–174, whose comment says "Update
priority"), i.e. it writes the status field although the status already
agrees. -/
theorem c4_status_written_when_only_priority_differs :
    compare_status c4Task c2Store = true ∧
    (mdToTcUpdate 0 c4Task c2Store).ops =
      [Op.setStatus .Pending, Op.setValue "priority".data (some "M".data)] := by
  exact ⟨by decide, by decide⟩

/-- C7 counterexample: with a duplicate tag in the text record, demoting the
priority away from Highest does *not* remove the reserved `next` tag — the
length-plus-containment tag comparison accepts the store's `{a, next}`
against the text's `[a, a]`, the run short-circuits as equal, and the store
keeps `next`. -/
theorem c7_counterexample :
    c7Task.priority ≠ .Highest ∧
    (mdToTcUpdate 0 c7Task c7Store).earlyEqual = true ∧
    (userTags (mdToTcUpdate 0 c7Task c7Store).tc).contains "next".data = true := by
  exact ⟨by decide, by decide, by decide⟩

/-- C1 counterexample: the record with description `"A"` and priority
`Lowest` is well formed and is itself the (loss-free) parse of
`"- [ ] A 🔺⏬️"`, yet parsing its rendering does not give it back — the
rendered lowest-priority glyph is skipped by the metadata event parser, so
the priority collapses to Normal. -/
theorem c1_counterexample :
    WellFormed c1Task ∧
    parse "- [ ] A 🔺⏬️".data = some c1Task ∧
    parse (render c1Task) ≠ some c1Task := by
  refine ⟨by decide, by decide, by decide⟩

/-- C8 counterexample: the lowest-priority glyph is *not* recognized
equivalently in its two encodings.  Inside a metadata run the base glyph `⏬`
produces no event at all (the priority stays Normal), while the
variation-selector form `⏬️` does not start a metadata run (it stays in the
description); the other four glyphs behave uniformly. -/
theorem c8_counterexample :
    parse "- [ ] T ⏬".data = some { status := .Pending, description := "T".data } ∧
    parse "- [ ] T ⏬️".data =
      some { status := .Pending, description := "T ⏬️".data } := by
  exact ⟨by decide, by decide⟩

/-- C5 counterexample: a malformed date payload does not leave every other
well-formed field of the line intact.  In `"- [ ] T 📅25 ⏫"` the due marker
unconditionally consumes the next 11 graphemes, which swallows the
well-formed priority marker `⏫`; the due field errors out *and* the
priority stays Normal instead of High. -/
theorem c5_counterexample :
    parse "- [ ] T 📅25 ⏫".data = some { status := .Pending, description := "T".data } ∧
    metadataEvents (group "📅25 ⏫".data) = [none] ∧
    (parse "- [ ] T 📅25 ⏫".data).map ObsidianTask.priority ≠ some Priority.High := by
  refine ⟨by decide, by decide, by decide⟩

/-- C9 concrete file and updates (the §8 example: patch two lines of a
four-line file). -/
def c9Content : Str :=
  "This is a normal line\n- [ ] This is a test\nAnother normal line\n    - [ ] This is a second test\n".data

def c9Updates : List (Nat × Str) :=
  [(1, "- [x] This is a passed test".data), (3, "- [x] This is a passed test".data)]

def c9Out : Str :=
  "This is a normal line\n- [x] This is a passed test\nAnother normal line\n    - [x] This is a passed test\n".data

/-- C9 counterexample: the replacement is remove-then-rename, so there is a
failure point strictly before the rename — namely after `fs::remove_file`
(step 3 of the script, the rename being step 4) — at which the original file
is **not** intact: it is gone, its replacement content surviving only in the
temporary file. -/
theorem c9_counterexample :
    applyUpdatesOut c9Content c9Updates = some c9Out ∧
    fsRun ⟨some c9Content, none⟩ (patchScript c9Out) 3 =
      { orig := none, temp := some c9Out } ∧
    (fsRun ⟨some c9Content, none⟩ (patchScript c9Out) 3).orig ≠ some c9Content := by
  refine ⟨by decide, by decide, by decide⟩

/-! ### Lemma kit: fuel congruence -/

theorem takeWhile_length_le {α : Type} (p : α → Bool) (l : List α) :
    (l.takeWhile p).length ≤ l.length := by
  induction l with
  | nil => simp
  | cons a l ih =>
    simp only [List.takeWhile_cons]
    split
    · simp; omega
    · simp

theorem mdStep_skip_length {gs r : List Str} (h : mdStep gs = .skip r) :
    r.length < gs.length := by
  match gs with
  | [] => exact StepRes.noConfusion h
  | g :: rest =>
    cases hk : glyphKind g <;> simp only [mdStep, hk] at h <;>
      first
        | exact StepRes.noConfusion h
        | · injection h with h1
            subst h1
            simp

theorem mdStep_emit_length {gs r : List Str} {it : MDItem}
    (h : mdStep gs = .emit it r) : r.length < gs.length := by
  match gs with
  | [] => exact StepRes.noConfusion h
  | g :: rest =>
    have hcap := takeWhile_length_le
      (fun h : Str => !(SIGNIFICANT_EMOJI.contains h)) rest
    cases hk : glyphKind g <;> simp only [mdStep, hk] at h <;>
      first
        | exact StepRes.noConfusion h
        | · injection h with h1 h2
            subst h2
            simp only [List.length_drop, List.length_cons]
            omega

theorem mdF_congr : ∀ (f : Nat) (gs : List Str) (f' : Nat), gs.length < f →
    gs.length < f' → metadataEventsF f gs = metadataEventsF f' gs := by
  intro f
  induction f with
  | zero => intro gs f' h; exact absurd h (Nat.not_lt_zero _)
  | succ f ih =>
    intro gs f' hf hf'
    match f' with
    | 0 => exact absurd hf' (Nat.not_lt_zero _)
    | f'' + 1 =>
      show (match mdStep gs with
            | .stop => []
            | .skip r => metadataEventsF f r
            | .emit it r => it :: metadataEventsF f r) =
           (match mdStep gs with
            | .stop => []
            | .skip r => metadataEventsF f'' r
            | .emit it r => it :: metadataEventsF f'' r)
      cases hstep : mdStep gs with
      | stop => rfl
      | skip r =>
        have := mdStep_skip_length hstep
        exact ih r f'' (by omega) (by omega)
      | emit it r =>
        have := mdStep_emit_length hstep
        exact congrArg _ (ih r f'' (by omega) (by omega))

/-- The canonical one-step unfolding of the event stream. -/
theorem metadataEvents_step (gs : List Str) :
    metadataEvents gs =
      (match mdStep gs with
       | .stop => []
       | .skip r => metadataEvents r
       | .emit it r => it :: metadataEvents r) := by
  show metadataEventsF (gs.length + 1) gs = _
  rw [show metadataEventsF (gs.length + 1) gs =
      (match mdStep gs with
       | .stop => []
       | .skip r => metadataEventsF gs.length r
       | .emit it r => it :: metadataEventsF gs.length r) from rfl]
  cases hstep : mdStep gs with
  | stop => rfl
  | skip r =>
    have := mdStep_skip_length hstep
    exact mdF_congr _ r _ (by omega) (by omega)
  | emit it r =>
    have := mdStep_emit_length hstep
    exact congrArg _ (mdF_congr _ r _ (by omega) (by omega))

theorem metadataEvents_cons (g : Str) (rest : List Str) :
    metadataEvents (g :: rest) = metadataEventsF ((g :: rest).length + 1) (g :: rest) := rfl

/-! ### Metadata stream unfolding lemmas -/

theorem glyphKind_due : glyphKind gDue = .due := by decide
theorem glyphKind_sched : glyphKind gSched = .sched := by decide
theorem glyphKind_start : glyphKind gStart = .start := by decide
theorem glyphKind_created : glyphKind gCreated = .created := by decide
theorem glyphKind_done : glyphKind gDone = .done := by decide
theorem glyphKind_canceled : glyphKind gCanceled = .canceled := by decide
theorem glyphKind_highest : glyphKind gHighest = .prHighest := by decide
theorem glyphKind_high : glyphKind gHigh = .prHigh := by decide
theorem glyphKind_medium : glyphKind gMedium = .prMedium := by decide
theorem glyphKind_low : glyphKind gLow = .prLow := by decide
theorem glyphKind_lowestVS : glyphKind gLowestVS = .prLowest := by decide
theorem glyphKind_lowestBase : glyphKind gLowestBase = .other := by decide
theorem glyphKind_project : glyphKind gProject = .project := by decide

/-- The six date markers with the event constructor each produces. -/
def dateMarkers : List (Str × (YMD → MDEvent)) :=
  [(gDue, .due), (gSched, .scheduled), (gStart, .start),
   (gCreated, .created), (gDone, .done), (gCanceled, .canceled)]

theorem metadataEvents_date (p : Str × (YMD → MDEvent)) (hp : p ∈ dateMarkers)
    (rest : List Str) :
    metadataEvents (p.1 :: rest) = dateItem p.2 rest :: metadataEvents (rest.drop 11) := by
  simp only [dateMarkers, List.mem_cons, List.not_mem_nil, or_false] at hp
  rcases hp with rfl | rfl | rfl | rfl | rfl | rfl <;> rw [metadataEvents_step]
  · simp only [mdStep, glyphKind_due]
  · simp only [mdStep, glyphKind_sched]
  · simp only [mdStep, glyphKind_start]
  · simp only [mdStep, glyphKind_created]
  · simp only [mdStep, glyphKind_done]
  · simp only [mdStep, glyphKind_canceled]

theorem metadataEvents_prio_highest (rest : List Str) :
    metadataEvents (gHighest :: rest) =
      some (MDEvent.priority .Highest) :: metadataEvents rest := by
  rw [metadataEvents_step]; simp only [mdStep, glyphKind_highest]

theorem metadataEvents_prio_high (rest : List Str) :
    metadataEvents (gHigh :: rest) =
      some (MDEvent.priority .High) :: metadataEvents rest := by
  rw [metadataEvents_step]; simp only [mdStep, glyphKind_high]

theorem metadataEvents_prio_medium (rest : List Str) :
    metadataEvents (gMedium :: rest) =
      some (MDEvent.priority .Medium) :: metadataEvents rest := by
  rw [metadataEvents_step]; simp only [mdStep, glyphKind_medium]

theorem metadataEvents_prio_low (rest : List Str) :
    metadataEvents (gLow :: rest) =
      some (MDEvent.priority .Low) :: metadataEvents rest := by
  rw [metadataEvents_step]; simp only [mdStep, glyphKind_low]

theorem metadataEvents_prio_lowestVS (rest : List Str) :
    metadataEvents (gLowestVS :: rest) =
      some (MDEvent.priority .Lowest) :: metadataEvents rest := by
  rw [metadataEvents_step]; simp only [mdStep, glyphKind_lowestVS]

theorem metadataEvents_lowestBase (rest : List Str) :
    metadataEvents (gLowestBase :: rest) = metadataEvents rest := by
  rw [metadataEvents_step]; simp only [mdStep, glyphKind_lowestBase]

theorem metadataEvents_project (rest : List Str) :
    metadataEvents (gProject :: rest) =
      some (MDEvent.project
        (trim (rest.takeWhile (fun h => !(SIGNIFICANT_EMOJI.contains h))).flatten)) ::
      metadataEvents (rest.drop
        (rest.takeWhile (fun h => !(SIGNIFICANT_EMOJI.contains h))).length) := by
  rw [metadataEvents_step]; simp only [mdStep, glyphKind_project]

theorem metadataEvents_skip {g : Str} (hg : glyphKind g = .other) (rest : List Str) :
    metadataEvents (g :: rest) = metadataEvents rest := by
  rw [metadataEvents_step]; simp only [mdStep, hg]

/-- C5 (amended): each date marker consumes exactly the 11 graphemes that
follow it, trims them and parses them as `YYYY-MM-DD`; a malformed payload
produces an error event for that marker only and the stream continues from
the 12th grapheme — but a marker that begins *within* those 11 graphemes is
consumed along with the malformed payload.  The description and every
well-formed field whose marker begins after the consumed window still parse
successfully. -/
theorem c5_date_window :
    (∀ p ∈ dateMarkers, ∀ rest : List Str,
        metadataEvents (p.1 :: rest) =
          ((parseDateStr (trim (rest.take 11).flatten)).map p.2) ::
            metadataEvents (rest.drop 11)) ∧
    parse "- [ ] T 📅25".data = some { status := .Pending, description := "T".data } ∧
    metadataEvents (group "📅25".data) = [none] ∧
    parse "- [ ] T 📅25 xxxxxxx ⏫".data =
      some { status := .Pending, description := "T".data, priority := .High } := by
  refine ⟨fun p hp rest => metadataEvents_date p hp rest, by decide, by decide, by decide⟩

/-- C5 witness: the date-window lemma applied to the due marker at a concrete
payload. -/
theorem c5_date_window_witness :
    metadataEvents (gDue :: group " 2025-05-19".data) =
      some (MDEvent.due ⟨2025, 5, 19⟩) ::
        metadataEvents ((group " 2025-05-19".data).drop 11) := by
  have h := c5_date_window.1 (gDue, MDEvent.due) (by simp [dateMarkers])
    (group " 2025-05-19".data)
  rw [h]
  exact congrArg (fun z => z :: _) (by decide)

/-- C8 (amended): the four non-lowest priority glyphs each yield exactly one
Priority event; the Lowest event is produced only by the variation-selector
form `⏬️` of the lowest glyph, which is not itself significant for starting
or delimiting a metadata run, while the base form `⏬` is significant for the
run split but produces no event at all; the two encodings are therefore not
equivalent. -/
theorem c8_priority_glyphs :
    (∀ rest : List Str, metadataEvents (gHighest :: rest) =
        some (MDEvent.priority .Highest) :: metadataEvents rest) ∧
    (∀ rest : List Str, metadataEvents (gHigh :: rest) =
        some (MDEvent.priority .High) :: metadataEvents rest) ∧
    (∀ rest : List Str, metadataEvents (gMedium :: rest) =
        some (MDEvent.priority .Medium) :: metadataEvents rest) ∧
    (∀ rest : List Str, metadataEvents (gLow :: rest) =
        some (MDEvent.priority .Low) :: metadataEvents rest) ∧
    (∀ rest : List Str, metadataEvents (gLowestVS :: rest) =
        some (MDEvent.priority .Lowest) :: metadataEvents rest) ∧
    (∀ rest : List Str, metadataEvents (gLowestBase :: rest) = metadataEvents rest) ∧
    SIGNIFICANT_EMOJI.contains gLowestBase = true ∧
    SIGNIFICANT_EMOJI.contains gLowestVS = false :=
  ⟨metadataEvents_prio_highest, metadataEvents_prio_high, metadataEvents_prio_medium,
   metadataEvents_prio_low, metadataEvents_prio_lowestVS, metadataEvents_lowestBase,
   by decide, by decide⟩

/-! ### Event application preserves the non-metadata fields -/

theorem applyEvent_uuid (t : ObsidianTask) (e : MDEvent) :
    (applyEvent t e).uuid = t.uuid := by cases e <;> rfl

theorem applyEvent_description (t : ObsidianTask) (e : MDEvent) :
    (applyEvent t e).description = t.description := by cases e <;> rfl

theorem applyEvent_status (t : ObsidianTask) (e : MDEvent) :
    (applyEvent t e).status = t.status := by cases e <;> rfl

theorem applyEvent_tags (t : ObsidianTask) (e : MDEvent) :
    (applyEvent t e).tags = t.tags := by cases e <;> rfl

theorem foldl_applyEvent_uuid (evs : List MDEvent) :
    ∀ t : ObsidianTask, (evs.foldl applyEvent t).uuid = t.uuid := by
  induction evs with
  | nil => intro t; rfl
  | cons e evs ih => intro t; rw [List.foldl_cons, ih, applyEvent_uuid]

theorem foldl_applyEvent_description (evs : List MDEvent) :
    ∀ t : ObsidianTask, (evs.foldl applyEvent t).description = t.description := by
  induction evs with
  | nil => intro t; rfl
  | cons e evs ih => intro t; rw [List.foldl_cons, ih, applyEvent_description]

theorem foldl_applyEvent_status (evs : List MDEvent) :
    ∀ t : ObsidianTask, (evs.foldl applyEvent t).status = t.status := by
  induction evs with
  | nil => intro t; rfl
  | cons e evs ih => intro t; rw [List.foldl_cons, ih, applyEvent_status]

theorem foldl_applyEvent_tags (evs : List MDEvent) :
    ∀ t : ObsidianTask, (evs.foldl applyEvent t).tags = t.tags := by
  induction evs with
  | nil => intro t; rfl
  | cons e evs ih => intro t; rw [List.foldl_cons, ih, applyEvent_tags]

theorem applyEvents_uuid (t : ObsidianTask) (items : List MDItem) :
    (applyEvents t items).uuid = t.uuid := foldl_applyEvent_uuid _ t

theorem applyEvents_description (t : ObsidianTask) (items : List MDItem) :
    (applyEvents t items).description = t.description := foldl_applyEvent_description _ t

theorem applyEvents_status (t : ObsidianTask) (items : List MDItem) :
    (applyEvents t items).status = t.status := foldl_applyEvent_status _ t

theorem applyEvents_tags (t : ObsidianTask) (items : List MDItem) :
    (applyEvents t items).tags = t.tags := foldl_applyEvent_tags _ t

/-- The record behind `some` in `assemble` (when the description is
nonempty): uuid, status, description and tags are those of the base record. -/
theorem assemble_some (st : Status) (desc : Str) (meta : Option Str)
    (uuid : Option Str) (hne : desc ≠ []) :
    ∃ r, assemble st desc meta uuid = some r ∧ r.uuid = uuid ∧ r.status = st ∧
      r.description = desc ∧ r.tags = parseTags desc := by
  unfold assemble
  rw [if_neg (by simpa using hne)]
  refine ⟨_, rfl, ?_, ?_, ?_, ?_⟩ <;>
    cases meta <;>
      simp [applyEvents_uuid, applyEvents_status, applyEvents_description,
        applyEvents_tags]

/-- C6: for every task line containing an identifier anchor whose embedded
identifier does not parse, the line still parses: the anchor text is removed
from the remainder exactly as for a valid identifier, every other field is
computed from the anchor-free text as usual, and the record (produced
whenever the remaining description is nonempty) carries `uuid = none`. -/
theorem c6_malformed_identifier (line rem : Str) (st : Status) (whole idStr : Str)
    (hpre : parsePreamble line = some (st, rem))
    (hanch : anchorFind rem = some (whole, idStr))
    (hbad : parseUuidStr idStr = none) :
    parse line =
      assemble st (splitDescMeta (trim (replaceAll rem whole []))).1
        (splitDescMeta (trim (replaceAll rem whole []))).2 none ∧
    ((splitDescMeta (trim (replaceAll rem whole []))).1 ≠ [] →
      ∃ r, parse line = some r ∧ r.uuid = none ∧
        r.description = (splitDescMeta (trim (replaceAll rem whole []))).1) := by
  have hmain : parse line =
      assemble st (splitDescMeta (trim (replaceAll rem whole []))).1
        (splitDescMeta (trim (replaceAll rem whole []))).2 none := by
    unfold parse
    rw [hpre]
    dsimp only
    unfold extractTaskParts
    rw [hanch]
    dsimp only
    rw [hbad]
    rfl
  refine ⟨hmain, fun hne => ?_⟩
  obtain ⟨r, hr, hu, _, hd, _⟩ := assemble_some st _ _ none hne
  exact ⟨r, hmain.trans hr, hu, hd⟩

/-- C6 witness: the malformed-identifier theorem applied to the invalid-uuid
line of the source's test bank. -/
theorem c6_malformed_identifier_witness :
    parse "- [ ] Task with invalid uuid [[uuid: uh-oh|⚔️]]".data =
      some { status := .Pending, description := "Task with invalid uuid".data } := by
  have h := c6_malformed_identifier
    "- [ ] Task with invalid uuid [[uuid: uh-oh|⚔️]]".data
    "Task with invalid uuid [[uuid: uh-oh|⚔️]]".data
    .Pending
    "[[uuid: uh-oh|⚔️]]".data
    "uh-oh".data
    (by decide) (by decide) (by decide)
  rw [h.1]
  decide

/-! ### Store value-map lemmas -/

theorem tagKey_inj {a b : Str} (h : tagKey a = tagKey b) : a = b :=
  List.append_cancel_left h

theorem tagKey_drop (tg : Str) : (tagKey tg).drop 4 = tg :=
  List.drop_left "tag_".data tg

theorem tagKey_isPre (tg : Str) : "tag_".data.isPrefixOf (tagKey tg) = true :=
  List.isPrefixOf_iff_prefix.mpr (List.prefix_append _ _)

/-- The element function of `userTags`. -/
def tagOf (p : Str × Str) : Option Str :=
  if "tag_".data.isPrefixOf p.1 then some (p.1.drop 4) else none

theorem userTags_eq (tc : TCTask) : userTags tc = tc.kv.filterMap tagOf := rfl

theorem tagOf_eq_some {p : Str × Str} {tg : Str} :
    tagOf p = some tg ↔ p.1 = tagKey tg := by
  constructor
  · intro h
    unfold tagOf at h
    by_cases hpre : "tag_".data.isPrefixOf p.1 = true
    · rw [if_pos hpre] at h
      obtain ⟨t, ht⟩ := List.isPrefixOf_iff_prefix.mp hpre
      injection h with h
      subst h
      rw [← ht]
      have h4 : (("tag_".data ++ t) : Str).drop 4 = t := List.drop_left "tag_".data t
      rw [h4]
      rfl
    · rw [if_neg hpre] at h
      exact absurd h (by simp)
  · intro h
    unfold tagOf
    rw [h, if_pos (tagKey_isPre tg), tagKey_drop]

theorem mem_userTags_iff {tc : TCTask} {tg : Str} :
    tg ∈ userTags tc ↔ ∃ v, (tagKey tg, v) ∈ tc.kv := by
  rw [userTags_eq, List.mem_filterMap]
  constructor
  · rintro ⟨p, hp, hf⟩
    exact ⟨p.2, by rwa [show (tagKey tg, p.2) = p by
      rw [← tagOf_eq_some.mp hf]]⟩
  · rintro ⟨v, hv⟩
    exact ⟨(tagKey tg, v), hv, tagOf_eq_some.mpr rfl⟩

theorem mem_userTags_setValue_some {tc : TCTask} {k : Str} {v : Str} {tg : Str} :
    tg ∈ userTags (tcSetValue k (some v) tc) ↔
      tagKey tg = k ∨ (tagKey tg ≠ k ∧ tg ∈ userTags tc) := by
  simp only [mem_userTags_iff, tcSetValue, List.mem_append, List.mem_filter,
    List.mem_singleton]
  constructor
  · rintro ⟨w, ⟨hmem, hne⟩ | heq⟩
    · refine Or.inr ⟨?_, w, hmem⟩
      simpa using hne
    · exact Or.inl (congrArg Prod.fst heq)
  · rintro (heq | ⟨hne, w, hmem⟩)
    · exact ⟨v, Or.inr (by rw [heq])⟩
    · exact ⟨w, Or.inl ⟨hmem, by simpa using hne⟩⟩

theorem mem_userTags_setValue_none {tc : TCTask} {k : Str} {tg : Str} :
    tg ∈ userTags (tcSetValue k none tc) ↔ tagKey tg ≠ k ∧ tg ∈ userTags tc := by
  simp only [mem_userTags_iff, tcSetValue, List.mem_filter]
  constructor
  · rintro ⟨w, hmem, hne⟩
    exact ⟨by simpa using hne, w, hmem⟩
  · rintro ⟨hne, w, hmem⟩
    exact ⟨w, hmem, by simpa using hne⟩

/-- Setting a key that is not a `tag_` key leaves the user tags unchanged. -/
theorem userTags_setValue_nonTag {k : Str}
    (hk : "tag_".data.isPrefixOf k = false) (v : Option Str) (tc : TCTask) :
    userTags (tcSetValue k v tc) = userTags tc := by
  have hdrop : ∀ l : List (Str × Str),
      (l.filter (fun p => !(p.1 == k))).filterMap tagOf = l.filterMap tagOf := by
    intro l
    induction l with
    | nil => rfl
    | cons p l ih =>
      by_cases hp : p.1 = k
      · rw [List.filter_cons, if_neg (by simp [hp]), ih]
        have : tagOf p = none := by
          unfold tagOf
          rw [if_neg (by rw [hp, hk]; exact Bool.false_ne_true)]
        rw [List.filterMap_cons, this]
      · rw [List.filter_cons, if_pos (by simpa using hp)]
        rw [List.filterMap_cons, List.filterMap_cons, ih]
  cases v with
  | none => rw [userTags_eq, userTags_eq, tcSetValue]; exact hdrop tc.kv
  | some w =>
    rw [userTags_eq, userTags_eq, tcSetValue]
    show ((tc.kv.filter (fun p => !(p.1 == k))) ++ [(k, w)]).filterMap tagOf = _
    rw [List.filterMap_append, hdrop tc.kv]
    have : tagOf (k, w) = none := by
      unfold tagOf
      rw [if_neg (by rw [hk]; exact Bool.false_ne_true)]
    simp [List.filterMap_cons, this]

/-- Distinctness of the stored keys (a `taskchampion` task's value map is a
real map). -/
def keyNodup (tc : TCTask) : Prop := (tc.kv.map Prod.fst).Nodup

theorem userTags_nodup {tc : TCTask} (h : keyNodup tc) : (userTags tc).Nodup := by
  have : userTags tc = (tc.kv.map Prod.fst).filterMap
      (fun k => if "tag_".data.isPrefixOf k then some (k.drop 4) else none) := by
    rw [userTags_eq, List.filterMap_map]
    rfl
  rw [this]
  refine List.Nodup.filterMap ?_ h
  intro a b c ha hb
  have hae : a = tagKey c :=
    tagOf_eq_some.mp (show tagOf (a, ([] : Str)) = some c from Option.mem_def.mp ha)
  have hbe : b = tagKey c :=
    tagOf_eq_some.mp (show tagOf (b, ([] : Str)) = some c from Option.mem_def.mp hb)
  rw [hae, hbe]

theorem keyNodup_setValue {tc : TCTask} (h : keyNodup tc) (k : Str) (v : Option Str) :
    keyNodup (tcSetValue k v tc) := by
  have hfil : ((tc.kv.filter (fun p => !(p.1 == k))).map Prod.fst).Nodup := by
    have hsub : List.Sublist ((tc.kv.filter (fun p => !(p.1 == k))).map Prod.fst)
        (tc.kv.map Prod.fst) := List.Sublist.map Prod.fst (List.filter_sublist _)
    exact List.Nodup.sublist hsub h
  cases v with
  | none => exact hfil
  | some w =>
    show ((tc.kv.filter (fun p => !(p.1 == k)) ++ [(k, w)]).map Prod.fst).Nodup
    rw [List.map_append]
    refine List.Nodup.append hfil (by simp) ?_
    intro a ha hb
    simp only [List.map_cons, List.map_nil, List.mem_singleton] at hb
    subst hb
    obtain ⟨p, hp, hpe⟩ := List.mem_map.mp ha
    have := (List.mem_filter.mp hp).2
    simp [hpe] at this

/-! ### The fold operations of the tags block -/

theorem clearFold_ops (l : List Str) : ∀ s : SyncSt,
    (clearFold l s).ops = s.ops ++ l.map (fun tg => Op.setValue (tagKey tg) none) := by
  induction l with
  | nil => intro s; simp [clearFold]
  | cons a l ih =>
    intro s
    show (clearFold l (stSetValue (tagKey a) none s)).ops = _
    rw [ih]
    simp [stSetValue]

theorem addFold_ops (l : List Str) : ∀ s : SyncSt,
    (addFold l s).ops = s.ops ++ l.map (fun tg => Op.setValue (tagKey tg) (some [])) := by
  induction l with
  | nil => intro s; simp [addFold]
  | cons a l ih =>
    intro s
    show (addFold l (stSetValue (tagKey a) (some []) s)).ops = _
    rw [ih]
    simp [stSetValue]

theorem mem_userTags_addFold {x : Str} (l : List Str) : ∀ s : SyncSt,
    x ∈ userTags (addFold l s).tc → x ∈ l ∨ x ∈ userTags s.tc := by
  induction l with
  | nil => intro s h; exact Or.inr h
  | cons a l ih =>
    intro s h
    rcases ih (stSetValue (tagKey a) (some []) s) h with hl | hs
    · exact Or.inl (List.mem_cons_of_mem _ hl)
    · rcases mem_userTags_setValue_some.mp hs with heq | ⟨_, hmem⟩
      · exact Or.inl (by rw [tagKey_inj heq]; exact List.mem_cons_self _ _)
      · exact Or.inr hmem

theorem mem_userTags_clearFold {x : Str} (l : List Str) : ∀ s : SyncSt,
    x ∈ userTags (clearFold l s).tc → x ∈ userTags s.tc ∧ x ∉ l := by
  induction l with
  | nil => intro s h; exact ⟨h, by simp⟩
  | cons a l ih =>
    intro s h
    obtain ⟨hmem, hnl⟩ := ih (stSetValue (tagKey a) none s) h
    obtain ⟨hne, hmem0⟩ := mem_userTags_setValue_none.mp hmem
    refine ⟨hmem0, ?_⟩
    intro hx
    rcases List.mem_cons.mp hx with rfl | hx
    · exact hne rfl
    · exact hnl hx

theorem userTags_clearFold_self (s : SyncSt) {x : Str}
    (h : x ∈ userTags (clearFold (userTags s.tc) s).tc) : False := by
  obtain ⟨hmem, hnot⟩ := mem_userTags_clearFold _ s h
  exact hnot hmem

/-! ### Step-level facts about the reconciliation chain -/

theorem userTags_stSetStatus (st : TCStatus) (s : SyncSt) :
    userTags (stSetStatus st s).tc = userTags s.tc := rfl

theorem userTags_stSetDesc (d : Str) (s : SyncSt) :
    userTags (stSetDesc d s).tc = userTags s.tc := rfl

theorem userTags_stepStatus (t : ObsidianTask) (s : SyncSt) :
    userTags (stepStatus t s).tc = userTags s.tc := by
  unfold stepStatus; split <;> rfl

theorem userTags_stepDesc (t : ObsidianTask) (s : SyncSt) :
    userTags (stepDesc t s).tc = userTags s.tc := by
  unfold stepDesc; split <;> rfl

theorem userTags_stepDue (tz : Int) (t : ObsidianTask) (s : SyncSt) :
    userTags (stepDue tz t s).tc = userTags s.tc := by
  unfold stepDue
  split
  · rfl
  · exact userTags_setValue_nonTag (by decide) _ _

theorem userTags_stepWait (tz : Int) (t : ObsidianTask) (s : SyncSt) :
    userTags (stepWait tz t s).tc = userTags s.tc := by
  unfold stepWait
  split
  · rfl
  · exact userTags_setValue_nonTag (by decide) _ _

theorem userTags_stepRogue (t : ObsidianTask) (s : SyncSt) :
    userTags (stepRogue t s).tc = userTags s.tc := by
  unfold stepRogue; split <;> rfl

theorem userTags_stepDone (tz : Int) (t : ObsidianTask) (s : SyncSt) :
    userTags (stepDone tz t s).tc = userTags s.tc := by
  unfold stepDone
  split
  · exact userTags_setValue_nonTag (by decide) _ _
  · rfl

theorem userTags_stepCanceledDate (tz : Int) (t : ObsidianTask) (s : SyncSt) :
    userTags (stepCanceledDate tz t s).tc = userTags s.tc := by
  unfold stepCanceledDate
  split
  · exact userTags_setValue_nonTag (by decide) _ _
  · rfl

theorem userTags_stepSched (tz : Int) (t : ObsidianTask) (s : SyncSt) :
    userTags (stepSched tz t s).tc = userTags s.tc := by
  unfold stepSched
  split
  · rfl
  · exact userTags_setValue_nonTag (by decide) _ _

theorem userTags_stepProject (t : ObsidianTask) (s : SyncSt) :
    userTags (stepProject t s).tc = userTags s.tc := by
  unfold stepProject
  split
  · rfl
  · exact userTags_setValue_nonTag (by decide) _ _

/-- After the priority block, a Highest-priority record's reserved tag is
present: either the comparison already found it, or the block has just set
it. -/
theorem stepPrio_highest (t : ObsidianTask) (hp : t.priority = .Highest)
    (s : SyncSt) : "next".data ∈ userTags (stepPrio t s).tc := by
  unfold stepPrio
  split
  · next hc =>
    unfold compare_priority at hc
    rw [if_pos hp] at hc
    exact List.elem_iff.mp hc
  · exact mem_userTags_setValue_some.mpr (Or.inl rfl)

/-- The priority block never touches the user tags when the priority is not
Highest. -/
theorem userTags_stepPrio_notHighest (t : ObsidianTask) (hp : t.priority ≠ .Highest)
    (s : SyncSt) : userTags (stepPrio t s).tc = userTags s.tc := by
  unfold stepPrio
  split
  · rfl
  · exact userTags_setValue_nonTag (by decide) _ _

/-! ### If no operation was recorded, the chain changed nothing -/

theorem stepStatus_ops_nil {t : ObsidianTask} {s : SyncSt}
    (h : (stepStatus t s).ops = s.ops) : stepStatus t s = s := by
  unfold stepStatus at *
  by_cases hc : compare_status t s.tc = true
  · rw [if_pos hc]
  · rw [if_neg hc] at h ⊢
    simp [stSetStatus] at h

theorem stepDesc_ops_nil {t : ObsidianTask} {s : SyncSt}
    (h : (stepDesc t s).ops = s.ops) : stepDesc t s = s := by
  unfold stepDesc at *
  by_cases hc : compare_description t s.tc = true
  · rw [if_pos hc]
  · rw [if_neg hc] at h ⊢
    simp [stSetDesc] at h

theorem stepDue_ops_nil {tz : Int} {t : ObsidianTask} {s : SyncSt}
    (h : (stepDue tz t s).ops = s.ops) : stepDue tz t s = s := by
  unfold stepDue at *
  by_cases hc : compare_due t s.tc = true
  · rw [if_pos hc]
  · rw [if_neg hc] at h ⊢
    simp [stSetValue] at h

theorem stepWait_ops_nil {tz : Int} {t : ObsidianTask} {s : SyncSt}
    (h : (stepWait tz t s).ops = s.ops) : stepWait tz t s = s := by
  unfold stepWait at *
  by_cases hc : compare_start t s.tc = true
  · rw [if_pos hc]
  · rw [if_neg hc] at h ⊢
    simp [stSetValue] at h

theorem stepRogue_ops_nil {t : ObsidianTask} {s : SyncSt}
    (h : (stepRogue t s).ops = s.ops) : stepRogue t s = s := by
  unfold stepRogue at *
  by_cases hc : compare_priority t s.tc = true
  · rw [if_pos hc]
  · rw [if_neg hc] at h ⊢
    simp [stSetStatus] at h

theorem stepTags_ops_nil {t : ObsidianTask} {s : SyncSt}
    (h : (stepTags t s).ops = s.ops) : stepTags t s = s := by
  unfold stepTags at *
  by_cases hc : compare_tags t s.tc = true
  · rw [if_pos hc]
  · rw [if_neg hc] at h ⊢
    rw [addFold_ops, clearFold_ops] at h
    have hlen := congrArg List.length h
    simp only [List.length_append, List.length_map] at hlen
    have h3 : userTags s.tc = [] := List.length_eq_zero.mp (by omega)
    have h4 : t.tags = [] := List.length_eq_zero.mp (by omega)
    rw [h3, h4]
    rfl

theorem stepDone_ops_nil {tz : Int} {t : ObsidianTask} {s : SyncSt}
    (h : (stepDone tz t s).ops = s.ops) : stepDone tz t s = s := by
  unfold stepDone at *
  by_cases hc : (t.status = Status.Complete && !(compare_done t s.tc)) = true
  · rw [if_pos hc] at h
    simp [stSetValue] at h
  · rw [if_neg hc]

theorem stepCanceledDate_ops_nil {tz : Int} {t : ObsidianTask} {s : SyncSt}
    (h : (stepCanceledDate tz t s).ops = s.ops) : stepCanceledDate tz t s = s := by
  unfold stepCanceledDate at *
  by_cases hc : (t.status = Status.Canceled && !(compare_canceled t s.tc)) = true
  · rw [if_pos hc] at h
    simp [stSetValue] at h
  · rw [if_neg hc]

theorem stepSched_ops_nil {tz : Int} {t : ObsidianTask} {s : SyncSt}
    (h : (stepSched tz t s).ops = s.ops) : stepSched tz t s = s := by
  unfold stepSched at *
  by_cases hc : compare_schedule t s.tc = true
  · rw [if_pos hc]
  · rw [if_neg hc] at h ⊢
    simp [stSetValue] at h

theorem stepPrio_ops_nil {t : ObsidianTask} {s : SyncSt}
    (h : (stepPrio t s).ops = s.ops) : stepPrio t s = s := by
  unfold stepPrio at *
  by_cases hc : compare_priority t s.tc = true
  · rw [if_pos hc]
  · rw [if_neg hc] at h
    by_cases hh : t.priority = Priority.Highest
    · rw [if_pos hh] at h
      simp [stSetValue] at h
    · rw [if_neg hh] at h
      simp [stSetValue] at h

theorem stepProject_ops_nil {t : ObsidianTask} {s : SyncSt}
    (h : (stepProject t s).ops = s.ops) : stepProject t s = s := by
  unfold stepProject at *
  by_cases hc : compare_project t s.tc = true
  · rw [if_pos hc]
  · rw [if_neg hc] at h ⊢
    simp [stSetValue] at h

theorem stepOpsExtend : ∀ (f : SyncSt → SyncSt), (∀ s, ∃ l, (f s).ops = s.ops ++ l) →
    ∀ s, (f s).ops = [] → s.ops = [] := by
  intro f hf s h
  obtain ⟨l, hl⟩ := hf s
  rw [hl] at h
  exact List.append_eq_nil.mp h |>.1

theorem stepStatus_ops_append (t : ObsidianTask) (s : SyncSt) :
    ∃ l, (stepStatus t s).ops = s.ops ++ l := by
  unfold stepStatus
  by_cases hc : compare_status t s.tc = true
  · exact ⟨[], by rw [if_pos hc, List.append_nil]⟩
  · exact ⟨_, by rw [if_neg hc]; rfl⟩

theorem stepDesc_ops_append (t : ObsidianTask) (s : SyncSt) :
    ∃ l, (stepDesc t s).ops = s.ops ++ l := by
  unfold stepDesc
  by_cases hc : compare_description t s.tc = true
  · exact ⟨[], by rw [if_pos hc, List.append_nil]⟩
  · exact ⟨_, by rw [if_neg hc]; rfl⟩

theorem stepDue_ops_append (tz : Int) (t : ObsidianTask) (s : SyncSt) :
    ∃ l, (stepDue tz t s).ops = s.ops ++ l := by
  unfold stepDue
  by_cases hc : compare_due t s.tc = true
  · exact ⟨[], by rw [if_pos hc, List.append_nil]⟩
  · exact ⟨_, by rw [if_neg hc]; rfl⟩

theorem stepWait_ops_append (tz : Int) (t : ObsidianTask) (s : SyncSt) :
    ∃ l, (stepWait tz t s).ops = s.ops ++ l := by
  unfold stepWait
  by_cases hc : compare_start t s.tc = true
  · exact ⟨[], by rw [if_pos hc, List.append_nil]⟩
  · exact ⟨_, by rw [if_neg hc]; rfl⟩

theorem stepRogue_ops_append (t : ObsidianTask) (s : SyncSt) :
    ∃ l, (stepRogue t s).ops = s.ops ++ l := by
  unfold stepRogue
  by_cases hc : compare_priority t s.tc = true
  · exact ⟨[], by rw [if_pos hc, List.append_nil]⟩
  · exact ⟨_, by rw [if_neg hc]; rfl⟩

theorem stepTags_ops_append (t : ObsidianTask) (s : SyncSt) :
    ∃ l, (stepTags t s).ops = s.ops ++ l := by
  unfold stepTags
  by_cases hc : compare_tags t s.tc = true
  · exact ⟨[], by rw [if_pos hc, List.append_nil]⟩
  · refine ⟨(userTags s.tc).map (fun tg => Op.setValue (tagKey tg) none) ++
      t.tags.map (fun tg => Op.setValue (tagKey tg) (some [])), ?_⟩
    rw [if_neg hc, addFold_ops, clearFold_ops, List.append_assoc]

theorem stepDone_ops_append (tz : Int) (t : ObsidianTask) (s : SyncSt) :
    ∃ l, (stepDone tz t s).ops = s.ops ++ l := by
  unfold stepDone
  by_cases hc : (t.status = Status.Complete && !(compare_done t s.tc)) = true
  · exact ⟨_, by rw [if_pos hc]; rfl⟩
  · exact ⟨[], by rw [if_neg hc, List.append_nil]⟩

theorem stepCanceledDate_ops_append (tz : Int) (t : ObsidianTask) (s : SyncSt) :
    ∃ l, (stepCanceledDate tz t s).ops = s.ops ++ l := by
  unfold stepCanceledDate
  by_cases hc : (t.status = Status.Canceled && !(compare_canceled t s.tc)) = true
  · exact ⟨_, by rw [if_pos hc]; rfl⟩
  · exact ⟨[], by rw [if_neg hc, List.append_nil]⟩

theorem stepSched_ops_append (tz : Int) (t : ObsidianTask) (s : SyncSt) :
    ∃ l, (stepSched tz t s).ops = s.ops ++ l := by
  unfold stepSched
  by_cases hc : compare_schedule t s.tc = true
  · exact ⟨[], by rw [if_pos hc, List.append_nil]⟩
  · exact ⟨_, by rw [if_neg hc]; rfl⟩

theorem stepPrio_ops_append (t : ObsidianTask) (s : SyncSt) :
    ∃ l, (stepPrio t s).ops = s.ops ++ l := by
  unfold stepPrio
  by_cases hc : compare_priority t s.tc = true
  · exact ⟨[], by rw [if_pos hc, List.append_nil]⟩
  · by_cases hh : t.priority = Priority.Highest
    · exact ⟨[Op.setValue "priority".data (prioOpt t.priority),
        Op.setValue (tagKey "next".data) (some [])],
        by rw [if_neg hc, if_pos hh]; simp [stSetValue]⟩
    · exact ⟨_, by rw [if_neg hc, if_neg hh]; rfl⟩

theorem stepProject_ops_append (t : ObsidianTask) (s : SyncSt) :
    ∃ l, (stepProject t s).ops = s.ops ++ l := by
  unfold stepProject
  by_cases hc : compare_project t s.tc = true
  · exact ⟨[], by rw [if_pos hc, List.append_nil]⟩
  · exact ⟨_, by rw [if_neg hc]; rfl⟩

theorem ops_nil_of_append {s : SyncSt} {out : SyncSt}
    (hap : ∃ l, out.ops = s.ops ++ l) (h : out.ops = []) : s.ops = [] := by
  obtain ⟨l, hl⟩ := hap
  rw [hl] at h
  exact (List.append_eq_nil.mp h).1

/-- If the whole chain records no operation, it is the identity on the
state. -/
theorem mdChain_ops_nil (tz : Int) (t : ObsidianTask) (s0 : SyncSt)
    (h : (mdChain tz t s0).ops = []) :
    mdChain tz t s0 = s0 ∧ stepPrio t s0 = s0 ∧ stepTags t s0 = s0 := by
  unfold mdChain at h ⊢
  have hp10 := ops_nil_of_append (stepProject_ops_append t _) h
  have hp9 := ops_nil_of_append (stepPrio_ops_append t _) hp10
  have hp8 := ops_nil_of_append (stepSched_ops_append tz t _) hp9
  have hp7 := ops_nil_of_append (stepCanceledDate_ops_append tz t _) hp8
  have hp6 := ops_nil_of_append (stepDone_ops_append tz t _) hp7
  have hp5 := ops_nil_of_append (stepTags_ops_append t _) hp6
  have hp4 := ops_nil_of_append (stepRogue_ops_append t _) hp5
  have hp3 := ops_nil_of_append (stepWait_ops_append tz t _) hp4
  have hp2 := ops_nil_of_append (stepDue_ops_append tz t _) hp3
  have hp1 := ops_nil_of_append (stepDesc_ops_append t _) hp2
  have hp0 := ops_nil_of_append (stepStatus_ops_append t _) hp1
  have e1 : stepStatus t s0 = s0 := stepStatus_ops_nil (by rw [hp1, hp0])
  rw [e1] at hp2 hp3 hp4 hp5 hp6 hp7 hp8 hp9 hp10 h ⊢
  have e2 : stepDesc t s0 = s0 := stepDesc_ops_nil (by rw [hp2, hp0])
  rw [e2] at hp3 hp4 hp5 hp6 hp7 hp8 hp9 hp10 h ⊢
  have e3 : stepDue tz t s0 = s0 := stepDue_ops_nil (by rw [hp3, hp0])
  rw [e3] at hp4 hp5 hp6 hp7 hp8 hp9 hp10 h ⊢
  have e4 : stepWait tz t s0 = s0 := stepWait_ops_nil (by rw [hp4, hp0])
  rw [e4] at hp5 hp6 hp7 hp8 hp9 hp10 h ⊢
  have e5 : stepRogue t s0 = s0 := stepRogue_ops_nil (by rw [hp5, hp0])
  rw [e5] at hp6 hp7 hp8 hp9 hp10 h ⊢
  have e6 : stepTags t s0 = s0 := stepTags_ops_nil (by rw [hp6, hp0])
  rw [e6] at hp7 hp8 hp9 hp10 h ⊢
  have e7 : stepDone tz t s0 = s0 := stepDone_ops_nil (by rw [hp7, hp0])
  rw [e7] at hp8 hp9 hp10 h ⊢
  have e8 : stepCanceledDate tz t s0 = s0 := stepCanceledDate_ops_nil (by rw [hp8, hp0])
  rw [e8] at hp9 hp10 h ⊢
  have e9 : stepSched tz t s0 = s0 := stepSched_ops_nil (by rw [hp9, hp0])
  rw [e9] at hp10 h ⊢
  have e10 : stepPrio t s0 = s0 := stepPrio_ops_nil (by rw [hp10, hp0])
  rw [e10] at h ⊢
  exact ⟨stepProject_ops_nil (by rw [h, hp0]), rfl, rfl⟩

/-- The length-plus-containment tag comparison, for duplicate-free sides,
is exactly tag-set equality. -/
theorem compare_tags_mem_iff {t : ObsidianTask} {tc : TCTask}
    (hc : compare_tags t tc = true) (hnd : t.tags.Nodup) (hk : keyNodup tc) :
    ∀ x, x ∈ userTags tc ↔ x ∈ t.tags := by
  unfold compare_tags at hc
  rw [Bool.and_eq_true] at hc
  obtain ⟨hlen, hall⟩ := hc
  have hlen' : t.tags.length = (userTags tc).length := by
    simpa using hlen
  have hsub : ∀ x ∈ t.tags, x ∈ userTags tc := by
    intro x hx
    have := List.all_eq_true.mp hall x hx
    exact List.elem_iff.mp this
  have hfin : t.tags.toFinset ⊆ (userTags tc).toFinset := by
    intro x hx
    exact List.mem_toFinset.mpr (hsub x (List.mem_toFinset.mp hx))
  have hcard : (userTags tc).toFinset.card ≤ t.tags.toFinset.card := by
    rw [List.toFinset_card_of_nodup hnd, List.toFinset_card_of_nodup (userTags_nodup hk)]
    omega
  have heq := Finset.eq_of_subset_of_card_le hfin hcard
  intro x
  constructor
  · intro hx
    have : x ∈ (userTags tc).toFinset := List.mem_toFinset.mpr hx
    rw [← heq] at this
    exact List.mem_toFinset.mp this
  · exact hsub x

/-- A fixed priority block means the comparison succeeded. -/
theorem stepPrio_eq_self {t : ObsidianTask} {s : SyncSt}
    (h : stepPrio t s = s) : compare_priority t s.tc = true := by
  by_cases hc : compare_priority t s.tc = true
  · exact hc
  · exfalso
    rw [stepPrio, if_neg hc] at h
    have hlen := congrArg (fun z => z.ops.length) h
    by_cases hh : t.priority = Priority.Highest
    · rw [if_pos hh] at hlen
      simp [stSetValue] at hlen
    · rw [if_neg hh] at hlen
      simp [stSetValue] at hlen

/-- A fixed tags block means the comparison succeeded or there was nothing
on either side. -/
theorem stepTags_eq_self {t : ObsidianTask} {s : SyncSt}
    (h : stepTags t s = s) :
    compare_tags t s.tc = true ∨ (userTags s.tc = [] ∧ t.tags = []) := by
  by_cases hc : compare_tags t s.tc = true
  · exact Or.inl hc
  · rw [stepTags, if_neg hc] at h
    have hlen := congrArg (fun z => z.ops.length) h
    simp only [addFold_ops, clearFold_ops, List.length_append, List.length_map] at hlen
    refine Or.inr ⟨List.length_eq_zero.mp (by omega), List.length_eq_zero.mp (by omega)⟩

theorem kv_stepStatus (t : ObsidianTask) (s : SyncSt) :
    (stepStatus t s).tc.kv = s.tc.kv := by
  unfold stepStatus; split <;> rfl

theorem kv_stepDesc (t : ObsidianTask) (s : SyncSt) :
    (stepDesc t s).tc.kv = s.tc.kv := by
  unfold stepDesc; split <;> rfl

theorem kv_stepRogue (t : ObsidianTask) (s : SyncSt) :
    (stepRogue t s).tc.kv = s.tc.kv := by
  unfold stepRogue; split <;> rfl

theorem keyNodup_stepStatus {t : ObsidianTask} {s : SyncSt} (h : keyNodup s.tc) :
    keyNodup (stepStatus t s).tc := by
  unfold keyNodup
  rw [kv_stepStatus]
  exact h

theorem keyNodup_stepDesc {t : ObsidianTask} {s : SyncSt} (h : keyNodup s.tc) :
    keyNodup (stepDesc t s).tc := by
  unfold keyNodup
  rw [kv_stepDesc]
  exact h

theorem keyNodup_stepRogue {t : ObsidianTask} {s : SyncSt} (h : keyNodup s.tc) :
    keyNodup (stepRogue t s).tc := by
  unfold keyNodup
  rw [kv_stepRogue]
  exact h

theorem keyNodup_stepDue {tz : Int} {t : ObsidianTask} {s : SyncSt}
    (h : keyNodup s.tc) : keyNodup (stepDue tz t s).tc := by
  unfold stepDue
  split
  · exact h
  · exact keyNodup_setValue h _ _

theorem keyNodup_stepWait {tz : Int} {t : ObsidianTask} {s : SyncSt}
    (h : keyNodup s.tc) : keyNodup (stepWait tz t s).tc := by
  unfold stepWait
  split
  · exact h
  · exact keyNodup_setValue h _ _

/-- After the whole chain, a Highest-priority record's reserved tag is
present. -/
theorem mdChain_highest (tz : Int) (t : ObsidianTask) (s0 : SyncSt)
    (hp : t.priority = .Highest) :
    "next".data ∈ userTags (mdChain tz t s0).tc := by
  unfold mdChain
  rw [userTags_stepProject]
  exact stepPrio_highest t hp _

/-- After the whole chain, a demoted record with a duplicate-free tag list
not containing `next` leaves no `next` tag behind. -/
theorem mdChain_not_highest (tz : Int) (t : ObsidianTask) (s0 : SyncSt)
    (hp : t.priority ≠ .Highest) (hnin : "next".data ∉ t.tags)
    (hnd : t.tags.Nodup) (hk : keyNodup s0.tc) :
    "next".data ∉ userTags (mdChain tz t s0).tc := by
  unfold mdChain
  intro hmem
  rw [userTags_stepProject, userTags_stepPrio_notHighest t hp, userTags_stepSched,
    userTags_stepCanceledDate, userTags_stepDone] at hmem
  have hk5 : keyNodup (stepRogue t (stepWait tz t (stepDue tz t (stepDesc t
      (stepStatus t s0))))).tc :=
    keyNodup_stepRogue (keyNodup_stepWait (keyNodup_stepDue
      (keyNodup_stepDesc (keyNodup_stepStatus hk))))
  by_cases hct : compare_tags t (stepRogue t (stepWait tz t (stepDue tz t (stepDesc t
      (stepStatus t s0))))).tc = true
  · unfold stepTags at hmem
    rw [if_pos hct] at hmem
    exact hnin ((compare_tags_mem_iff hct hnd hk5 _).mp hmem)
  · unfold stepTags at hmem
    rw [if_neg hct] at hmem
    rcases mem_userTags_addFold _ _ hmem with h1 | h2
    · exact hnin h1
    · exact userTags_clearFold_self _ h2

/-- The tags and priority conjuncts of the `PartialEq` equality check. -/
theorem obsEqTc_parts {t : ObsidianTask} {tc : TCTask} (h : obsEqTc t tc = true) :
    compare_tags t tc = true ∧ compare_priority t tc = true := by
  unfold obsEqTc at h
  simp only [Bool.and_eq_true] at h
  exact ⟨h.1.1.2, h.1.2⟩

theorem mdToTc_highest (tz : Int) (t : ObsidianTask) (tc0 : TCTask)
    (hp : t.priority = .Highest) :
    "next".data ∈ userTags (mdToTcUpdate tz t tc0).tc := by
  unfold mdToTcUpdate
  by_cases heq : obsEqTc t tc0 = true
  · rw [if_pos heq]
    have hcp := (obsEqTc_parts heq).2
    unfold compare_priority at hcp
    rw [if_pos hp] at hcp
    exact List.elem_iff.mp hcp
  · rw [if_neg heq]
    dsimp only
    by_cases hops : (mdChain tz t ⟨tc0, []⟩).ops = []
    · rw [if_pos hops]
      have hcp := stepPrio_eq_self (mdChain_ops_nil tz t ⟨tc0, []⟩ hops).2.1
      unfold compare_priority at hcp
      rw [if_pos hp] at hcp
      exact List.elem_iff.mp hcp
    · rw [if_neg hops]
      exact mdChain_highest tz t ⟨tc0, []⟩ hp

theorem mdToTc_not_highest (tz : Int) (t : ObsidianTask) (tc0 : TCTask)
    (hp : t.priority ≠ .Highest) (hnin : "next".data ∉ t.tags)
    (hnd : t.tags.Nodup) (hk : keyNodup tc0) :
    "next".data ∉ userTags (mdToTcUpdate tz t tc0).tc := by
  unfold mdToTcUpdate
  by_cases heq : obsEqTc t tc0 = true
  · rw [if_pos heq]
    intro hmem
    exact hnin ((compare_tags_mem_iff (obsEqTc_parts heq).1 hnd hk _).mp hmem)
  · rw [if_neg heq]
    dsimp only
    by_cases hops : (mdChain tz t ⟨tc0, []⟩).ops = []
    · rw [if_pos hops]
      intro hmem
      rcases stepTags_eq_self (mdChain_ops_nil tz t ⟨tc0, []⟩ hops).2.2 with hct | ⟨hu, _⟩
      · exact hnin ((compare_tags_mem_iff hct hnd hk _).mp hmem)
      · rw [show userTags ((⟨tc0, []⟩ : SyncSt).tc) = userTags tc0 from rfl] at hu
        rw [hu] at hmem
        exact List.not_mem_nil _ hmem
    · rw [if_neg hops]
      exact mdChain_not_highest tz t ⟨tc0, []⟩ hp hnin hnd hk

/-- C7 (amended): (i) reconciling any text record with priority Highest
against a resolving store record leaves the store record carrying the
reserved `next` tag; (ii) a text-authoritative run with the priority demoted
away from Highest leaves the store record without the `next` tag — provided
the text record's tag list is duplicate-free and does not itself contain
`next` (with a duplicated tag the length-plus-containment tag comparison can
accept the stale tag and skip the update; see the counterexample); (iii) the
underlying comparison treats Highest as equal exactly when the store record
carries the `next` user tag, compares every other level by its mapped
single-letter code, and treats Normal as equal to an absent stored
priority. -/
theorem c7_next_tag_mirroring :
    (∀ (tz : Int) (t : ObsidianTask) (tc0 : TCTask), t.priority = .Highest →
      "next".data ∈ userTags (mdToTcUpdate tz t tc0).tc) ∧
    (∀ (tz : Int) (t : ObsidianTask) (tc0 : TCTask), t.priority ≠ .Highest →
      "next".data ∉ t.tags → t.tags.Nodup → keyNodup tc0 →
      "next".data ∉ userTags (mdToTcUpdate tz t tc0).tc) ∧
    (∀ (t : ObsidianTask) (tc : TCTask),
      (t.priority = .Highest →
        (compare_priority t tc = true ↔ "next".data ∈ userTags tc)) ∧
      (t.priority ≠ .Highest →
        (compare_priority t tc = true ↔
          prioLetter t.priority = (getValue tc "priority".data).getD [])) ∧
      (t.priority = .Normal →
        (compare_priority t tc = true ↔ (getValue tc "priority".data).getD [] = []))) := by
  refine ⟨mdToTc_highest, mdToTc_not_highest, fun t tc => ⟨?_, ?_, ?_⟩⟩
  · intro hp
    unfold compare_priority
    rw [if_pos hp]
    exact List.elem_iff
  · intro hp
    unfold compare_priority
    rw [if_neg hp]
    exact beq_iff_eq
  · intro hp
    unfold compare_priority
    rw [if_neg (by rw [hp]; exact fun hc => Priority.noConfusion hc)]
    rw [hp]
    show ([] == (getValue tc "priority".data).getD []) = true ↔ _
    rw [beq_iff_eq]
    exact eq_comm

/-- Store record for the C7 witness: carries priority H and the `next`
tag. -/
def c7WitStore : TCTask :=
  { uuid := uuidB, status := .Pending, description := "T".data,
    kv := [("priority".data, "H".data), ("tag_next".data, [])] }

/-- Text record for the C7 witness demotion run. -/
def c7DemTask : ObsidianTask :=
  { uuid := some uuidB, description := "T".data, priority := .High }

/-- C7 witness: the amended theorem applied at concrete records — a Highest
run leaves the tag present, and a demoted duplicate-free run leaves it
absent. -/
theorem c7_next_tag_mirroring_witness :
    "next".data ∈ userTags (mdToTcUpdate 0 c2Task c2Store).tc ∧
    "next".data ∉ userTags (mdToTcUpdate 0 c7DemTask c7WitStore).tc := by
  constructor
  · exact c7_next_tag_mirroring.1 0 c2Task c2Store (by decide)
  · exact c7_next_tag_mirroring.2.1 0 c7DemTask c7WitStore
      (by decide) (by decide) (by decide)
      (show (c7WitStore.kv.map Prod.fst).Nodup by decide)

/-! ### Line patcher lemmas -/

theorem splitNl_ne_nil (s : Str) : splitNl s ≠ [] := by
  cases s with
  | nil => simp [splitNl]
  | cons c rest =>
    unfold splitNl
    by_cases hc : c = '\n'
    · rw [if_pos hc]
      simp
    · rw [if_neg hc]
      cases hps : splitNl rest <;> simp

theorem splitNl_no_nl (s : Str) : ∀ l ∈ splitNl s, '\n' ∉ l := by
  induction s with
  | nil =>
    intro l hl
    simp [splitNl] at hl
    simp [hl]
  | cons c rest ih =>
    intro l hl
    unfold splitNl at hl
    by_cases hc : c = '\n'
    · rw [if_pos hc] at hl
      rcases List.mem_cons.mp hl with rfl | hl
      · simp
      · exact ih l hl
    · rw [if_neg hc] at hl
      cases hps : splitNl rest with
      | nil => exact absurd hps (splitNl_ne_nil rest)
      | cons a as_ =>
        rw [hps] at hl
        rcases List.mem_cons.mp hl with rfl | hl
        · intro hmem
          rcases List.mem_cons.mp hmem with rfl | hmem
          · exact hc rfl
          · exact ih a (hps ▸ List.mem_cons_self a as_) hmem
        · exact ih l (hps ▸ List.mem_cons_of_mem a hl)

theorem stripCr_no_nl {l : Str} (h : '\n' ∉ l) : '\n' ∉ stripCr l := by
  unfold stripCr
  split
  · next rest heq =>
    intro hmem
    apply h
    have hl : l = rest.reverse ++ ['\x0d'] := by
      have h2 := congrArg List.reverse heq
      simpa using h2
    rw [hl]
    exact List.mem_append.mpr (Or.inl hmem)
  · exact h

theorem rustLines_no_nl (s : Str) : ∀ l ∈ rustLines s, '\n' ∉ l := by
  intro l hl
  unfold rustLines at hl
  rcases List.mem_append.mp hl with hd | hlast
  · obtain ⟨p, hp, rfl⟩ := List.mem_map.mp hd
    exact stripCr_no_nl (splitNl_no_nl s p ((List.dropLast_sublist _).mem hp))
  · split at hlast
    · exact absurd hlast (List.not_mem_nil l)
    · rcases List.mem_singleton.mp hlast with rfl
      have : (splitNl s).getLastD [] ∈ splitNl s := by
        cases hps : splitNl s with
        | nil => exact absurd hps (splitNl_ne_nil s)
        | cons a as_ =>
          rw [List.getLastD_cons]
          exact List.getLastD_mem_cons _ _
      exact splitNl_no_nl s _ this

theorem leadingWS_no_nl {l : Str} (h : '\n' ∉ l) : '\n' ∉ leadingWS l :=
  fun hmem => h ((List.takeWhile_sublist _).mem hmem)

/-- The fold of line replacements: an index not updated keeps its original
line. -/
theorem foldl_set_untouched (f : Nat × Str → Str) :
    ∀ (updates : List (Nat × Str)) (acc : List Str) (i : Nat),
      (∀ u ∈ updates, u.1 ≠ i) →
      (updates.foldl (fun a u => a.set u.1 (f u)) acc)[i]? = acc[i]? := by
  intro updates
  induction updates with
  | nil => intro acc i _; rfl
  | cons u us ih =>
    intro acc i hne
    rw [List.foldl_cons]
    rw [ih _ i (fun v hv => hne v (List.mem_cons_of_mem u hv))]
    exact List.getElem?_set_ne (hne u (List.mem_cons_self u us) )

theorem foldl_set_length (f : Nat × Str → Str) :
    ∀ (updates : List (Nat × Str)) (acc : List Str),
      (updates.foldl (fun a v => a.set v.1 (f v)) acc).length = acc.length := by
  intro updates
  induction updates with
  | nil => intro acc; rfl
  | cons u us ih =>
    intro acc
    rw [List.foldl_cons, ih, List.length_set]

/-- The fold of line replacements: an updated index carries the replacement
of its last update. -/
theorem foldl_set_lastWins (f : Nat × Str → Str) :
    ∀ (updates : List (Nat × Str)) (acc : List Str) (u : Nat × Str),
      (updates.filter (fun v => v.1 == u.1)).getLast? = some u →
      u.1 < acc.length →
      (updates.foldl (fun a v => a.set v.1 (f v)) acc)[u.1]? = some (f u) := by
  intro updates
  induction updates using List.reverseRecOn with
  | nil => intro acc u h _; simp at h
  | append_singleton us v ih =>
    intro acc u hlast hlen
    rw [List.foldl_append, List.foldl_cons, List.foldl_nil]
    rw [List.filter_append] at hlast
    by_cases hv : (v.1 == u.1) = true
    · rw [List.filter_cons, if_pos hv, List.filter_nil, List.getLast?_concat] at hlast
      injection hlast with hlast
      subst hlast
      exact List.getElem?_set_self (by rw [foldl_set_length]; exact hlen)
    · rw [List.filter_cons, if_neg hv, List.filter_nil, List.append_nil] at hlast
      rw [List.getElem?_set_ne (fun hh => hv (by rw [hh]; simp))]
      exact ih acc u hlast hlen

theorem foldl_set_mem (f : Nat × Str → Str) :
    ∀ (updates : List (Nat × Str)) (acc : List Str) (x : Str),
      x ∈ updates.foldl (fun a u => a.set u.1 (f u)) acc →
      x ∈ acc ∨ ∃ u ∈ updates, x = f u := by
  intro updates
  induction updates with
  | nil => intro acc x h; exact Or.inl h
  | cons u us ih =>
    intro acc x h
    rw [List.foldl_cons] at h
    rcases ih _ x h with hbase | ⟨v, hv, hx⟩
    · rcases List.mem_or_eq_of_mem_set hbase with hacc | rfl
      · exact Or.inl hacc
      · exact Or.inr ⟨u, List.mem_cons_self u us, rfl⟩
    · exact Or.inr ⟨v, List.mem_cons_of_mem u hv, hx⟩

theorem getD_no_nl {ls : List Str} (h : ∀ l ∈ ls, '\n' ∉ l) (i : Nat) :
    '\n' ∉ ls.getD i [] := by
  by_cases hi : i < ls.length
  · rw [List.getD_eq_getElem ls [] hi]
    exact h _ (List.getElem_mem hi)
  · rw [List.getD_eq_default ls [] (by omega)]
    simp

/-- C10: the patcher writes the replacement file as every line — patched or
not — followed by exactly one newline: the input is split with `lines()` and
rejoined with a single `\n` after each line, none of which contains a
newline, so `\r\n` separators and a missing final newline are normalized
even on untouched lines. -/
theorem c10_newline_normalization :
    (∀ (content : Str) (updates : List (Nat × Str)) (out : Str),
      applyUpdatesOut content updates = some out →
      (∀ u ∈ updates, '\n' ∉ u.2) →
      ∃ ls, patchLines content updates = some ls ∧
        out = (ls.map (fun l => l ++ ['\n'])).flatten ∧
        ∀ l ∈ ls, '\n' ∉ l) ∧
    (∀ content : Str, applyUpdatesOut content [] =
      some (((rustLines content).map (fun l => l ++ ['\n'])).flatten)) ∧
    applyUpdatesOut "a\r\nb".data [] = some "a\nb\n".data := by
  refine ⟨?_, ?_, by decide⟩
  · intro content updates out h hn
    unfold applyUpdatesOut at h
    obtain ⟨ls, hpl, hout⟩ := Option.map_eq_some'.mp h
    refine ⟨ls, hpl, hout.symm, ?_⟩
    unfold patchLines at hpl
    dsimp only at hpl
    split at hpl
    · injection hpl with hpl
      subst hpl
      intro l hl
      rcases foldl_set_mem _ updates (rustLines content) l hl with hbase | ⟨u, hu, rfl⟩
      · exact rustLines_no_nl content l hbase
      · intro hmem
        rcases List.mem_append.mp hmem with hws | htxt
        · exact leadingWS_no_nl (getD_no_nl (rustLines_no_nl content) u.1) hws
        · exact hn u hu htxt
    · exact absurd hpl (by simp)
  · intro content
    unfold applyUpdatesOut patchLines
    simp

/-- C10 witness: the normalization theorem applied to a concrete CRLF file
with one newline-free patch. -/
theorem c10_newline_normalization_witness :
    ∃ ls, patchLines "a\r\nb".data [(0, "c".data)] = some ls ∧
      (((ls.map (fun l => l ++ ['\n'])).flatten : Str) = "c\nb\n".data) ∧
      ∀ l ∈ ls, '\n' ∉ l := by
  obtain ⟨ls, h1, h2, h3⟩ := c10_newline_normalization.1 "a\r\nb".data
    [(0, "c".data)] "c\nb\n".data (by decide) (by decide)
  exact ⟨ls, h1, h2.symm, h3⟩

/-- C9 (amended): for in-range updates, the patcher (i) leaves every
untouched line exactly as read, (ii) rewrites each patched line as the
original line's leading-whitespace prefix followed by the new text — the
prefix taken from the file as read before any update of the batch, the last
update winning on a duplicated index — and (iii) replaces the original only
through a fully written temporary file; a failure before the *remove* (the
first two script steps) leaves the original intact, but between the remove
and the rename the original is gone and the replacement content survives
only in the temporary file; the completed script installs the output and
leaves no temporary file. -/
theorem c9_patch_semantics :
    (∀ (content : Str) (updates : List (Nat × Str)) (ls : List Str),
      patchLines content updates = some ls →
      ∀ i : Nat, (∀ u ∈ updates, u.1 ≠ i) → ls[i]? = (rustLines content)[i]?) ∧
    (∀ (content : Str) (updates : List (Nat × Str)) (ls : List Str) (u : Nat × Str),
      patchLines content updates = some ls →
      (updates.filter (fun v => v.1 == u.1)).getLast? = some u →
      ls[u.1]? = some (leadingWS ((rustLines content).getD u.1 []) ++ u.2)) ∧
    (∀ (content : Str) (updates : List (Nat × Str)) (out : Str),
      applyUpdatesOut content updates = some out →
      (∀ k, k ≤ 2 → (fsRun ⟨some content, none⟩ (patchScript out) k).orig = some content) ∧
      fsRun ⟨some content, none⟩ (patchScript out) 3 =
        { orig := none, temp := some out } ∧
      fsRun ⟨some content, none⟩ (patchScript out) 4 =
        { orig := some out, temp := none }) := by
  refine ⟨?_, ?_, ?_⟩
  · intro content updates ls hpl i hne
    unfold patchLines at hpl
    dsimp only at hpl
    split at hpl
    · injection hpl with hpl
      subst hpl
      exact foldl_set_untouched _ updates (rustLines content) i hne
    · exact absurd hpl (by simp)
  · intro content updates ls u hpl hlast
    unfold patchLines at hpl
    dsimp only at hpl
    split at hpl
    · next hall =>
      injection hpl with hpl
      subst hpl
      have hu : u ∈ updates := by
        have hmemf : u ∈ updates.filter (fun v => v.1 == u.1) := by
          cases hf : updates.filter (fun v => v.1 == u.1) with
          | nil => rw [hf] at hlast; exact absurd hlast (by simp)
          | cons a as_ =>
            rw [hf] at hlast
            rw [← hf]
            exact List.mem_of_mem_getLast? (by rw [hf]; exact hlast)
        exact List.mem_of_mem_filter hmemf
      have hlen : u.1 < (rustLines content).length := by
        have := List.all_eq_true.mp hall u hu
        exact of_decide_eq_true this
      exact foldl_set_lastWins _ updates (rustLines content) u hlast hlen
    · exact absurd hpl (by simp)
  · intro content updates out _
    refine ⟨?_, rfl, rfl⟩
    intro k hk
    interval_cases k <;> rfl

/-- C9 witness: the patch-semantics theorem applied to the §8 example — a
four-line file with two patched lines. -/
theorem c9_patch_semantics_witness :
    ∃ ls, patchLines c9Content c9Updates = some ls ∧
      ls[0]? = (rustLines c9Content)[0]? ∧
      ls[3]? = some (leadingWS ((rustLines c9Content).getD 3 []) ++
        "- [x] This is a passed test".data) ∧
      fsRun ⟨some c9Content, none⟩ (patchScript c9Out) 2 =
        { orig := some c9Content, temp := some c9Out } := by
  refine ⟨(rustLines c9Content).set 1
      (leadingWS ((rustLines c9Content).getD 1 []) ++ "- [x] This is a passed test".data)
      |>.set 3
      (leadingWS ((rustLines c9Content).getD 3 []) ++ "- [x] This is a passed test".data),
    by decide, ?_, ?_, ?_⟩
  · exact c9_patch_semantics.1 c9Content c9Updates _ (by decide) 0 (by decide)
  · exact c9_patch_semantics.2.1 c9Content c9Updates _
      (3, "- [x] This is a passed test".data) (by decide) (by decide)
  · have h := (c9_patch_semantics.2.2 c9Content c9Updates c9Out (by decide)).1 2 (by omega)
    decide

/-! ### C1 support: grapheme segmentation laws -/

theorem group_eq (s : Str) :
    group s = if (groupAux s).1 = [] then (groupAux s).2
              else (groupAux s).1 :: (groupAux s).2 := by
  unfold group
  rcases hx : groupAux s with ⟨vs, gs⟩
  rfl

theorem groupAux_cons (c : Char) (rest : Str) :
    groupAux (c :: rest) =
      if c = vs16 then (c :: (groupAux rest).1, (groupAux rest).2)
      else ([], (c :: (groupAux rest).1) :: (groupAux rest).2) := by
  simp only [groupAux]

theorem groupAux_eq {s : Str} (h : s.head? ≠ some vs16) :
    groupAux s = ([], group s) := by
  have h1 : (groupAux s).1 = [] := by
    cases s with
    | nil => rfl
    | cons c rest =>
      have hc : c ≠ vs16 := by
        intro hx; exact h (by simp [hx])
      rw [groupAux_cons, if_neg hc]
  have h2 : group s = (groupAux s).2 := by
    rw [group_eq, if_pos h1]
  rw [h2]
  exact Prod.ext h1 rfl

theorem group_cons_nonvs (c : Char) {rest : Str} (h : rest.head? ≠ some vs16) :
    group (c :: rest) = [c] :: group rest := by
  rw [group_eq, groupAux_cons c rest, groupAux_eq h]
  by_cases hc : c = vs16 <;> simp [hc]

theorem groupAux_append (a : Str) {b : Str} (hb : b.head? ≠ some vs16) :
    groupAux (a ++ b) = ((groupAux a).1, (groupAux a).2 ++ group b) := by
  induction a with
  | nil =>
    simp only [List.nil_append]
    rw [groupAux_eq hb]
    rfl
  | cons c a ih =>
    rw [List.cons_append, groupAux_cons c (a ++ b), ih, groupAux_cons c a]
    by_cases hc : c = vs16 <;> simp [hc]

theorem group_append (a : Str) {b : Str} (hb : b.head? ≠ some vs16) :
    group (a ++ b) = group a ++ group b := by
  rw [group_eq (a ++ b), group_eq a, groupAux_append a hb]
  by_cases h1 : (groupAux a).1 = [] <;> simp [h1]

theorem groupAux_flatten (s : Str) :
    (groupAux s).1 ++ (groupAux s).2.flatten = s := by
  induction s with
  | nil => rfl
  | cons c rest ih =>
    rw [groupAux_cons]
    by_cases hc : c = vs16 <;> simp [hc, ih]

theorem group_flatten (s : Str) : (group s).flatten = s := by
  have h := groupAux_flatten s
  rw [group_eq]
  by_cases h1 : (groupAux s).1 = []
  · rw [if_pos h1]
    rw [h1] at h
    simpa using h
  · rw [if_neg h1]
    simpa using h

theorem group_no_vs {s : Str} (h : ∀ c ∈ s, c ≠ vs16) :
    group s = s.map (fun c => [c]) := by
  induction s with
  | nil => rfl
  | cons c rest ih =>
    have hh : rest.head? ≠ some vs16 := by
      cases rest with
      | nil => simp
      | cons d r =>
        have := h d (by simp)
        simpa using this
    rw [group_cons_nonvs c hh, ih (fun x hx => h x (by simp [hx]))]
    rfl

/-! ### C1 support: takeWhile / dropWhile / trim laws -/

theorem takeWhile_append_all {α : Type} (p : α → Bool) {a : List α} (b : List α)
    (ha : ∀ x ∈ a, p x = true) : (a ++ b).takeWhile p = a ++ b.takeWhile p := by
  induction a with
  | nil => rfl
  | cons x a ih =>
    simp only [List.cons_append, List.takeWhile_cons, ha x (by simp)]
    rw [ih (fun y hy => ha y (by simp [hy]))]
    simp

theorem dropWhile_append_all {α : Type} (p : α → Bool) {a : List α} (b : List α)
    (ha : ∀ x ∈ a, p x = true) : (a ++ b).dropWhile p = b.dropWhile p := by
  induction a with
  | nil => rfl
  | cons x a ih =>
    simp only [List.cons_append, List.dropWhile_cons, ha x (by simp)]
    exact ih (fun y hy => ha y (by simp [hy]))

theorem dropWhile_length_le {α : Type} (p : α → Bool) (l : List α) :
    (l.dropWhile p).length ≤ l.length := by
  induction l with
  | nil => simp
  | cons x l ih =>
    by_cases hx : p x
    · simp only [List.dropWhile_cons, hx, if_true, List.length_cons]
      omega
    · simp [List.dropWhile_cons, hx]

theorem dropWhile_eq_self_of_length {α : Type} {p : α → Bool} {l : List α}
    (h : (l.dropWhile p).length = l.length) : l.dropWhile p = l := by
  cases l with
  | nil => rfl
  | cons x l =>
    by_cases hx : p x
    · exfalso
      rw [List.dropWhile_cons, if_pos hx] at h
      have := dropWhile_length_le p l
      simp only [List.length_cons] at h
      omega
    · rw [List.dropWhile_cons, if_neg hx]

theorem trimRight_eq_self_of_trim {s : Str} (h : trim s = s) : trimRight s = s := by
  have hlen1 : (trimRight s).length ≤ s.length := by
    unfold trimRight
    rw [List.length_reverse]
    have := dropWhile_length_le rustWS s.reverse
    simpa using this
  have hlen2 : (trimLeft (trimRight s)).length ≤ (trimRight s).length :=
    dropWhile_length_le rustWS (trimRight s)
  have heq : (trimRight s).length = s.length := by
    have : (trim s).length = s.length := by rw [h]
    unfold trim at this
    omega
  have : (s.reverse.dropWhile rustWS).length = s.reverse.length := by
    unfold trimRight at heq
    rw [List.length_reverse] at heq ⊢
    exact heq
  have := dropWhile_eq_self_of_length this
  unfold trimRight
  rw [this, List.reverse_reverse]

theorem trimLeft_eq_self_of_trim {s : Str} (h : trim s = s) : trimLeft s = s := by
  have hr := trimRight_eq_self_of_trim h
  unfold trim at h
  rw [hr] at h
  exact h

theorem head_not_ws_of_trim {s : Str} (h : trim s = s) {c : Char}
    (hc : s.head? = some c) : rustWS c = false := by
  have hl := trimLeft_eq_self_of_trim h
  cases s with
  | nil => simp at hc
  | cons x rest =>
    simp only [List.head?_cons, Option.some.injEq] at hc
    subst hc
    by_cases hx : rustWS x
    · exfalso
      unfold trimLeft at hl
      rw [List.dropWhile_cons, if_pos hx] at hl
      have h1 := dropWhile_length_le rustWS rest
      have h2 : (rest.dropWhile rustWS).length = (x :: rest).length := by rw [hl]
      simp only [List.length_cons] at h2
      omega
    · simpa using hx

theorem last_not_ws_of_trim {s : Str} (h : trim s = s) {c : Char}
    (hc : s.getLast? = some c) : rustWS c = false := by
  have hr := trimRight_eq_self_of_trim h
  have hrev : s.reverse.head? = some c := by
    rw [List.head?_reverse]; exact hc
  cases hrx : s.reverse with
  | nil => rw [hrx] at hrev; simp at hrev
  | cons x rest =>
    rw [hrx] at hrev
    simp only [List.head?_cons, Option.some.injEq] at hrev
    subst hrev
    by_cases hx : rustWS x
    · exfalso
      unfold trimRight at hr
      rw [hrx, List.dropWhile_cons, if_pos hx] at hr
      have h1 := dropWhile_length_le rustWS rest
      have h2 : (rest.dropWhile rustWS).reverse.length = s.length := by rw [hr]
      rw [List.length_reverse] at h2
      have h3 : s.length = s.reverse.length := (List.length_reverse s).symm
      rw [hrx] at h3
      simp only [List.length_cons] at h3
      omega
    · simpa using hx

theorem trimLeft_eq_self {s : Str}
    (h : ∀ c, s.head? = some c → rustWS c = false) : trimLeft s = s := by
  cases s with
  | nil => rfl
  | cons c rest =>
    unfold trimLeft
    rw [List.dropWhile_cons, if_neg (by simp [h c rfl])]

theorem trimRight_eq_self {s : Str}
    (h : ∀ c, s.getLast? = some c → rustWS c = false) : trimRight s = s := by
  unfold trimRight
  have : s.reverse.dropWhile rustWS = s.reverse := by
    cases hrx : s.reverse with
    | nil => rfl
    | cons x rest =>
      rw [List.dropWhile_cons, if_neg ?_]
      have hx : s.getLast? = some x := by
        rw [← List.head?_reverse, hrx]; rfl
      simp [h x hx]
  rw [this, List.reverse_reverse]

theorem trim_eq_self {s : Str}
    (hh : ∀ c, s.head? = some c → rustWS c = false)
    (hl : ∀ c, s.getLast? = some c → rustWS c = false) : trim s = s := by
  unfold trim
  rw [trimRight_eq_self hl, trimLeft_eq_self hh]

theorem trimRight_append_ws {w : Char} (hw : rustWS w = true) (a : Str) :
    trimRight (a ++ [w]) = trimRight a := by
  unfold trimRight
  rw [List.reverse_append]
  show ((w :: a.reverse).dropWhile rustWS).reverse = _
  rw [List.dropWhile_cons, if_pos hw]

/-! ### C1 support: occurrence and replacement laws -/

theorem occursB_drops {pat : Str} {s : Str} (h : occursB pat s = false) :
    ∀ i, pat.isPrefixOf (s.drop i) = (pat.isPrefixOf [] && decide (s.length ≤ i)) := by
  induction s with
  | nil =>
    intro i
    simp only [List.drop_nil, List.length_nil]
    simp
  | cons c rest ih =>
    intro i
    unfold occursB at h
    rw [Bool.or_eq_false_iff] at h
    cases i with
    | zero =>
      simp only [List.drop_zero, h.1, List.length_cons]
      simp
    | succ i =>
      rw [List.drop_succ_cons, ih h.2 i]
      simp only [List.length_cons]
      by_cases hi : rest.length ≤ i
      · have : rest.length + 1 ≤ i + 1 := by omega
        simp [hi, this]
      · have : ¬(rest.length + 1 ≤ i + 1) := by omega
        simp [hi, this]

theorem occursB_head_mem {c : Char} {p s : Str} (h : occursB (c :: p) s = true) :
    c ∈ s := by
  induction s with
  | nil => simp [occursB, List.isPrefixOf] at h
  | cons d rest ih =>
    unfold occursB at h
    rw [Bool.or_eq_true] at h
    rcases h with h | h
    · simp only [List.isPrefixOf, Bool.and_eq_true, beq_iff_eq] at h
      simp [h.1]
    · simp [ih h]

theorem occursB_of_not_mem {c : Char} {p s : Str} (h : c ∉ s) :
    occursB (c :: p) s = false := by
  by_cases ho : occursB (c :: p) s
  · exact absurd (occursB_head_mem ho) h
  · simpa using ho

theorem occursB_cons_false {pat : Str} {x : Char} {s : Str}
    (h : occursB pat (x :: s) = false) : occursB pat s = false := by
  unfold occursB at h
  rw [Bool.or_eq_false_iff] at h
  exact h.2

theorem raF_no_occur {pat : Str} (_hp : pat ≠ []) (rep : Str) :
    ∀ (s : Str) (f : Nat), occursB pat s = false → s.length ≤ f →
      raF f s pat rep = s := by
  intro s
  induction s with
  | nil => intro f _ _; cases f <;> rfl
  | cons c rest ih =>
    intro f h hf
    cases f with
    | zero => simp at hf
    | succ f =>
      unfold occursB at h
      rw [Bool.or_eq_false_iff] at h
      show (if pat.isPrefixOf (c :: rest) then _ else c :: raF f rest pat rep) = _
      rw [if_neg (by simp [h.1])]
      rw [ih f h.2 (by simp at hf; omega)]

theorem raF_pre {h : Char} {pat' : Str} (rep : Str) {pre : Str} (hh : h ∉ pre) :
    ∀ (f : Nat) (rest : Str),
      raF (pre.length + f) (pre ++ rest) (h :: pat') rep =
        pre ++ raF f rest (h :: pat') rep := by
  induction pre with
  | nil => intro f rest; simp
  | cons c pre ih =>
    intro f rest
    have hc : h ≠ c := by
      intro hx; exact hh (by simp [hx])
    show raF (pre.length + 1 + f) (c :: (pre ++ rest)) (h :: pat') rep = _
    rw [show pre.length + 1 + f = (pre.length + f) + 1 from by omega]
    show (if (h :: pat').isPrefixOf (c :: (pre ++ rest)) then _
          else c :: raF (pre.length + f) (pre ++ rest) (h :: pat') rep) = _
    rw [if_neg (by simp [List.isPrefixOf, hc])]
    rw [ih (fun hx => hh (by simp [hx])) f rest]
    rfl

/-- The anchored-strip law for `str::replace`: with a pattern starting with a
character absent from the prefix and not occurring past its own occurrence,
replacement by the empty string deletes exactly that occurrence. -/
theorem replaceAll_strip {h : Char} {pat' : Str} {pre rest : Str}
    (hh : h ∉ pre) (hr : occursB (h :: pat') rest = false) :
    replaceAll (pre ++ (h :: pat') ++ rest) (h :: pat') [] = pre ++ rest := by
  unfold replaceAll
  rw [if_neg (by simp)]
  rw [List.append_assoc]
  rw [show (pre ++ ((h :: pat') ++ rest)).length =
      pre.length + ((pat'.length + rest.length) + 1) from by
    simp [List.length_append]]
  rw [raF_pre [] hh]
  congr 1
  show (if (h :: pat').isPrefixOf ((h :: pat') ++ rest) then
        [] ++ raF (pat'.length + rest.length)
          (((h :: pat') ++ rest).drop (h :: pat').length) (h :: pat') []
        else _) = rest
  rw [if_pos ?_]
  · rw [show ((h :: pat') ++ rest).drop (h :: pat').length = rest from
      List.drop_left (h :: pat') rest]
    rw [raF_no_occur (by simp) [] rest (pat'.length + rest.length) hr (by omega)]
    rfl
  · have : (h :: pat') <+: ((h :: pat') ++ rest) := List.prefix_append _ _
    exact List.isPrefixOf_iff_prefix.mpr this

/-! ### C1 support: decimal rendering and parsing are inverse -/

theorem toNat_ofNat_lt {n : Nat} (h : n < 55296) : (Char.ofNat n).toNat = n := by
  have hv : n.isValidChar := Or.inl h
  simp only [Char.ofNat, hv, Char.ofNatAux, Char.toNat, dif_pos]
  rfl

theorem digitsToNat_append_last (a : Str) (c : Char) :
    digitsToNat (a ++ [c]) = 10 * digitsToNat a + digitVal c := by
  unfold digitsToNat
  rw [List.foldl_append]
  rfl

theorem natDigitsF_correct : ∀ f : Nat, ∀ n < f,
    (∀ c ∈ natDigitsF f n, isDigit c = true) ∧
    digitsToNat (natDigitsF f n) = n := by
  intro f
  induction f with
  | zero => intro n h; omega
  | succ f ih =>
    intro n h
    by_cases h10 : n < 10
    · have hred : natDigitsF (f + 1) n = [Char.ofNat (48 + n)] := by
        simp [natDigitsF, h10]
      rw [hred]
      have htn : (Char.ofNat (48 + n)).toNat = 48 + n :=
        toNat_ofNat_lt (by omega)
      constructor
      · intro c hc
        simp only [List.mem_singleton] at hc
        subst hc
        simp [isDigit, htn]
        omega
      · show 10 * 0 + digitVal (Char.ofNat (48 + n)) = n
        simp [digitVal, htn]
    · have hdiv : n / 10 < f := by
        have h1 : n / 10 < n := Nat.div_lt_self (by omega) (by omega)
        omega
      obtain ⟨ihd, ihv⟩ := ih (n / 10) hdiv
      have hred : natDigitsF (f + 1) n =
          natDigitsF f (n / 10) ++ [Char.ofNat (48 + n % 10)] := by
        simp [natDigitsF, h10]
      rw [hred]
      have htn : (Char.ofNat (48 + n % 10)).toNat = 48 + n % 10 :=
        toNat_ofNat_lt (by have := Nat.mod_lt n (show 0 < 10 by omega); omega)
      constructor
      · intro c hc
        rw [List.mem_append] at hc
        rcases hc with hc | hc
        · exact ihd c hc
        · simp only [List.mem_singleton] at hc
          subst hc
          simp [isDigit, htn]
          have := Nat.mod_lt n (show 0 < 10 by omega)
          omega
      · rw [digitsToNat_append_last, ihv]
        simp [digitVal, htn]
        omega

theorem natDigitsF_len : ∀ f : Nat, ∀ n < f, ∀ w : Nat, 1 ≤ w → n < 10 ^ w →
    (natDigitsF f n).length ≤ w := by
  intro f
  induction f with
  | zero => intro n h; omega
  | succ f ih =>
    intro n h w hw hnw
    by_cases h10 : n < 10
    · have hred : natDigitsF (f + 1) n = [Char.ofNat (48 + n)] := by
        simp [natDigitsF, h10]
      rw [hred]
      simpa using hw
    · have hdiv : n / 10 < f := by
        have h1 : n / 10 < n := Nat.div_lt_self (by omega) (by omega)
        omega
      have hw2 : 2 ≤ w := by
        by_contra hx
        have : w = 1 := by omega
        rw [this] at hnw
        simp at hnw
        omega
      have hnw2 : n / 10 < 10 ^ (w - 1) := by
        have h1 : n < 10 ^ (w - 1) * 10 := by
          have : 10 ^ (w - 1) * 10 = 10 ^ w := by
            rw [← pow_succ]
            congr 1
            omega
          omega
        exact Nat.div_lt_of_lt_mul (by omega)
      have := ih (n / 10) hdiv (w - 1) (by omega) hnw2
      have hred : natDigitsF (f + 1) n =
          natDigitsF f (n / 10) ++ [Char.ofNat (48 + n % 10)] := by
        simp [natDigitsF, h10]
      rw [hred]
      rw [List.length_append]
      simp only [List.length_singleton]
      omega

theorem natDigits_correct (n : Nat) :
    (∀ c ∈ natDigits n, isDigit c = true) ∧ digitsToNat (natDigits n) = n :=
  natDigitsF_correct (n + 1) n (by omega)

theorem digitsToNat_zeros (k : Nat) (ds : Str) :
    digitsToNat (List.replicate k '0' ++ ds) = digitsToNat ds := by
  induction k with
  | zero => rfl
  | succ k ih =>
    rw [List.replicate_succ, List.cons_append]
    show (List.replicate k '0' ++ ds).foldl (fun acc c => 10 * acc + digitVal c)
      (10 * 0 + digitVal '0') = _
    have : 10 * 0 + digitVal '0' = 0 := by decide
    rw [this]
    exact ih

theorem padNat_digits {w n : Nat} : ∀ c ∈ padNat w n, isDigit c = true := by
  intro c hc
  unfold padNat at hc
  rw [List.mem_append] at hc
  rcases hc with hc | hc
  · have := List.eq_of_mem_replicate hc
    subst this
    decide
  · exact (natDigits_correct n).1 c hc

theorem padNat_val {w n : Nat} : digitsToNat (padNat w n) = n := by
  unfold padNat
  rw [digitsToNat_zeros]
  exact (natDigits_correct n).2

theorem padNat_length {w n : Nat} (hw : 1 ≤ w) (h : n < 10 ^ w) :
    (padNat w n).length = w := by
  have hlen : (natDigits n).length ≤ w := natDigitsF_len (n + 1) n (by omega) w hw h
  unfold padNat
  rw [List.length_append, List.length_replicate]
  omega

theorem takeDigits_exact : ∀ (w : Nat) (ds r : Str), ds.length = w →
    (∀ c ∈ ds, isDigit c = true) → takeDigits w (ds ++ r) = (ds, r) := by
  intro w
  induction w with
  | zero =>
    intro ds r hlen _
    rw [List.length_eq_zero] at hlen
    subst hlen
    rfl
  | succ w ih =>
    intro ds r hlen hd
    cases ds with
    | nil => simp at hlen
    | cons c ds =>
      show (if isDigit c then
            (c :: (takeDigits w (ds ++ r)).1, (takeDigits w (ds ++ r)).2)
            else ([], c :: (ds ++ r))) = _
      rw [if_pos (hd c (by simp))]
      rw [ih ds r (by simpa using hlen) (fun x hx => hd x (by simp [hx]))]

set_option maxHeartbeats 1000000 in
theorem daysInMonth_le (y : Int) (m : Nat) : daysInMonth y m ≤ 31 := by
  unfold daysInMonth
  split_ifs <;> omega

theorem isDigit_ne_dash {c : Char} (h : isDigit c = true) : c ≠ '-' := by
  intro hx
  subst hx
  simp [isDigit] at h

theorem takeDigits_all (w : Nat) (ds : Str) (hlen : ds.length = w)
    (hd : ∀ c ∈ ds, isDigit c = true) : takeDigits w ds = (ds, []) := by
  conv_lhs => rw [← List.append_nil ds]
  exact takeDigits_exact w ds [] hlen hd

/-- `chrono` round trip: parsing the rendered date of a valid date in the
renderable year range returns the same date. -/
theorem parseDateStr_dateRender {d : YMD} (hv : validYMD d = true)
    (h0 : 0 ≤ d.year) (h4 : d.year ≤ 9999) : parseDateStr (dateRender d) = some d := by
  have hvv := hv
  simp only [validYMD, Bool.and_eq_true, decide_eq_true_eq] at hvv
  obtain ⟨⟨⟨hm1, hm12⟩, hd1⟩, hdle⟩ := hvv
  have hdm := daysInMonth_le d.year d.month
  have hy4 : d.year.toNat < 10 ^ 4 := by
    have : (10 : Nat) ^ 4 = 10000 := by norm_num
    omega
  have hm2 : d.month < 10 ^ 2 := by
    have : (10 : Nat) ^ 2 = 100 := by norm_num
    omega
  have hd2 : d.day < 10 ^ 2 := by
    have : (10 : Nat) ^ 2 = 100 := by norm_num
    omega
  have hlen4 : (padNat 4 d.year.toNat).length = 4 := padNat_length (by omega) hy4
  have hlen2m : (padNat 2 d.month).length = 2 := padNat_length (by omega) hm2
  have hlen2d : (padNat 2 d.day).length = 2 := padNat_length (by omega) hd2
  have hne4 : padNat 4 d.year.toNat ≠ [] := by
    intro h
    rw [h] at hlen4
    simp at hlen4
  show parseDateStr (padNat 4 d.year.toNat ++ ['-'] ++ padNat 2 d.month
      ++ ['-'] ++ padNat 2 d.day) = some d
  unfold parseDateStr
  simp only [List.append_assoc, List.singleton_append]
  obtain ⟨c, cs, hp4⟩ := List.exists_cons_of_ne_nil hne4
  have hcd : isDigit c = true := padNat_digits c (by rw [hp4]; simp)
  have hS : padNat 4 d.year.toNat ++ ('-' :: padNat 2 d.month ++ '-' :: padNat 2 d.day) =
      c :: (cs ++ '-' :: (padNat 2 d.month ++ '-' :: padNat 2 d.day)) := by
    rw [hp4]
    simp
  rw [hS]
  simp only [List.head?_cons]
  simp only [show (decide ((some c : Option Char) = some '-') = true) ↔ False from
    by simp [isDigit_ne_dash hcd], if_false, List.tail_cons]
  rw [show c :: (cs ++ '-' :: (padNat 2 d.month ++ '-' :: padNat 2 d.day)) =
      padNat 4 d.year.toNat ++ ('-' :: (padNat 2 d.month ++ '-' :: padNat 2 d.day)) from by
    rw [hp4]
    simp]
  rw [takeDigits_exact 4 (padNat 4 d.year.toNat)
    ('-' :: (padNat 2 d.month ++ '-' :: padNat 2 d.day)) hlen4 padNat_digits]
  dsimp only
  rw [if_neg hne4]
  rw [if_pos (show ('-' :: (padNat 2 d.month ++ '-' :: padNat 2 d.day) : Str).head? =
    some '-' from rfl)]
  simp only [List.tail_cons]
  rw [takeDigits_exact 2 (padNat 2 d.month) ('-' :: padNat 2 d.day) hlen2m
    padNat_digits]
  dsimp only
  rw [if_neg (by intro h; rw [h] at hlen2m; simp at hlen2m)]
  rw [if_pos (show ('-' :: padNat 2 d.day : Str).head? = some '-' from rfl)]
  simp only [List.tail_cons]
  rw [takeDigits_all 2 (padNat 2 d.day) hlen2d padNat_digits]
  dsimp only
  rw [if_neg (by intro h; rw [h] at hlen2d; simp at hlen2d)]
  rw [if_neg (by simp)]
  rw [padNat_val, padNat_val, padNat_val, Int.toNat_of_nonneg h0]
  rw [if_pos hv]

/-! ### C1 support: the canonical uuid survives `Uuid::parse_str` -/

theorem canonical_mem {u : Str} (h : canonicalUuid u = true) :
    ∀ c ∈ u, c = '-' ∨ isLowerHexDigit c = true := by
  simp only [canonicalUuid, Bool.and_eq_true, decide_eq_true_eq, List.all_eq_true]
    at h
  obtain ⟨hlen, hall⟩ := h
  intro c hc
  obtain ⟨i, hi, hg⟩ := List.mem_iff_getElem.mp hc
  have hi36 : i < 36 := by omega
  have := hall i (by simp [List.mem_range, hi36])
  have hgd : u.getD i ' ' = c := by
    rw [List.getD_eq_getElem?_getD, List.getElem?_eq_getElem hi, hg]
    rfl
  rw [hgd] at this
  by_cases hsep : uuidSeps.contains i
  · rw [if_pos hsep] at this
    exact Or.inl (by simpa using this)
  · rw [if_neg hsep] at this
    exact Or.inr this

theorem canonical_len {u : Str} (h : canonicalUuid u = true) : u.length = 36 := by
  simp only [canonicalUuid, Bool.and_eq_true, decide_eq_true_eq] at h
  exact h.1

theorem toLowerHex_fix {c : Char} (h : c = '-' ∨ isLowerHexDigit c = true) :
    toLowerHex c = c := by
  rcases h with h | h
  · subst h
    decide
  · simp only [isLowerHexDigit, isDigit, Bool.or_eq_true, Bool.and_eq_true,
      decide_eq_true_eq] at h
    unfold toLowerHex
    rw [if_neg ?_]
    simp only [Bool.and_eq_true, decide_eq_true_eq]
    omega

theorem lowerHex_isHex {c : Char} (h : isLowerHexDigit c = true) :
    isHexDigit c = true := by
  simp only [isLowerHexDigit, Bool.or_eq_true] at h
  simp only [isHexDigit, Bool.or_eq_true]
  tauto

theorem map_id_of_mem {α : Type} {f : α → α} :
    ∀ {l : List α}, (∀ x ∈ l, f x = x) → l.map f = l := by
  intro l
  induction l with
  | nil => intro _; rfl
  | cons x l ih =>
    intro h
    rw [List.map_cons, h x (by simp), ih (fun y hy => h y (by simp [hy]))]

/-- `Uuid::parse_str` round trip on a canonically rendered uuid. -/
theorem parseUuidStr_canonical {u : Str} (h : canonicalUuid u = true) :
    parseUuidStr u = some u := by
  have hlen := canonical_len h
  have hmem := canonical_mem h
  unfold parseUuidStr
  rw [if_pos hlen]
  rw [if_pos ?_]
  · rw [map_id_of_mem (fun c hc => toLowerHex_fix (hmem c hc))]
  · simp only [canonicalUuid, Bool.and_eq_true, decide_eq_true_eq,
      List.all_eq_true] at h
    rw [List.all_eq_true]
    intro i hi
    have := h.2 i hi
    by_cases hsep : uuidSeps.contains i
    · rwa [if_pos hsep] at this ⊢
    · rw [if_neg hsep] at this ⊢
      exact lowerHex_isHex this

theorem canonical_not_mem {u : Str} (h : canonicalUuid u = true) {c : Char}
    (hc1 : c ≠ '-') (hc2 : isLowerHexDigit c = false) : c ∉ u := by
  intro hmem
  rcases canonical_mem h c hmem with hx | hx
  · exact hc1 hx
  · rw [hc2] at hx
    exact Bool.false_ne_true hx

/-! ### C1 support: exact anchor location -/

theorem drop_pre (pre X : Str) (k : Nat) :
    (pre ++ X).drop (pre.length + k) = X.drop k := by
  rw [← List.drop_drop k pre.length (pre ++ X), List.drop_left]

theorem find?_range_eq_some {p : Nat → Bool} {n L : Nat} (hnL : n < L)
    (hp : p n = true) (hlt : ∀ i < n, p i = false) :
    (List.range L).find? p = some n := by
  have hL : L = n + (L - n) := by omega
  rw [hL, List.range_add n (L - n), List.find?_append]
  have h1 : (List.range n).find? p = none := by
    rw [List.find?_eq_none]
    intro x hx
    simp only [List.mem_range] at hx
    simp [hlt x hx]
  rw [h1]
  rw [show L - n = (L - n - 1) + 1 from by omega, List.range_succ_eq_map]
  simp only [List.map_cons]
  rw [show n + 0 = n from rfl]
  rw [List.find?_cons_of_pos _ hp]
  rfl

theorem filter_unique {p : Nat → Bool} : ∀ {l : List Nat} {j : Nat}, j ∈ l →
    l.Nodup → (∀ x ∈ l, (p x = true ↔ x = j)) → l.filter p = [j] := by
  intro l
  induction l with
  | nil => intro j hj _ _; simp at hj
  | cons a l ih =>
    intro j hj hnd h
    rw [List.nodup_cons] at hnd
    rcases List.mem_cons.mp hj with heq | hjl
    · have hpa : p a = true := by
        rw [h a (by simp)]
        exact heq.symm
      rw [List.filter_cons_of_pos hpa]
      have : l.filter p = [] := by
        rw [List.filter_eq_nil_iff]
        intro x hx
        intro hpx
        have hxa := (h x (by simp [hx])).mp hpx
        subst hxa
        rw [← heq] at hnd
        exact hnd.1 hx
      rw [this, heq]
    · have haj : a ≠ j := by
        intro hx
        subst hx
        exact hnd.1 hjl
      have ha : ¬(p a = true) := by
        intro hpa
        exact haj ((h a (by simp)).mp hpa)
      rw [List.filter_cons_of_neg (by simpa using ha)]
      exact ih hjl hnd.2 (fun x hx => h x (by simp [hx]))

theorem isPrefixOf_head {c : Char} {p t : Str} (h : (c :: p).isPrefixOf t = true) :
    t.head? = some c := by
  cases t with
  | nil => simp [List.isPrefixOf] at h
  | cons d t =>
    simp only [List.isPrefixOf, Bool.and_eq_true, beq_iff_eq] at h
    simp [h.1]

theorem noNl_of_not_mem {s : Str} (h : '\n' ∉ s) : noNl s = true := by
  simp only [noNl, Bool.not_eq_true']
  rw [← Bool.not_eq_true]
  intro hx
  exact h (by simpa [List.elem_iff] using hx)

/-- The identifier-anchor regex finds exactly the rendered anchor when the
text before it is bracket-free and the embedded identifier is canonical. -/
theorem anchorFind_exact {pre u : Str} (hpre : '[' ∉ pre)
    (hu : canonicalUuid u = true) :
    anchorFind (pre ++ (uuidOpen ++ (u ++ uuidClose))) =
      some (uuidOpen ++ (u ++ uuidClose), u) := by
  set X : Str := uuidOpen ++ (u ++ uuidClose) with hX
  set s : Str := pre ++ X with hs
  have hulen : u.length = 36 := canonical_len hu
  have hpipe : '|' ∉ u := canonical_not_mem hu (by decide) (by decide)
  have hnl : '\n' ∉ u := canonical_not_mem hu (by decide) (by decide)
  have hXlen : X.length = 49 := by
    rw [hX]
    simp only [List.length_append, hulen]
    rfl
  have hsl : s.length = pre.length + 49 := by
    rw [hs, List.length_append, hXlen]
  have hA : s.drop pre.length = X := by
    rw [hs, List.drop_left]
  have hB : s.drop (pre.length + 8) = u ++ uuidClose := by
    rw [hs, drop_pre, hX, show (8 : Nat) = uuidOpen.length from rfl,
      List.drop_left]
  have hC : s.drop (pre.length + 44) = uuidClose := by
    rw [hs, drop_pre, hX]
    rw [show (44 : Nat) = 8 + 36 from rfl, ← List.drop_drop 36 8]
    rw [show (8 : Nat) = uuidOpen.length from rfl, List.drop_left]
    rw [show (36 : Nat) = u.length from hulen.symm, List.drop_left]
  have hD : seg s (pre.length + 8) (pre.length + 44) = u := by
    unfold seg
    rw [hB, show pre.length + 44 - (pre.length + 8) = 36 from by omega]
    rw [show (36 : Nat) = u.length from hulen.symm, List.take_left]
  have hE : seg s pre.length (pre.length + 44 + 5) = X := by
    unfold seg
    rw [hA, show pre.length + 44 + 5 - pre.length = 49 from by omega]
    exact List.take_of_length_le (by omega)
  have hEnds : matchEndsAt s pre.length = some (pre.length + 44) := by
    unfold matchEndsAt
    rw [filter_unique (j := pre.length + 44)
      (by rw [List.mem_range]; omega) (List.nodup_range _) ?_]
    · rfl
    · intro j hj
      rw [List.mem_range] at hj
      constructor
      · intro hq
        simp only [Bool.and_eq_true, decide_eq_true_eq] at hq
        obtain ⟨⟨h8, hcl⟩, _⟩ := hq
        by_contra hne
        rcases Nat.lt_or_ge j (pre.length + 44) with hlt | hge
        · have hdropj : s.drop j =
              u.drop (j - (pre.length + 8)) ++ uuidClose := by
            have h1 : s.drop j =
                (s.drop (pre.length + 8)).drop (j - (pre.length + 8)) := by
              rw [List.drop_drop]
              congr 1
              omega
            rw [h1, hB, List.drop_append_eq_append_drop,
              show j - (pre.length + 8) - u.length = 0 from by omega,
              List.drop_zero]
          have hne' : u.drop (j - (pre.length + 8)) ≠ [] := by
            intro hnil
            have := congrArg List.length hnil
            rw [List.length_drop] at this
            simp at this
            omega
          obtain ⟨c, cs, hcons⟩ := List.exists_cons_of_ne_nil hne'
          have hcu : c ∈ u := List.drop_subset _ u (by rw [hcons]; simp)
          have hch : (s.drop j).head? = some '|' := by
            apply isPrefixOf_head (p := "⚔️]]".data)
            exact hcl
          rw [hdropj, hcons, List.cons_append, List.head?_cons] at hch
          simp only [Option.some.injEq] at hch
          subst hch
          exact hpipe hcu
        · have hm : j - (pre.length + 44) = 1 ∨ j - (pre.length + 44) = 2 ∨
              j - (pre.length + 44) = 3 ∨ j - (pre.length + 44) = 4 ∨
              j - (pre.length + 44) = 5 := by omega
          have hdropj : s.drop j = uuidClose.drop (j - (pre.length + 44)) := by
            have h1 : s.drop j =
                (s.drop (pre.length + 44)).drop (j - (pre.length + 44)) := by
              rw [List.drop_drop]
              congr 1
              omega
            rw [h1, hC]
          rw [hdropj] at hcl
          rcases hm with hm | hm | hm | hm | hm <;> rw [hm] at hcl <;>
            exact absurd hcl (by decide)
      · intro hj44
        subst hj44
        simp only [Bool.and_eq_true, decide_eq_true_eq]
        refine ⟨⟨by omega, ?_⟩, ?_⟩
        · rw [hC]
          decide
        · rw [hD]
          exact noNl_of_not_mem hnl
  unfold anchorFind
  rw [find?_range_eq_some (n := pre.length) (by omega) ?_ ?_]
  · dsimp only
    rw [hEnds]
    dsimp only
    rw [hD, hE]
  · simp only [Bool.and_eq_true]
    constructor
    · rw [hA, hX]
      exact List.isPrefixOf_iff_prefix.mpr (List.prefix_append _ _)
    · rw [hEnds]
      rfl
  · intro i hi
    have hdropi : s.drop i = pre.drop i ++ X := by
      rw [hs, List.drop_append_eq_append_drop,
        show i - pre.length = 0 from by omega, List.drop_zero]
    have hne' : pre.drop i ≠ [] := by
      intro hnil
      have := congrArg List.length hnil
      rw [List.length_drop] at this
      simp at this
      omega
    obtain ⟨c, cs, hcons⟩ := List.exists_cons_of_ne_nil hne'
    have hcu : c ∈ pre := List.drop_subset _ pre (by rw [hcons]; simp)
    have hcne : c ≠ '[' := fun hx => hpre (hx ▸ hcu)
    rw [Bool.and_eq_false_iff]
    left
    rw [← Bool.not_eq_true]
    intro hpf
    have hch : (s.drop i).head? = some '[' := by
      apply isPrefixOf_head (p := "[uuid: ".data)
      exact hpf
    rw [hdropi, hcons, List.cons_append, List.head?_cons] at hch
    simp only [Option.some.injEq] at hch
    exact hcne hch

/-! ### C1 support: character classes of rendered text -/

theorem char_eq_iff_toNat (c d : Char) : c = d ↔ c.toNat = d.toNat :=
  ⟨fun h => by rw [h], fun h => by rw [← Char.ofNat_toNat c, h, Char.ofNat_toNat]⟩

/-- Every character in the ASCII printable band is outside the Unicode
white-space set. -/
theorem rustWS_false_of_range {c : Char} (h1 : 33 ≤ c.toNat)
    (h2 : c.toNat ≤ 132) : rustWS c = false := by
  simp only [rustWS, char_eq_iff_toNat]
  simp only [show (' ' : Char).toNat = 32 from rfl,
    show ('\t' : Char).toNat = 9 from rfl,
    show ('\n' : Char).toNat = 10 from rfl,
    show ('\x0d' : Char).toNat = 13 from rfl,
    show (Char.ofNat 0x0B).toNat = 11 from rfl,
    show (Char.ofNat 0x0C).toNat = 12 from rfl,
    show (Char.ofNat 0x85).toNat = 133 from rfl,
    show (Char.ofNat 0xA0).toNat = 160 from rfl,
    show (Char.ofNat 0x1680).toNat = 5760 from rfl,
    show (Char.ofNat 0x2028).toNat = 8232 from rfl,
    show (Char.ofNat 0x2029).toNat = 8233 from rfl,
    show (Char.ofNat 0x202F).toNat = 8239 from rfl,
    show (Char.ofNat 0x205F).toNat = 8287 from rfl,
    show (Char.ofNat 0x3000).toNat = 12288 from rfl]
  simp only [Bool.or_eq_false_iff, Bool.and_eq_false_iff,
    decide_eq_false_iff_not]
  omega

theorem rustWS_of_digit {c : Char} (h : isDigit c = true) : rustWS c = false := by
  simp only [isDigit, Bool.and_eq_true, decide_eq_true_eq] at h
  exact rustWS_false_of_range (by omega) (by omega)

theorem vs16_toNat : vs16.toNat = 65039 := rfl

theorem ne_vs16_of_le {c : Char} (h : c.toNat ≤ 9999) : c ≠ vs16 := by
  intro hx
  rw [char_eq_iff_toNat, vs16_toNat] at hx
  omega

theorem dateRender_chars {d : YMD} {c : Char} (hc : c ∈ dateRender d) :
    isDigit c = true ∨ c = '-' := by
  unfold dateRender at hc
  simp only [List.mem_append, List.mem_singleton] at hc
  rcases hc with ((((hc | hc) | hc) | hc) | hc)
  · exact Or.inl (padNat_digits c hc)
  · exact Or.inr hc
  · exact Or.inl (padNat_digits c hc)
  · exact Or.inr hc
  · exact Or.inl (padNat_digits c hc)

theorem dateRender_range {d : YMD} {c : Char} (hc : c ∈ dateRender d) :
    33 ≤ c.toNat ∧ c.toNat ≤ 132 := by
  rcases dateRender_chars hc with h | h
  · simp only [isDigit, Bool.and_eq_true, decide_eq_true_eq] at h
    omega
  · subst h
    exact ⟨by decide, by decide⟩

theorem sig_mem_toNat {c : Char} (h : [c] ∈ SIGNIFICANT_EMOJI) :
    9000 ≤ c.toNat := by
  simp only [SIGNIFICANT_EMOJI, gDue, gSched, gStart, gCreated, gDone,
    gCanceled, gHighest, gHigh, gMedium, gLow, gLowestBase, gRecur, gId,
    gBlocked, gProject, List.mem_cons, List.not_mem_nil, or_false] at h
  rcases h with h | h | h | h | h | h | h | h | h | h | h | h | h | h | h <;>
    rw [List.head_eq_of_cons_eq h] <;> decide

theorem ascii_not_sig {c : Char} (h : c.toNat ≤ 8999) :
    [c] ∉ SIGNIFICANT_EMOJI := by
  intro hx
  have := sig_mem_toNat hx
  omega

theorem contains_eq_mem {α : Type} [BEq α] [LawfulBEq α] (l : List α) (a : α) :
    l.contains a = decide (a ∈ l) := by
  by_cases hm : a ∈ l
  · simp [List.elem_iff, hm]
  · simp [hm]

theorem cleanText_parts {p : Str} (h : cleanText p = true) :
    trim p = p ∧ '\n' ∉ p ∧ '[' ∉ p ∧ p.head? ≠ some vs16 ∧
      ∀ g ∈ group p, g ∉ SIGNIFICANT_EMOJI := by
  simp only [cleanText, Bool.and_eq_true, decide_eq_true_eq, Bool.not_eq_true',
    List.all_eq_true] at h
  obtain ⟨⟨⟨⟨h1, h2⟩, h3⟩, h4⟩, h5⟩ := h
  refine ⟨h1, ?_, ?_, h4, ?_⟩
  · intro hx
    rw [contains_eq_mem] at h2
    simp [hx] at h2
  · intro hx
    rw [contains_eq_mem] at h3
    simp [hx] at h3
  · intro g hg hmem
    have := h5 g hg
    rw [contains_eq_mem] at this
    simp [hmem] at this

/-! ### C1 support: structure of the rendered metadata run -/

/-- The event constructor produced by each dated marker kind
(taskparser.rs:300-342). -/
def dkEvent : DK → YMD → MDEvent
  | .due => .due
  | .sched => .scheduled
  | .start => .start
  | .created => .created
  | .done => .done
  | .canceled => .canceled

/-- The stream item the metadata parser yields for one rendered element. -/
def eventItem : MPart → MDItem
  | .proj p => some (.project p)
  | .date k d => some (dkEvent k d)
  | .prio pr => some (.priority pr)

/-- Invariant carried by each rendered metadata element of a well-formed
record whose priority is not `Lowest`. -/
def partOkB : MPart → Bool
  | .proj p => decide (p ≠ []) && cleanText p
  | .date _ d => cleanDate (some d)
  | .prio pr => decide (pr ≠ .Normal) && decide (pr ≠ .Lowest)

/-- The grapheme clusters of one rendered metadata element. -/
def clusterOf : MPart → List Str
  | .proj p => [' '] :: ['🔨'] :: [' '] :: group p
  | .date k d => [' '] :: [dkGlyph k] :: [' '] :: (dateRender d).map (fun c => [c])
  | .prio pr => [[' '], [prioGlyph pr]]

theorem wellFormed_parts {t : ObsidianTask} (hw : WellFormed t) :
    t.description ≠ [] ∧ cleanText t.description = true ∧
    t.tags = parseTags t.description ∧
    (match t.project with
     | none => true
     | some p => decide (p ≠ []) && cleanText p) = true ∧
    cleanDate t.due = true ∧ cleanDate t.scheduled = true ∧
    cleanDate t.start = true ∧ cleanDate t.created = true ∧
    cleanDate t.done = true ∧ cleanDate t.canceled = true ∧
    (match t.uuid with | none => true | some u => canonicalUuid u) = true ∧
    occursB (t.description ++ [' ']) (renderMiddle t) = false := by
  unfold WellFormed wellFormedB at hw
  simp only [Bool.and_eq_true, decide_eq_true_eq, Bool.not_eq_true'] at hw
  obtain ⟨⟨⟨⟨⟨⟨⟨⟨⟨⟨⟨h1, h2⟩, h3⟩, h4⟩, h5⟩, h6⟩, h7⟩, h8⟩, h9⟩, h10⟩, h11⟩, h12⟩ := hw
  exact ⟨h1, h2, h3, h4, h5, h6, h7, h8, h9, h10, h11, h12⟩

theorem partsOf_ok {t : ObsidianTask} (hw : WellFormed t)
    (hpl : t.priority ≠ .Lowest) : ∀ p ∈ partsOf t, partOkB p = true := by
  obtain ⟨_, _, _, h4, h5, h6, h7, h8, h9, h10, _, _⟩ := wellFormed_parts hw
  intro p hmem
  unfold partsOf at hmem
  simp only [List.mem_append] at hmem
  rcases hmem with ((((((hm | hm) | hm) | hm) | hm) | hm) | hm) | hm
  · cases hpr : t.project with
    | none => rw [hpr] at hm; simp at hm
    | some q =>
      rw [hpr] at hm h4
      simp only [List.mem_singleton] at hm
      subst hm
      simpa [partOkB] using h4
  · cases hd : t.due with
    | none => rw [hd] at hm; simp [optPart] at hm
    | some d =>
      rw [hd] at hm h5
      simp only [optPart, List.mem_singleton] at hm
      subst hm
      simpa [partOkB] using h5
  · cases hd : t.scheduled with
    | none => rw [hd] at hm; simp [optPart] at hm
    | some d =>
      rw [hd] at hm h6
      simp only [optPart, List.mem_singleton] at hm
      subst hm
      simpa [partOkB] using h6
  · cases hd : t.start with
    | none => rw [hd] at hm; simp [optPart] at hm
    | some d =>
      rw [hd] at hm h7
      simp only [optPart, List.mem_singleton] at hm
      subst hm
      simpa [partOkB] using h7
  · cases hd : t.created with
    | none => rw [hd] at hm; simp [optPart] at hm
    | some d =>
      rw [hd] at hm h8
      simp only [optPart, List.mem_singleton] at hm
      subst hm
      simpa [partOkB] using h8
  · cases hd : t.done with
    | none => rw [hd] at hm; simp [optPart] at hm
    | some d =>
      rw [hd] at hm h9
      simp only [optPart, List.mem_singleton] at hm
      subst hm
      simpa [partOkB] using h9
  · cases hd : t.canceled with
    | none => rw [hd] at hm; simp [optPart] at hm
    | some d =>
      rw [hd] at hm h10
      simp only [optPart, List.mem_singleton] at hm
      subst hm
      simpa [partOkB] using h10
  · by_cases hn : t.priority = .Normal
    · rw [if_pos hn] at hm
      simp at hm
    · rw [if_neg hn] at hm
      simp only [List.mem_singleton] at hm
      subst hm
      simp [partOkB, hn, hpl]

theorem renderMPart_head (p : MPart) : (renderMPart p).head? = some ' ' := by
  cases p <;> rfl

theorem renderMPart_ne_nil (p : MPart) : renderMPart p ≠ [] := by
  cases p <;> simp [renderMPart]

theorem flatten_singletons (l : Str) : (l.map (fun c => [c])).flatten = l := by
  induction l with
  | nil => rfl
  | cons c l ih => simp [ih]

theorem flat_head (ps : List MPart) :
    ((ps.map renderMPart).flatten).head? = some ' ' ∨ ps = [] := by
  cases ps with
  | nil => exact Or.inr rfl
  | cons p rest =>
    left
    simp only [List.map_cons, List.flatten_cons]
    cases p <;> rfl

theorem flat_head_ne_vs16 (ps : List MPart) :
    ((ps.map renderMPart).flatten).head? ≠ some vs16 := by
  rcases flat_head ps with h | h
  · rw [h]
    intro hx
    simp only [Option.some.injEq] at hx
    exact ne_vs16_of_le (c := ' ') (by decide) hx
  · subst h
    simp

theorem dateRender_ne_nil (d : YMD) : dateRender d ≠ [] := by
  intro h
  have := congrArg List.length h
  simp [dateRender, List.length_append] at this

theorem dateRender_head_ne_vs16 (d : YMD) :
    (dateRender d).head? ≠ some vs16 := by
  cases hdr : dateRender d with
  | nil => simp
  | cons c cs =>
    simp only [List.head?_cons]
    intro hx
    simp only [Option.some.injEq] at hx
    have hc : c ∈ dateRender d := by rw [hdr]; simp
    exact ne_vs16_of_le (by have := (dateRender_range hc).2; omega) hx

theorem dateRender_no_vs16 (d : YMD) : ∀ c ∈ dateRender d, c ≠ vs16 :=
  fun c hc => ne_vs16_of_le (by have := (dateRender_range hc).2; omega)

theorem head_cons_ne_vs16 {c : Char} (hc : c ≠ vs16) (rest : Str) :
    (c :: rest).head? ≠ some vs16 := by
  simp only [List.head?_cons]
  intro hx
  exact hc (Option.some.inj hx)

theorem group_renderMPart {p : MPart} (hp : partOkB p = true) :
    group (renderMPart p) = clusterOf p := by
  cases p with
  | proj q =>
    have hcq : cleanText q = true := by
      simp only [partOkB, Bool.and_eq_true] at hp
      exact hp.2
    obtain ⟨_, _, _, hqh, _⟩ := cleanText_parts hcq
    show group (' ' :: '🔨' :: ' ' :: q) = _
    rw [group_cons_nonvs ' ' (head_cons_ne_vs16 (by decide) _)]
    rw [group_cons_nonvs '🔨' (head_cons_ne_vs16 (by decide) _)]
    rw [group_cons_nonvs ' ' hqh]
    rfl
  | date k d =>
    show group (' ' :: dkGlyph k :: ' ' :: dateRender d) = _
    rw [group_cons_nonvs ' ' (head_cons_ne_vs16 (by cases k <;> decide) _)]
    rw [group_cons_nonvs (dkGlyph k) (head_cons_ne_vs16 (by decide) _)]
    rw [group_cons_nonvs ' ' (dateRender_head_ne_vs16 d)]
    rw [group_no_vs (dateRender_no_vs16 d)]
    rfl
  | prio pr => cases pr <;> rfl

theorem group_parts : ∀ {ps : List MPart}, (∀ p ∈ ps, partOkB p = true) →
    group ((ps.map renderMPart).flatten) = (ps.map clusterOf).flatten := by
  intro ps
  induction ps with
  | nil => intro _; rfl
  | cons p rest ih =>
    intro h
    simp only [List.map_cons, List.flatten_cons]
    rw [group_append _ (flat_head_ne_vs16 rest), group_renderMPart (h p (by simp)),
      ih (fun q hq => h q (by simp [hq]))]

theorem clusterOf_head_sig {p : MPart} (hp : partOkB p = true) :
    ∃ G tail, clusterOf p = [' '] :: [G] :: tail ∧
      SIGNIFICANT_EMOJI.contains [G] = true := by
  cases p with
  | proj q => exact ⟨'🔨', [' '] :: group q, rfl, by decide⟩
  | date k d =>
    cases k <;>
      exact ⟨_, [' '] :: (dateRender d).map (fun c => [c]), rfl, by decide⟩
  | prio pr =>
    cases pr with
    | Lowest => simp [partOkB] at hp
    | Normal => simp [partOkB] at hp
    | Low => exact ⟨'🔽', [], rfl, by decide⟩
    | Medium => exact ⟨'🔼', [], rfl, by decide⟩
    | High => exact ⟨'⏫', [], rfl, by decide⟩
    | Highest => exact ⟨'🔺', [], rfl, by decide⟩

theorem getLast?_cons_ne_nil {α : Type} (a : α) {l : List α} (h : l ≠ []) :
    (a :: l).getLast? = l.getLast? := by
  rw [show a :: l = [a] ++ l from rfl, List.getLast?_append_of_ne_nil _ h]

theorem exists_getLast? {α : Type} {l : List α} (h : l ≠ []) :
    ∃ c, l.getLast? = some c := by
  cases hx : l.getLast? with
  | some c => exact ⟨c, rfl⟩
  | none =>
    rw [List.getLast?_eq_none_iff] at hx
    exact absurd hx h

theorem renderMPart_last {p : MPart} (hp : partOkB p = true) :
    ∃ c, (renderMPart p).getLast? = some c ∧ rustWS c = false := by
  cases p with
  | proj q =>
    simp only [partOkB, Bool.and_eq_true, decide_eq_true_eq] at hp
    obtain ⟨hqne, hcq⟩ := hp
    obtain ⟨htr, _, _, _, _⟩ := cleanText_parts hcq
    obtain ⟨c, hc⟩ := exists_getLast? hqne
    refine ⟨c, ?_, last_not_ws_of_trim htr hc⟩
    show ([' ', '🔨', ' '] ++ q).getLast? = some c
    rw [List.getLast?_append_of_ne_nil _ hqne, hc]
  | date k d =>
    obtain ⟨c, hc⟩ := exists_getLast? (dateRender_ne_nil d)
    have hcm : c ∈ dateRender d := List.mem_of_mem_getLast? hc
    refine ⟨c, ?_, rustWS_false_of_range (dateRender_range hcm).1
      (dateRender_range hcm).2⟩
    show ([' ', dkGlyph k, ' '] ++ dateRender d).getLast? = some c
    rw [List.getLast?_append_of_ne_nil _ (dateRender_ne_nil d), hc]
  | prio pr =>
    cases pr with
    | Lowest => simp [partOkB] at hp
    | Normal => simp [partOkB] at hp
    | Low => exact ⟨'🔽', rfl, by decide⟩
    | Medium => exact ⟨'🔼', rfl, by decide⟩
    | High => exact ⟨'⏫', rfl, by decide⟩
    | Highest => exact ⟨'🔺', rfl, by decide⟩

theorem partTail_head {p : MPart} (hp : partOkB p = true) :
    ∃ c tail2, renderMPart p = ' ' :: c :: tail2 ∧ rustWS c = false := by
  cases p with
  | proj q => exact ⟨'🔨', ' ' :: q, rfl, by decide⟩
  | date k d => exact ⟨dkGlyph k, ' ' :: dateRender d, rfl, by cases k <;> decide⟩
  | prio pr =>
    cases pr with
    | Lowest => simp [partOkB] at hp
    | Normal => simp [partOkB] at hp
    | Low => exact ⟨'🔽', [], rfl, by decide⟩
    | Medium => exact ⟨'🔼', [], rfl, by decide⟩
    | High => exact ⟨'⏫', [], rfl, by decide⟩
    | Highest => exact ⟨'🔺', [], rfl, by decide⟩

theorem flat_last {ps : List MPart} (hps : ∀ p ∈ ps, partOkB p = true)
    (hne : ps ≠ []) :
    ∃ c, ((ps.map renderMPart).flatten).getLast? = some c ∧ rustWS c = false := by
  induction ps using List.reverseRecOn with
  | nil => simp at hne
  | append_singleton ps' p _ =>
    obtain ⟨c, hcl, hcw⟩ := renderMPart_last (hps p (by simp))
    refine ⟨c, ?_, hcw⟩
    rw [List.map_append, List.flatten_append]
    simp only [List.map_cons, List.map_nil, List.flatten_cons, List.flatten_nil,
      List.append_nil]
    rw [List.getLast?_append_of_ne_nil _ (renderMPart_ne_nil p), hcl]

theorem cleanText_group_notSig {q : Str} (h : cleanText q = true) :
    ∀ g ∈ group q, (!(SIGNIFICANT_EMOJI.contains g)) = true := by
  intro g hg
  obtain ⟨_, _, _, _, h5⟩ := cleanText_parts h
  rw [contains_eq_mem]
  simp [h5 g hg]

/-- The description/metadata splitter on a clean description followed by a
nonempty rendered metadata run: the description is recovered exactly and the
metadata run is everything after the first separating space. -/
theorem splitDescMeta_render {desc : Str} {p0 : MPart} {ps' : List MPart}
    (hd : cleanText desc = true) (hdne : desc ≠ [])
    (hps : ∀ p ∈ p0 :: ps', partOkB p = true)
    (hocc : occursB (desc ++ [' '])
      (((p0 :: ps').map renderMPart).flatten) = false) :
    splitDescMeta (desc ++ ((p0 :: ps').map renderMPart).flatten) =
      (desc, some ((((p0 :: ps').map renderMPart).flatten).drop 1)) := by
  obtain ⟨htr, _, _, hhv, _⟩ := cleanText_parts hd
  obtain ⟨c0, tail2, hp0, hc0w⟩ := partTail_head (hps p0 (by simp))
  have hflat : ((p0 :: ps').map renderMPart).flatten =
      ' ' :: (c0 :: tail2 ++ (ps'.map renderMPart).flatten) := by
    simp only [List.map_cons, List.flatten_cons, hp0]
    rfl
  set Mtail : Str := c0 :: tail2 ++ (ps'.map renderMPart).flatten with hMt
  obtain ⟨G, tailC, hcl, hGsig⟩ := clusterOf_head_sig (hps p0 (by simp))
  have hgrp : group (((p0 :: ps').map renderMPart).flatten) =
      ([' '] :: [G] :: tailC) ++ (ps'.map clusterOf).flatten := by
    rw [group_parts hps]
    simp only [List.map_cons, List.flatten_cons, hcl]
  unfold splitDescMeta
  rw [group_append desc (by rw [hflat]; exact head_cons_ne_vs16 (by decide) _)]
  rw [hgrp]
  have htw : ((group desc ++ (([' '] :: [G] :: tailC) ++
      (ps'.map clusterOf).flatten)).takeWhile
        (fun g => !(SIGNIFICANT_EMOJI.contains g))) = group desc ++ [[' ']] := by
    rw [takeWhile_append_all _ _ (cleanText_group_notSig hd)]
    congr 1
    rw [List.cons_append, List.takeWhile_cons]
    rw [show (!(SIGNIFICANT_EMOJI.contains [' '])) = true from by decide]
    simp only [if_true]
    rw [List.cons_append, List.takeWhile_cons, hGsig]
    simp
  dsimp only
  rw [htw]
  rw [if_neg ?_]
  · have hfl : (group desc ++ [[' ']]).flatten = desc ++ [' '] := by
      rw [List.flatten_append, group_flatten]
      rfl
    rw [hfl]
    have hfst : trim (desc ++ [' ']) = desc := by
      unfold trim
      rw [trimRight_append_ws (by decide), trimRight_eq_self_of_trim htr,
        trimLeft_eq_self_of_trim htr]
    rw [hfst]
    have hoccM : occursB (desc ++ [' ']) Mtail = false := by
      rw [hflat] at hocc
      exact occursB_cons_false hocc
    have hsnd : replaceAll (desc ++ ((p0 :: ps').map renderMPart).flatten)
        (desc ++ [' ']) [] = Mtail := by
      obtain ⟨d0, desc', hdd⟩ := List.exists_cons_of_ne_nil hdne
      have hassoc : desc ++ ((p0 :: ps').map renderMPart).flatten =
          [] ++ (desc ++ [' ']) ++ Mtail := by
        rw [hflat]
        simp
      rw [hassoc, hdd]
      rw [show (d0 :: desc') ++ [' '] = d0 :: (desc' ++ [' ']) from rfl]
      rw [replaceAll_strip (by simp) ?_]
      · rfl
      · have h2 := hoccM
        rw [hdd] at h2
        rwa [show (d0 :: desc') ++ [' '] = d0 :: (desc' ++ [' ']) from rfl] at h2
    rw [hsnd]
    have htm : trim Mtail = Mtail := by
      apply trim_eq_self
      · intro c hc
        rw [hMt, List.cons_append, List.head?_cons] at hc
        exact (Option.some.inj hc) ▸ hc0w
      · intro c hc
        obtain ⟨cl, hcll, hclw⟩ := flat_last hps (by simp)
        rw [hflat, getLast?_cons_ne_nil _ (by rw [hMt]; simp)] at hcll
        rw [hcll] at hc
        exact (Option.some.inj hc) ▸ hclw
    rw [htm, hflat]
    rfl
  · intro hx
    rw [List.length_append, List.length_append] at hx
    simp only [List.length_cons, List.length_append, List.length_singleton,
      List.length_nil] at hx
    omega

theorem mem_of_head? {α : Type} {l : List α} {c : α} (h : l.head? = some c) :
    c ∈ l := by
  cases l with
  | nil => simp at h
  | cons a l =>
    rw [List.head?_cons] at h
    rw [← Option.some.inj h]
    simp

theorem dropWhile_append_ne {α : Type} {p : α → Bool} {a : List α} (b : List α)
    (h : a.dropWhile p ≠ []) : (a ++ b).dropWhile p = a.dropWhile p ++ b := by
  induction a with
  | nil => simp at h
  | cons x a ih =>
    by_cases hx : p x
    · rw [List.cons_append, List.dropWhile_cons, if_pos hx]
      rw [List.dropWhile_cons, if_pos hx] at h ⊢
      exact ih h
    · rw [List.cons_append, List.dropWhile_cons, if_neg hx]
      rw [List.dropWhile_cons, if_neg hx]
      rfl

theorem trim_cons_ws {w : Char} (hw : rustWS w = true) (X : Str) :
    trim (w :: X) = trim X := by
  unfold trim trimRight
  rw [show w :: X = [w] ++ X from rfl, List.reverse_append]
  cases hXr : X.reverse.dropWhile rustWS with
  | nil =>
    have hall : ∀ x ∈ X.reverse, rustWS x = true := by
      rw [← List.dropWhile_eq_nil_iff]
      exact hXr
    rw [dropWhile_append_all _ _ hall]
    rw [show ([w] : Str).reverse = [w] from rfl]
    rw [List.dropWhile_cons, if_pos hw]
    rfl
  | cons c cs =>
    rw [dropWhile_append_ne _ (by rw [hXr]; simp)]
    rw [hXr, List.reverse_append]
    rw [show ([w] : Str).reverse = [w] from rfl]
    show trimLeft (w :: (c :: cs).reverse) = trimLeft (c :: cs).reverse
    unfold trimLeft
    rw [List.dropWhile_cons, if_pos hw]

theorem trim_append_ws {w : Char} (hw : rustWS w = true) (X : Str) :
    trim (X ++ [w]) = trim X := by
  unfold trim
  rw [trimRight_append_ws hw]

theorem dateRender_length {d : YMD} (h : cleanDate (some d) = true) :
    (dateRender d).length = 10 := by
  simp only [cleanDate, Bool.and_eq_true, decide_eq_true_eq] at h
  obtain ⟨⟨hv, h0⟩, h4⟩ := h
  simp only [validYMD, Bool.and_eq_true, decide_eq_true_eq] at hv
  obtain ⟨⟨⟨hm1, hm12⟩, hd1⟩, hdle⟩ := hv
  have hdm := daysInMonth_le d.year d.month
  unfold dateRender
  rw [List.length_append, List.length_append, List.length_append,
    List.length_append]
  rw [padNat_length (by omega) (show d.year.toNat < 10 ^ 4 by
    have : (10 : Nat) ^ 4 = 10000 := by norm_num
    omega)]
  rw [padNat_length (by omega) (show d.month < 10 ^ 2 by
    have : (10 : Nat) ^ 2 = 100 := by norm_num
    omega)]
  rw [padNat_length (by omega) (show d.day < 10 ^ 2 by
    have : (10 : Nat) ^ 2 = 100 := by norm_num
    omega)]
  rfl

theorem trim_dateRender (d : YMD) : trim (dateRender d) = dateRender d := by
  apply trim_eq_self
  · intro c hc
    have hm : c ∈ dateRender d := mem_of_head? hc
    exact rustWS_false_of_range (dateRender_range hm).1 (dateRender_range hm).2
  · intro c hc
    have hm : c ∈ dateRender d := List.mem_of_mem_getLast? hc
    exact rustWS_false_of_range (dateRender_range hm).1 (dateRender_range hm).2

theorem dateItem_clusters {mk : YMD → MDEvent} {d : YMD}
    (hd : cleanDate (some d) = true) (F : List Str) :
    dateItem mk ([' '] :: ((dateRender d).map (fun c => [c]) ++ F)) =
      some (mk d) ∧
    ([' '] :: ((dateRender d).map (fun c => [c]) ++ F)).drop 11 = F := by
  have hlen : ((dateRender d).map (fun c => [c])).length = 10 := by
    rw [List.length_map, dateRender_length hd]
  constructor
  · unfold dateItem
    have htake : ([' '] :: ((dateRender d).map (fun c => [c]) ++ F)).take 11 =
        [' '] :: (dateRender d).map (fun c => [c]) := by
      rw [show (11 : Nat) = 10 + 1 from rfl, List.take_succ_cons, ← hlen,
        List.take_left]
    rw [htake]
    rw [show ([' '] :: (dateRender d).map (fun c => [c])).flatten =
        ' ' :: dateRender d from by
      rw [List.flatten_cons, flatten_singletons]
      rfl]
    rw [trim_cons_ws (by decide), trim_dateRender]
    simp only [cleanDate, Bool.and_eq_true, decide_eq_true_eq] at hd
    rw [parseDateStr_dateRender hd.1.1 hd.1.2 hd.2]
    rfl
  · rw [show (11 : Nat) = 10 + 1 from rfl, List.drop_succ_cons, ← hlen,
      List.drop_left]

theorem takeWhile_all {α : Type} {p : α → Bool} {l : List α}
    (h : ∀ x ∈ l, p x = true) : l.takeWhile p = l := by
  have := takeWhile_append_all p ([] : List α) h
  simpa using this

/-- The metadata parser yields exactly one item per rendered metadata
element, in order. -/
theorem events_parts : ∀ {ps : List MPart}, (∀ p ∈ ps, partOkB p = true) →
    metadataEvents ((ps.map clusterOf).flatten) = ps.map eventItem := by
  intro ps
  induction ps with
  | nil => intro _; rfl
  | cons p rest ih =>
    intro h
    have hp := h p (by simp)
    have hcont := ih (fun q hq => h q (by simp [hq]))
    simp only [List.map_cons, List.flatten_cons]
    cases p with
    | proj q =>
      have hq : cleanText q = true := by
        simp only [partOkB, Bool.and_eq_true] at hp
        exact hp.2
      obtain ⟨htr, _, _, _, _⟩ := cleanText_parts hq
      simp only [clusterOf]
      rw [List.cons_append, List.cons_append, List.cons_append]
      rw [metadataEvents_skip (by decide)]
      rw [show (['🔨'] : Str) = gProject from rfl]
      rw [metadataEvents_project]
      cases hrest : rest with
      | nil =>
        simp only [List.map_nil, List.flatten_nil, List.append_nil]
        have hcap : ([' '] :: group q).takeWhile
            (fun g => !(SIGNIFICANT_EMOJI.contains g)) = [' '] :: group q := by
          apply takeWhile_all
          intro x hx
          rcases List.mem_cons.mp hx with hx | hx
          · subst hx; decide
          · exact cleanText_group_notSig hq x hx
        rw [hcap]
        rw [show ([' '] :: group q).flatten = ' ' :: q from by
          rw [List.flatten_cons, group_flatten]
          rfl]
        rw [trim_cons_ws (by decide), htr, List.drop_length]
        rfl
      | cons p' rest'' =>
        rw [hrest] at hcont
        obtain ⟨G', tailC', hcl', hGs'⟩ := clusterOf_head_sig (h p' (by simp [hrest]))
        have hFc : ((p' :: rest'').map clusterOf).flatten =
            [' '] :: [G'] :: (tailC' ++ (rest''.map clusterOf).flatten) := by
          simp only [List.map_cons, List.flatten_cons, hcl', List.cons_append]
        rw [hFc]
        have htw : ([' '] :: (group q ++ ([' '] :: [G'] ::
            (tailC' ++ (rest''.map clusterOf).flatten)))).takeWhile
              (fun g => !(SIGNIFICANT_EMOJI.contains g)) =
            [' '] :: (group q ++ [[' ']]) := by
          rw [List.takeWhile_cons]
          rw [show (!(SIGNIFICANT_EMOJI.contains ([' '] : Str))) = true from
            by decide]
          simp only [if_true]
          rw [takeWhile_append_all _ _ (cleanText_group_notSig hq)]
          congr 1
          rw [List.takeWhile_cons]
          rw [show (!(SIGNIFICANT_EMOJI.contains ([' '] : Str))) = true from
            by decide]
          simp only [if_true]
          rw [List.takeWhile_cons, hGs']
          rfl
        rw [htw]
        rw [show ([' '] :: (group q ++ [[' ']])).flatten = ' ' :: (q ++ [' ']) from by
          rw [List.flatten_cons, List.flatten_append, group_flatten]
          rfl]
        rw [trim_cons_ws (by decide), trim_append_ws (by decide), htr]
        have hsplit : [' '] :: (group q ++ ([' '] :: [G'] ::
            (tailC' ++ (rest''.map clusterOf).flatten))) =
            ([' '] :: (group q ++ [[' ']])) ++
              ([G'] :: (tailC' ++ (rest''.map clusterOf).flatten)) := by
          simp
        rw [hsplit, List.drop_left]
        rw [hFc] at hcont
        rw [metadataEvents_skip (by decide)] at hcont
        rw [hcont]
        rfl
    | date k d =>
      have hdc : cleanDate (some d) = true := by
        simpa [partOkB] using hp
      simp only [clusterOf]
      rw [List.cons_append, List.cons_append, List.cons_append]
      rw [metadataEvents_skip (by decide)]
      cases k with
      | due =>
        rw [show ([dkGlyph DK.due] : Str) = gDue from rfl]
        rw [metadataEvents_date (gDue, MDEvent.due) (by simp [dateMarkers])]
        rw [(@dateItem_clusters MDEvent.due d hdc _).1, (@dateItem_clusters MDEvent.due d hdc _).2, hcont]
        rfl
      | sched =>
        rw [show ([dkGlyph DK.sched] : Str) = gSched from rfl]
        rw [metadataEvents_date (gSched, MDEvent.scheduled) (by simp [dateMarkers])]
        rw [(@dateItem_clusters MDEvent.scheduled d hdc _).1, (@dateItem_clusters MDEvent.scheduled d hdc _).2, hcont]
        rfl
      | start =>
        rw [show ([dkGlyph DK.start] : Str) = gStart from rfl]
        rw [metadataEvents_date (gStart, MDEvent.start) (by simp [dateMarkers])]
        rw [(@dateItem_clusters MDEvent.start d hdc _).1, (@dateItem_clusters MDEvent.start d hdc _).2, hcont]
        rfl
      | created =>
        rw [show ([dkGlyph DK.created] : Str) = gCreated from rfl]
        rw [metadataEvents_date (gCreated, MDEvent.created) (by simp [dateMarkers])]
        rw [(@dateItem_clusters MDEvent.created d hdc _).1, (@dateItem_clusters MDEvent.created d hdc _).2, hcont]
        rfl
      | done =>
        rw [show ([dkGlyph DK.done] : Str) = gDone from rfl]
        rw [metadataEvents_date (gDone, MDEvent.done) (by simp [dateMarkers])]
        rw [(@dateItem_clusters MDEvent.done d hdc _).1, (@dateItem_clusters MDEvent.done d hdc _).2, hcont]
        rfl
      | canceled =>
        rw [show ([dkGlyph DK.canceled] : Str) = gCanceled from rfl]
        rw [metadataEvents_date (gCanceled, MDEvent.canceled) (by simp [dateMarkers])]
        rw [(@dateItem_clusters MDEvent.canceled d hdc _).1, (@dateItem_clusters MDEvent.canceled d hdc _).2, hcont]
        rfl
    | prio pr =>
      cases pr with
      | Lowest => simp [partOkB] at hp
      | Normal => simp [partOkB] at hp
      | Low =>
        simp only [clusterOf, prioGlyph, List.cons_append, List.nil_append]
        rw [metadataEvents_skip (by decide)]
        rw [show (['🔽'] : Str) = gLow from rfl]
        rw [metadataEvents_prio_low, hcont]
        rfl
      | Medium =>
        simp only [clusterOf, prioGlyph, List.cons_append, List.nil_append]
        rw [metadataEvents_skip (by decide)]
        rw [show (['🔼'] : Str) = gMedium from rfl]
        rw [metadataEvents_prio_medium, hcont]
        rfl
      | High =>
        simp only [clusterOf, prioGlyph, List.cons_append, List.nil_append]
        rw [metadataEvents_skip (by decide)]
        rw [show (['⏫'] : Str) = gHigh from rfl]
        rw [metadataEvents_prio_high, hcont]
        rfl
      | Highest =>
        simp only [clusterOf, prioGlyph, List.cons_append, List.nil_append]
        rw [metadataEvents_skip (by decide)]
        rw [show (['🔺'] : Str) = gHighest from rfl]
        rw [metadataEvents_prio_highest, hcont]
        rfl

theorem renderMPart_chars {p : MPart} (hp : partOkB p = true) {c : Char}
    (hc : c ∈ renderMPart p) : c ≠ '\n' ∧ c ≠ '[' := by
  cases p with
  | proj q =>
    have hq : cleanText q = true := by
      simp only [partOkB, Bool.and_eq_true] at hp
      exact hp.2
    obtain ⟨_, hnl, hbr, _, _⟩ := cleanText_parts hq
    simp only [renderMPart, List.mem_cons] at hc
    rcases hc with rfl | rfl | rfl | hc
    · exact ⟨by decide, by decide⟩
    · exact ⟨by decide, by decide⟩
    · exact ⟨by decide, by decide⟩
    · exact ⟨fun h => hnl (h ▸ hc), fun h => hbr (h ▸ hc)⟩
  | date k d =>
    simp only [renderMPart, List.mem_cons] at hc
    rcases hc with rfl | rfl | rfl | hc
    · exact ⟨by decide, by decide⟩
    · cases k <;> exact ⟨by decide, by decide⟩
    · exact ⟨by decide, by decide⟩
    · rcases dateRender_chars hc with h | h
      · constructor
        · intro he
          rw [he] at h
          simp [isDigit] at h
        · intro he
          rw [he] at h
          simp [isDigit] at h
      · subst h
        exact ⟨by decide, by decide⟩
  | prio pr =>
    simp only [renderMPart, List.mem_cons, List.not_mem_nil, or_false] at hc
    rcases hc with rfl | rfl
    · exact ⟨by decide, by decide⟩
    · cases pr <;> exact ⟨by decide, by decide⟩

theorem renderMiddle_chars {t : ObsidianTask}
    (hok : ∀ p ∈ partsOf t, partOkB p = true) {c : Char}
    (hc : c ∈ renderMiddle t) : c ≠ '\n' ∧ c ≠ '[' := by
  unfold renderMiddle at hc
  obtain ⟨l, hl, hcl⟩ := List.mem_flatten.mp hc
  obtain ⟨p, hpmem, rfl⟩ := List.mem_map.mp hl
  exact renderMPart_chars (hok p hpmem) hcl

theorem partsOf_eq_nil {t : ObsidianTask} (h : partsOf t = []) :
    t.project = none ∧ t.due = none ∧ t.scheduled = none ∧ t.start = none ∧
    t.created = none ∧ t.done = none ∧ t.canceled = none ∧
    t.priority = .Normal := by
  unfold partsOf at h
  simp only [List.append_eq_nil] at h
  obtain ⟨⟨⟨⟨⟨⟨⟨h1, h2⟩, h3⟩, h4⟩, h5⟩, h6⟩, h7⟩, h8⟩ := h
  refine ⟨?_, ?_, ?_, ?_, ?_, ?_, ?_, ?_⟩
  · cases hx : t.project
    · rfl
    · rw [hx] at h1
      simp at h1
  · cases hx : t.due
    · rfl
    · rw [hx] at h2
      simp [optPart] at h2
  · cases hx : t.scheduled
    · rfl
    · rw [hx] at h3
      simp [optPart] at h3
  · cases hx : t.start
    · rfl
    · rw [hx] at h4
      simp [optPart] at h4
  · cases hx : t.created
    · rfl
    · rw [hx] at h5
      simp [optPart] at h5
  · cases hx : t.done
    · rfl
    · rw [hx] at h6
      simp [optPart] at h6
  · cases hx : t.canceled
    · rfl
    · rw [hx] at h7
      simp [optPart] at h7
  · by_cases hx : t.priority = .Normal
    · exact hx
    · rw [if_neg hx] at h8
      simp at h8

theorem splitDescMeta_clean {desc : Str} (hd : cleanText desc = true) :
    splitDescMeta desc = (desc, none) := by
  obtain ⟨htr, _, _, _, _⟩ := cleanText_parts hd
  unfold splitDescMeta
  dsimp only
  rw [takeWhile_all (cleanText_group_notSig hd)]
  rw [if_pos rfl, htr]

theorem anchorFind_none {s : Str} (h : '[' ∉ s) : anchorFind s = none := by
  unfold anchorFind
  have hfind : (List.range s.length).find? (fun i =>
      uuidOpen.isPrefixOf (s.drop i) && (matchEndsAt s i).isSome) = none := by
    rw [List.find?_eq_none]
    intro i _
    intro hpred
    rw [Bool.and_eq_true] at hpred
    have hch : (s.drop i).head? = some '[' := by
      apply isPrefixOf_head (p := "[uuid: ".data)
      exact hpred.1
    have : '[' ∈ s := List.drop_subset i s (mem_of_head? hch)
    exact h this
  rw [hfind]

/-- Replaying the per-element event stream over the preamble-only record
rebuilds the full record. -/
theorem applyEvents_partsOf (t : ObsidianTask) :
    applyEvents (ObsidianTask.mk t.uuid t.status t.description t.tags
        none none none none none none .Normal none)
      ((partsOf t).map eventItem) = t := by
  obtain ⟨uuid, status, desc, tags, due, sched, start, created, done, canceled,
    prio, project⟩ := t
  by_cases hn : prio = .Normal
  · subst hn
    cases project <;> cases due <;> cases sched <;> cases start <;>
      cases created <;> cases done <;> cases canceled <;>
      simp [partsOf, optPart, applyEvents, applyEvent, eventItem, dkEvent]
  · cases project <;> cases due <;> cases sched <;> cases start <;>
      cases created <;> cases done <;> cases canceled <;>
      simp [partsOf, optPart, applyEvents, applyEvent, eventItem, dkEvent, hn]

/-- `parse_preamble` on a rendered line: marker and remainder recovered. -/
theorem parsePreamble_render (st : Status) {rest : Str}
    (h : rest.contains '\n' = false) :
    parsePreamble ("- [".data ++ [statusMarker st] ++ "] ".data ++ rest) =
      some (st, rest) := by
  have hmem : '\n' ∉ rest := by
    rw [contains_eq_mem] at h
    simpa using h
  cases st <;> simp [parsePreamble, statusMarker, List.isPrefixOf, rustWS, hmem]

theorem partTail_head_vs {p : MPart} (hp : partOkB p = true) :
    ∃ c tail2, renderMPart p = ' ' :: c :: tail2 ∧ rustWS c = false ∧
      c ≠ vs16 := by
  cases p with
  | proj q => exact ⟨'🔨', ' ' :: q, rfl, by decide, by decide⟩
  | date k d =>
    exact ⟨dkGlyph k, ' ' :: dateRender d, rfl, by cases k <;> decide,
      by cases k <;> decide⟩
  | prio pr =>
    cases pr with
    | Lowest => simp [partOkB] at hp
    | Normal => simp [partOkB] at hp
    | Low => exact ⟨'🔽', [], rfl, by decide, by decide⟩
    | Medium => exact ⟨'🔼', [], rfl, by decide, by decide⟩
    | High => exact ⟨'⏫', [], rfl, by decide, by decide⟩
    | Highest => exact ⟨'🔺', [], rfl, by decide, by decide⟩

/-- The metadata iterator over the grapheme clusters of the rendered run
(everything after the first separating space) yields one item per element. -/
theorem events_metaRun {p0 : MPart} {ps' : List MPart}
    (h : ∀ p ∈ p0 :: ps', partOkB p = true) :
    metadataEvents (group ((((p0 :: ps').map renderMPart).flatten).drop 1)) =
      (p0 :: ps').map eventItem := by
  obtain ⟨c0, tail2, hp0, _, hc0v⟩ := partTail_head_vs (h p0 (by simp))
  have hflat : ((p0 :: ps').map renderMPart).flatten =
      ' ' :: (c0 :: tail2 ++ (ps'.map renderMPart).flatten) := by
    simp only [List.map_cons, List.flatten_cons, hp0]
    rfl
  have hdrop : (((p0 :: ps').map renderMPart).flatten).drop 1 =
      c0 :: tail2 ++ (ps'.map renderMPart).flatten := by
    rw [hflat]
    simp
  have hg1 : group (((p0 :: ps').map renderMPart).flatten) =
      [' '] :: group (c0 :: tail2 ++ (ps'.map renderMPart).flatten) := by
    rw [hflat]
    exact group_cons_nonvs ' ' (head_cons_ne_vs16 hc0v _)
  obtain ⟨G, tailC, hcl, _⟩ := clusterOf_head_sig (h p0 (by simp))
  have hclu : ((p0 :: ps').map clusterOf).flatten =
      [' '] :: ([G] :: tailC ++ (ps'.map clusterOf).flatten) := by
    simp only [List.map_cons, List.flatten_cons, hcl, List.cons_append]
  have hgt : group (c0 :: tail2 ++ (ps'.map renderMPart).flatten) =
      [G] :: tailC ++ (ps'.map clusterOf).flatten := by
    have h' := hg1.symm.trans ((group_parts h).trans hclu)
    injection h'
  rw [hdrop, hgt]
  have he := events_parts h
  rw [hclu, metadataEvents_skip (by decide)] at he
  exact he

theorem head?_append_left {α : Type} {a : List α} (b : List α) (h : a ≠ []) :
    (a ++ b).head? = a.head? := by
  cases a with
  | nil => exact absurd rfl h
  | cons x a => rfl

/-- The rendered line body (description plus metadata run) is already
trimmed. -/
theorem trim_desc_middle {t : ObsidianTask} (hw : WellFormed t)
    (hp : t.priority ≠ .Lowest) :
    trim (t.description ++ renderMiddle t) = t.description ++ renderMiddle t := by
  obtain ⟨h1, h2, _, _, _, _, _, _, _, _, _, _⟩ := wellFormed_parts hw
  obtain ⟨htr, _, _, _, _⟩ := cleanText_parts h2
  have hok := partsOf_ok hw hp
  apply trim_eq_self
  · intro c hc
    rw [head?_append_left _ h1] at hc
    exact head_not_ws_of_trim htr hc
  · intro c hc
    cases hps : partsOf t with
    | nil =>
      have hmid : renderMiddle t = [] := by
        unfold renderMiddle
        rw [hps]
        rfl
      rw [hmid, List.append_nil] at hc
      exact last_not_ws_of_trim htr hc
    | cons p0 ps' =>
      rw [hps] at hok
      obtain ⟨cl, hcll, hclw⟩ := flat_last hok (by simp)
      have hmid : renderMiddle t = ((p0 :: ps').map renderMPart).flatten := by
        unfold renderMiddle
        rw [hps]
      have hmidne : renderMiddle t ≠ [] := by
        intro hx
        rw [hx] at hmid
        rw [← hmid] at hcll
        simp at hcll
      rw [List.getLast?_append_of_ne_nil _ hmidne, hmid, hcll] at hc
      exact (Option.some.inj hc) ▸ hclw

/-- `assemble` applied to the splitter's output on the rendered body rebuilds
the record. -/
theorem assemble_split {t : ObsidianTask} (hw : WellFormed t)
    (hp : t.priority ≠ .Lowest) {uuidArg : Option Str} (hu : uuidArg = t.uuid) :
    assemble t.status (splitDescMeta (t.description ++ renderMiddle t)).1
      (splitDescMeta (t.description ++ renderMiddle t)).2 uuidArg = some t := by
  obtain ⟨h1, h2, h3, _, _, _, _, _, _, _, _, h12⟩ := wellFormed_parts hw
  have hok := partsOf_ok hw hp
  have hthis := applyEvents_partsOf t
  cases hps : partsOf t with
  | nil =>
    have hmid : renderMiddle t = [] := by
      unfold renderMiddle
      rw [hps]
      rfl
    rw [hmid, List.append_nil, splitDescMeta_clean h2]
    unfold assemble
    rw [if_neg (by simpa using h1)]
    rw [hps] at hthis
    simp only [List.map_nil] at hthis
    rw [hu, ← h3]
    exact congrArg some hthis
  | cons p0 ps' =>
    rw [hps] at hok
    have hmid : renderMiddle t = ((p0 :: ps').map renderMPart).flatten := by
      unfold renderMiddle
      rw [hps]
    have hocc : occursB (t.description ++ [' '])
        (((p0 :: ps').map renderMPart).flatten) = false := by
      rw [← hmid]
      exact h12
    rw [hmid, splitDescMeta_render h2 h1 hok hocc]
    unfold assemble
    rw [if_neg (by simpa using h1)]
    dsimp only
    rw [events_metaRun hok]
    rw [hps] at hthis
    rw [hu, ← h3]
    exact congrArg some hthis

/-- C1 (amended): parsing a rendered task line is the identity on every
well-formed task record whose priority is not `Lowest`.  A record is
well-formed when its free-text fields are trimmed, newline- and bracket-free
and contain no metadata glyph, its dates are calendar-valid with years in
`0..=9999`, its identifier is canonical, its tag list is the one its own
description yields, and the description does not recur inside the rendered
metadata run.  The `Lowest` priority is excluded: its two glyph encodings are
handled inconsistently by the parser (see the C1 counterexample, where a
well-formed `Lowest` record has a parseable line form but fails the
round trip on both renderings). -/
theorem c1_roundtrip (t : ObsidianTask) (hw : WellFormed t)
    (hp : t.priority ≠ .Lowest) : parse (render t) = some t := by
  obtain ⟨h1, h2, _, _, _, _, _, _, _, _, h11, _⟩ := wellFormed_parts hw
  obtain ⟨htr, hnl, hbr, _, _⟩ := cleanText_parts h2
  have hok := partsOf_ok hw hp
  have hmidc : ∀ c ∈ renderMiddle t, c ≠ '\n' ∧ c ≠ '[' :=
    fun c hc => renderMiddle_chars hok hc
  cases hu : t.uuid with
  | none =>
    have hrender : render t = "- [".data ++ [statusMarker t.status] ++
        "] ".data ++ (t.description ++ renderMiddle t) := by
      unfold render
      rw [hu]
      simp [List.append_assoc]
    have hnlrem : (t.description ++ renderMiddle t).contains '\n' = false := by
      rw [contains_eq_mem]
      simp only [decide_eq_false_iff_not]
      intro hx
      rcases List.mem_append.mp hx with hx | hx
      · exact hnl hx
      · exact (hmidc _ hx).1 rfl
    have hbrrem : '[' ∉ t.description ++ renderMiddle t := by
      intro hx
      rcases List.mem_append.mp hx with hx | hx
      · exact hbr hx
      · exact (hmidc _ hx).2 rfl
    unfold parse
    rw [hrender, parsePreamble_render t.status hnlrem]
    dsimp only
    unfold extractTaskParts
    rw [anchorFind_none hbrrem]
    dsimp only
    exact assemble_split hw hp hu.symm
  | some u =>
    have hcu : canonicalUuid u = true := by
      rw [hu] at h11
      simpa using h11
    have hrender : render t = "- [".data ++ [statusMarker t.status] ++
        "] ".data ++ ((t.description ++ (renderMiddle t ++ [' '])) ++
          (uuidOpen ++ (u ++ uuidClose))) := by
      unfold render
      rw [hu]
      simp [List.append_assoc, show (" ".data : Str) = [' '] from rfl]
    have hnlrem : ((t.description ++ (renderMiddle t ++ [' '])) ++
        (uuidOpen ++ (u ++ uuidClose))).contains '\n' = false := by
      rw [contains_eq_mem]
      simp only [decide_eq_false_iff_not]
      intro hx
      rcases List.mem_append.mp hx with hx | hx
      · rcases List.mem_append.mp hx with hx | hx
        · exact hnl hx
        · rcases List.mem_append.mp hx with hx | hx
          · exact (hmidc _ hx).1 rfl
          · exact absurd hx (by decide)
      · rcases List.mem_append.mp hx with hx | hx
        · exact absurd hx (by decide)
        · rcases List.mem_append.mp hx with hx | hx
          · exact canonical_not_mem hcu (by decide) (by decide) hx
          · exact absurd hx (by decide)
    have hbrPRE : '[' ∉ t.description ++ (renderMiddle t ++ [' ']) := by
      intro hx
      rcases List.mem_append.mp hx with hx | hx
      · exact hbr hx
      · rcases List.mem_append.mp hx with hx | hx
        · exact (hmidc _ hx).2 rfl
        · exact absurd hx (by decide)
    unfold parse
    rw [hrender, parsePreamble_render t.status hnlrem]
    dsimp only
    unfold extractTaskParts
    rw [anchorFind_exact hbrPRE hcu]
    dsimp only
    have hra : replaceAll ((t.description ++ (renderMiddle t ++ [' '])) ++
        (uuidOpen ++ (u ++ uuidClose))) (uuidOpen ++ (u ++ uuidClose)) [] =
        t.description ++ (renderMiddle t ++ [' ']) := by
      have hW : uuidOpen ++ (u ++ uuidClose) =
          '[' :: ("[uuid: ".data ++ (u ++ uuidClose)) := rfl
      rw [hW]
      have h0 := @replaceAll_strip '[' ("[uuid: ".data ++ (u ++ uuidClose))
        (t.description ++ (renderMiddle t ++ [' '])) [] hbrPRE rfl
      rw [List.append_nil, List.append_nil] at h0
      exact h0
    rw [hra]
    have htrim : trim (t.description ++ (renderMiddle t ++ [' '])) =
        t.description ++ renderMiddle t := by
      rw [← List.append_assoc, trim_append_ws (by decide)]
      exact trim_desc_middle hw hp
    rw [htrim, parseUuidStr_canonical hcu]
    exact assemble_split hw hp hu.symm

/-- Concrete full-featured record for the C1 witness: identifier, all six
dates, a tagged description, a project and a non-default priority. -/
def c1WitTask : ObsidianTask :=
  ObsidianTask.mk (some uuidA) .Complete "Write the report #work/q3".data
    ["work".data, "q3".data] (some ⟨2025, 5, 19⟩) (some ⟨2025, 5, 20⟩)
    (some ⟨2025, 5, 18⟩) (some ⟨2025, 5, 1⟩) (some ⟨2025, 6, 2⟩)
    (some ⟨2025, 6, 3⟩) .High (some "home improvement".data)

/-- C1 witness: the round-trip theorem applied to a concrete record carrying
an identifier, every date field, tags, a project and High priority. -/
theorem c1_roundtrip_witness :
    WellFormed c1WitTask ∧ c1WitTask.priority ≠ .Lowest ∧
      parse (render c1WitTask) = some c1WitTask :=
  ⟨by decide, by decide, c1_roundtrip c1WitTask (by decide) (by decide)⟩

end Sharptask
